import Mathlib

/-!
A Lean model of `fsv::filtered_string_view`

The development embeds `src/src/filtered_string_view.cpp` and states the
behaviour of the view, of its comparison operators, of the derived operations
`compose`, `substr` and `split`, and of its iterators.

Modelling conventions.

* Character storage is an explicit, read-only `Memory`. A pointer is an
  integer address, `0` is `nullptr`, and reading an address that belongs to
  no object is undefined behaviour, reported as `Exn.undefined`. Pointer
  arithmetic is arithmetic on addresses: the position one before the buffer
  start, which `operator--` forms, is an address like any other, and only a
  read through it would be undefined.
* A `filter` is `std::function<bool(const char&)>`. Its argument is a
  reference, so the callee sees the address of the character as well as its
  value (the predicate built by `substr` compares addresses).
* `std::size_t` values are natural numbers and `int` values are integers
  between `-2 ^ 31` and `2 ^ 31 - 1`. The conversions between the two are the
  modular ones (`to_int`, `to_size_t`), and arithmetic on `int` is arithmetic
  modulo `2 ^ 32` (`int_add`, `int_sub`), as the target computes it.
* A `char` is a signed byte, and two `char` are compared by their signed
  values (`char_val`, `char_lt`).
* A function that may throw returns `Res`. A `noexcept` function that lets an
  exception escape calls `std::terminate`, reported as `Exn.terminate`.
* Every `for` loop is a recursive function whose first numeric argument is
  the number of iterations that remain.
-/

namespace fsv

/-! ## Storage and results -/

/-- The null character that ends a C string. -/
def NUL : Char := Char.ofNat 0

/-- Read-only character storage: entry `k` of the list is the byte at address
`k + 1`, and `none` marks an address that belongs to no live object. -/
abbrev Memory := List (Option Char)

/-- The byte at address `p`, when `p` is inside a live object. -/
def Memory.read (m : Memory) (p : Int) : Option Char :=
  if p ≤ 0 then none else (m[p.toNat - 1]?).join

/-- Storage of a `std::string` with contents `s` at address `a`: the characters
followed by the terminating null that `data()` guarantees. -/
def Memory.holds (m : Memory) : Int → List Char → Bool
  | a, [] => m.read a == some NUL
  | a, c :: s => m.read a == some c && Memory.holds m (a + 1) s

/-- The ways a call can fail. -/
inductive Exn where
  | domain_error (what : String)
  | terminate
  | undefined
  deriving DecidableEq, Repr

/-- Result of a call: a value or a failure. -/
inductive Res (α : Type) where
  | ok (a : α)
  | error (e : Exn)
  deriving DecidableEq, Repr

/-- A `noexcept` function: an escaping exception ends the program. -/
def noexcept_ {α : Type} (x : Res α) : Res α :=
  match x with
  | .error (.domain_error _) => .error .terminate
  | r => r

/-! ## Machine integers -/

/-- The largest value of type `int`. -/
def INT_MAX : Nat := 2147483647

/-- The smallest value of type `int`. -/
def INT_MIN : Int := -2147483648

/-- Conversion `static_cast<int>` of an integer value: the value modulo `2 ^ 32`
read as 32-bit two's complement. The definition goes by the sign of the
argument so that it computes on natural numbers (see `to_int_eq`). -/
def to_int : Int → Int
  | Int.ofNat n =>
    if n % 4294967296 < 2147483648 then Int.ofNat (n % 4294967296)
    else Int.negSucc (4294967295 - n % 4294967296)
  | Int.negSucc n =>
    if n % 4294967296 < 2147483648 then Int.negSucc (n % 4294967296)
    else Int.ofNat (4294967295 - n % 4294967296)

/-- Addition on `int`: the sum modulo `2 ^ 32`, read as two's complement, which
is what the target computes when the exact sum does not fit. -/
def int_add (x y : Int) : Int := to_int (x + y)

/-- Subtraction on `int`, modulo `2 ^ 32` like `int_add`. -/
def int_sub (x y : Int) : Int := to_int (x - y)

/-- Conversion `static_cast<std::size_t>` of an integer value (64 bits). -/
def to_size_t (x : Int) : Nat := (x % 18446744073709551616).toNat

/-- Subtraction on `std::size_t`, which wraps around. -/
def size_t_sub (x y : Nat) : Nat := to_size_t ((x : Int) - (y : Int))

/-- The value of a `char`. The type `char` is a signed 8-bit integer on the
target, so the bytes `128` to `255` are the negative values `-128` to `-1`.
The characters of a program are bytes; a code point above `255` does not occur
in its storage and keeps its own value here, which makes the conversion
one to one. -/
def char_val (c : Char) : Int :=
  if c.toNat < 128 then (c.toNat : Int)
  else if c.toNat < 256 then (c.toNat : Int) - 256
  else (c.toNat : Int)

/-- The comparison `a < b` of two `char` (`a > b` is `b < a`). -/
def char_lt (a b : Char) : Prop := char_val a < char_val b

instance (a b : Char) : Decidable (char_lt a b) :=
  inferInstanceAs (Decidable (char_val a < char_val b))

/-! ## References, filters and C strings -/

/-- A reference `const char&`: the address of a character and the character
found there. -/
structure char_ref where
  addr : Int
  val : Char
  deriving DecidableEq, Repr

/-- Dereference of a `const char*`. -/
def deref (m : Memory) (p : Int) : Res char_ref :=
  match m.read p with
  | some c => .ok ⟨p, c⟩
  | none => .error .undefined

/-- The type `fsv::filter`, applied to the address and the value of a character. -/
abbrev filter := Int → Char → Bool

/-- Application of a filter to a reference. -/
def filter.call (f : filter) (r : char_ref) : Bool := f r.addr r.val

/-- The scan of `std::strlen`. A read outside live storage is undefined
behaviour, and storage is finite, so `m.length + 1` steps always suffice. -/
def strlen_loop (m : Memory) : Nat → Int → Nat → Res Nat
  | 0, _, _ => .error .undefined
  | n + 1, p, acc =>
    match m.read p with
    | none => .error .undefined
    | some c => if c = NUL then .ok acc else strlen_loop m n (p + 1) (acc + 1)

/-- The library function `std::strlen`. -/
def strlen (m : Memory) (str : Int) : Res Nat :=
  strlen_loop m (m.length + 1) str 0

/-! ## The view and its constructors -/

/-- The class `fsv::filtered_string_view`: its three private members. -/
structure filtered_string_view where
  ptr_ : Int
  length_ : Nat
  predicate_ : filter

/-- The static member `default_predicate`. -/
def filtered_string_view.default_predicate : filter := fun _ _ => true

/-- The default constructor. -/
def filtered_string_view.mk_default : filtered_string_view :=
  ⟨0, 0, filtered_string_view.default_predicate⟩

/-- The implicit string constructor, for a string with `data() = data` and
`length() = length`. -/
def filtered_string_view.of_string (data : Int) (length : Nat) : filtered_string_view :=
  ⟨data, length, filtered_string_view.default_predicate⟩

/-- The string constructor with a predicate. -/
def filtered_string_view.of_string_pred (data : Int) (length : Nat) (predicate : filter) :
    filtered_string_view :=
  ⟨data, length, predicate⟩

/-- The null terminated string constructor with a predicate. -/
def filtered_string_view.of_cstr_pred (m : Memory) (str : Int) (predicate : filter) :
    Res filtered_string_view :=
  match strlen m str with
  | .ok n => .ok ⟨str, n, predicate⟩
  | .error e => .error e

/-- The implicit null terminated string constructor. -/
def filtered_string_view.of_cstr (m : Memory) (str : Int) : Res filtered_string_view :=
  filtered_string_view.of_cstr_pred m str filtered_string_view.default_predicate

/-- The copy constructor. -/
def filtered_string_view.copy (other : filtered_string_view) : filtered_string_view :=
  ⟨other.ptr_, other.length_, other.predicate_⟩

/-- The move constructor: the constructed view, and `other` after the call. -/
def filtered_string_view.move (other : filtered_string_view) :
    filtered_string_view × filtered_string_view :=
  (⟨other.ptr_, other.length_, other.predicate_⟩,
    ⟨0, 0, filtered_string_view.default_predicate⟩)

/-- The move assignment `*this = std::move(other)` for objects at the addresses
`this_addr` and `other_addr`: `*this` and `other` after the call. -/
def filtered_string_view.move_assign (this_addr other_addr : Nat)
    (self other : filtered_string_view) : filtered_string_view × filtered_string_view :=
  if this_addr ≠ other_addr then
    (⟨other.ptr_, other.length_, other.predicate_⟩,
      ⟨0, 0, filtered_string_view.default_predicate⟩)
  else (self, other)

/-! ## Member functions of the view -/

namespace filtered_string_view

/-- The element `ptr_[i]`. -/
def elem (m : Memory) (self : filtered_string_view) (i : Nat) : Res char_ref :=
  deref m (self.ptr_ + i)

/-- The loop of `size`. -/
def size_loop (m : Memory) (self : filtered_string_view) : Nat → Nat → Nat → Res Nat
  | 0, _, soln => .ok soln
  | n + 1, i, soln =>
    match self.elem m i with
    | .error e => .error e
    | .ok c =>
      if self.predicate_.call c then size_loop m self n (i + 1) (soln + 1)
      else size_loop m self n (i + 1) soln

/-- The member `size`. -/
def size (m : Memory) (self : filtered_string_view) : Res Nat :=
  if self.ptr_ = 0 then .ok 0 else self.size_loop m self.length_ 0 0

/-- The member `data`. -/
def data (self : filtered_string_view) : Int := self.ptr_

/-- The text of the exception thrown by `at`. -/
def at_what (index : Int) : String :=
  "filtered_string_view::at(" ++ toString index ++ "): invalid index"

/-- The loop of `at`; `idx` counts the kept characters passed so far. It never
exceeds `index`, so it never overflows. -/
def at_loop (m : Memory) (self : filtered_string_view) (index : Int) :
    Nat → Nat → Int → Res char_ref
  | 0, _, _ => .error (.domain_error (at_what index))
  | n + 1, i, idx =>
    match self.elem m i with
    | .error e => .error e
    | .ok c =>
      if self.predicate_.call c then
        if idx = index then .ok c else at_loop m self index n (i + 1) (idx + 1)
      else at_loop m self index n (i + 1) idx

/-- The member `at`. -/
def «at» (m : Memory) (self : filtered_string_view) (index : Int) : Res char_ref :=
  if index < 0 ∨ to_size_t index ≥ self.length_ then
    .error (.domain_error (at_what index))
  else self.at_loop m index self.length_ 0 0

/-- The member `empty`. -/
def empty (m : Memory) (self : filtered_string_view) : Res Bool :=
  match self.size m with
  | .ok n => .ok (if n = 0 then true else false)
  | .error e => .error e

/-- The member `predicate`. -/
def predicate (self : filtered_string_view) : filter := self.predicate_

/-- The subscript operator. -/
def subscript (m : Memory) (self : filtered_string_view) (n : Int) : Res char_ref :=
  self.at m n

/-- The loop of the conversion to `std::string`. -/
def operator_string_loop (m : Memory) (self : filtered_string_view) :
    Nat → Nat → List Char → Res (List Char)
  | 0, _, soln => .ok soln
  | n + 1, i, soln =>
    match self.elem m i with
    | .error e => .error e
    | .ok c =>
      if self.predicate_.call c then operator_string_loop m self n (i + 1) (soln ++ [c.val])
      else operator_string_loop m self n (i + 1) soln

/-- The conversion `operator std::string`; the result is the contents of the
new string. -/
def operator_string (m : Memory) (self : filtered_string_view) : Res (List Char) :=
  match self.size m with
  | .error e => .error e
  | .ok sz =>
    if sz = 0 then .ok []
    else self.operator_string_loop m self.length_ 0 []

end filtered_string_view

/-! ## Comparison operators -/

/-- The type `std::strong_ordering`, restricted to its three values. -/
inductive strong_ordering where
  | less
  | equivalent
  | greater
  deriving DecidableEq, Repr

namespace filtered_string_view

/-- The loop of `operator==`. -/
def operator_eq_loop (m : Memory) (lhs rhs : filtered_string_view) : Nat → Nat → Res Bool
  | 0, _ => .ok true
  | n + 1, i =>
    match lhs.at m (to_int i) with
    | .error e => .error e
    | .ok l =>
      match rhs.at m (to_int i) with
      | .error e => .error e
      | .ok r => if l.val ≠ r.val then .ok false else operator_eq_loop m lhs rhs n (i + 1)

/-- The non-member `operator==` on views. -/
def operator_eq (m : Memory) (lhs rhs : filtered_string_view) : Res Bool :=
  match lhs.size m with
  | .error e => .error e
  | .ok sz =>
    match rhs.size m with
    | .error e => .error e
    | .ok rsz => if sz ≠ rsz then .ok false else operator_eq_loop m lhs rhs sz 0

/-- The loop of `operator<=>`: `some o` when the loop returns `o`, `none` when
it runs to its end. Each comparison of the source calls `at` on both sides. -/
def operator_spaceship_loop (m : Memory) (lhs rhs : filtered_string_view) :
    Nat → Nat → Res (Option strong_ordering)
  | 0, _ => .ok none
  | n + 1, i =>
    match lhs.at m (to_int i) with
    | .error e => .error e
    | .ok l =>
      match rhs.at m (to_int i) with
      | .error e => .error e
      | .ok r =>
        if char_lt l.val r.val then .ok (some .less)
        else
          match lhs.at m (to_int i) with
          | .error e => .error e
          | .ok l2 =>
            match rhs.at m (to_int i) with
            | .error e => .error e
            | .ok r2 =>
              if char_lt r2.val l2.val then .ok (some .greater)
              else operator_spaceship_loop m lhs rhs n (i + 1)

/-- The non-member `operator<=>` on views. -/
def operator_spaceship (m : Memory) (lhs rhs : filtered_string_view) : Res strong_ordering :=
  match lhs.size m with
  | .error e => .error e
  | .ok lhs_size =>
    match rhs.size m with
    | .error e => .error e
    | .ok rhs_size =>
      match operator_spaceship_loop m lhs rhs (min lhs_size rhs_size) 0 with
      | .error e => .error e
      | .ok (some o) => .ok o
      | .ok none =>
        if lhs_size < rhs_size then .ok .less
        else if lhs_size > rhs_size then .ok .greater
        else .ok .equivalent

/-! ## Stream output -/

/-- The loop of `operator<<`; the stream is the list of the characters written
so far. -/
def operator_shl_loop (m : Memory) (fsv : filtered_string_view) :
    Nat → Nat → List Char → Res (List Char)
  | 0, _, os => .ok os
  | n + 1, i, os =>
    match fsv.at m (to_int i) with
    | .error e => .error e
    | .ok c => operator_shl_loop m fsv n (i + 1) (os ++ [c.val])

/-- The non-member `operator<<`: the stream after the call. -/
def operator_shl (m : Memory) (os : List Char) (fsv : filtered_string_view) :
    Res (List Char) :=
  match fsv.size m with
  | .error e => .error e
  | .ok sz => operator_shl_loop m fsv sz 0 os

end filtered_string_view

/-! ## Derived operations -/

/-- The predicate that `compose` builds from the list `filts`. -/
def compose_predicate : List filter → filter
  | [], _, _ => true
  | filt :: rest, a, c => if !filt a c then false else compose_predicate rest a c

/-- The function `compose`: the null terminated string constructor applied to
`fsv.data()` and the composed predicate. -/
def compose (m : Memory) (fsv : filtered_string_view) (filts : List filter) :
    Res filtered_string_view :=
  filtered_string_view.of_cstr_pred m fsv.data (compose_predicate filts)

/-- The predicate that `substr` builds: `&c <= end && fsv.predicate()(c) && rcount != 0`. -/
def substr_predicate (fsv : filtered_string_view) (end_ : Int) (rcount : Int) : filter :=
  fun a c => decide (a ≤ end_) && fsv.predicate a c && decide (rcount ≠ 0)

/-- The function `substr`. -/
def substr (m : Memory) (fsv : filtered_string_view) (pos count : Int) :
    Res filtered_string_view :=
  let rcount : Res Int :=
    if count ≤ 0 then
      match fsv.size m with
      | .error e => .error e
      | .ok sz => .ok (int_sub (to_int sz) pos)
    else .ok count
  match rcount with
  | .error e => .error e
  | .ok rcount =>
    match fsv.at m pos with
    | .error e => .error e
    | .ok new_ptr =>
      match fsv.at m (int_sub (int_add pos rcount) 1) with
      | .error e => .error e
      | .ok end_ =>
        filtered_string_view.of_cstr_pred m new_ptr.addr (substr_predicate fsv end_.addr rcount)

/-- The inner loop of `split`, for the position `end_` of the outer loop:
`true` when the loop leaves `is_a_match` set. -/
def split_match_loop (m : Memory) (fsv tok : filtered_string_view) (end_ : Nat) :
    Nat → Nat → Res Bool
  | 0, _ => .ok true
  | n + 1, i =>
    match fsv.at m (to_int ((end_ + i : Nat) : Int)) with
    | .error e => .error e
    | .ok a =>
      match tok.at m (to_int i) with
      | .error e => .error e
      | .ok b => if a.val ≠ b.val then .ok false else split_match_loop m fsv tok end_ n (i + 1)

/-- The element that `split` pushes for the segment from `begin` to `end_`. -/
def split_segment (m : Memory) (fsv : filtered_string_view) (begin : Int) (end_ : Int) :
    Res filtered_string_view :=
  if end_ ≠ begin then substr m fsv begin (int_sub end_ begin)
  else .ok filtered_string_view.mk_default

/-- The outer loop of `split`, from the position `end_` with the variables
`begin` and `soln`; the result is `begin` and `soln` after the loop. The body
assigns to `end_`, so the first argument only bounds the number of rounds:
every round moves `end_` forward, and `fsv.size() + 1` rounds suffice. -/
def split_loop (m : Memory) (fsv tok : filtered_string_view) :
    Nat → Nat → Int → List filtered_string_view → Res (Int × List filtered_string_view)
  | 0, _, _, _ => .error .undefined
  | fuel + 1, end_, begin, soln =>
    match fsv.size m with
    | .error e => .error e
    | .ok sz =>
      if end_ < sz then
        match fsv.at m (to_int end_) with
        | .error e => .error e
        | .ok a =>
          match tok.at m 0 with
          | .error e => .error e
          | .ok b =>
            if a.val = b.val then
              match tok.size m with
              | .error e => .error e
              | .ok tsz =>
                match split_match_loop m fsv tok end_ (tsz - 1) 1 with
                | .error e => .error e
                | .ok false => split_loop m fsv tok fuel (end_ + 1) begin soln
                | .ok true =>
                  match split_segment m fsv begin (to_int end_) with
                  | .error e => .error e
                  | .ok element =>
                    let begin' := to_int ((tsz + end_ : Nat) : Int)
                    let end' := to_size_t (int_sub begin' 1)
                    split_loop m fsv tok fuel (end' + 1) begin' (soln ++ [element])
            else split_loop m fsv tok fuel (end_ + 1) begin soln
      else .ok (begin, soln)

/-- The function `split`. -/
def split (m : Memory) (fsv tok : filtered_string_view) : Res (List filtered_string_view) :=
  match fsv.size m with
  | .error e => .error e
  | .ok sz =>
    match tok.size m with
    | .error e => .error e
    | .ok tsz =>
      if sz = 0 ∨ tsz = 0 ∨ tsz > sz then .ok [fsv.copy]
      else
        match split_loop m fsv tok (sz + 1) 0 0 [] with
        | .error e => .error e
        | .ok (begin, soln) =>
          if begin < to_int sz then
            match substr m fsv begin (int_sub (to_int sz) begin) with
            | .error e => .error e
            | .ok element => .ok (soln ++ [element])
          else .ok (soln ++ [filtered_string_view.mk_default])

/-! ## Iterators -/

/-- A pointer `const filtered_string_view*`: the address of a view object
together with the object found there. -/
structure view_ptr where
  addr : Nat
  target : filtered_string_view

/-- The class `filtered_string_view::iter`: its three private members. -/
structure iter where
  iterator_ptr_ : Int
  fsv_ : view_ptr
  index_ : Int

namespace iter

/-- The dereference `operator*`. -/
def operator_deref (m : Memory) (self : iter) : Res char_ref :=
  deref m self.iterator_ptr_

/-- The loop `do ++iterator_ptr_; while (!predicate_(*iterator_ptr_));` of
`operator++`, from the pointer `p`. Every read outside live storage ends the
loop, so `m.length + 1` rounds always suffice. -/
def scan_forward (m : Memory) (v : filtered_string_view) : Nat → Int → Res Int
  | 0, _ => .error .undefined
  | n + 1, p =>
    match deref m (p + 1) with
    | .error e => .error e
    | .ok c => if !v.predicate_.call c then scan_forward m v n (p + 1) else .ok (p + 1)

/-- The loop `do --iterator_ptr_; while (!predicate_(*iterator_ptr_));` of
`operator--`, from the pointer `p`. -/
def scan_backward (m : Memory) (v : filtered_string_view) : Nat → Int → Res Int
  | 0, _ => .error .undefined
  | n + 1, p =>
    match deref m (p - 1) with
    | .error e => .error e
    | .ok c => if !v.predicate_.call c then scan_backward m v n (p - 1) else .ok (p - 1)

/-- The prefix `operator++`; the result is the iterator after the call. -/
def operator_inc (m : Memory) (self : iter) : Res iter :=
  match self.fsv_.target.size m with
  | .error e => .error e
  | .ok size =>
    let sz := to_int size
    let index := int_add self.index_ 1
    if index ≥ sz then
      match self.fsv_.target.at m (int_sub sz 1) with
      | .error e => .error e
      | .ok r => .ok ⟨r.addr + 1, self.fsv_, sz⟩
    else
      match scan_forward m self.fsv_.target (m.length + 1) self.iterator_ptr_ with
      | .error e => .error e
      | .ok p => .ok ⟨p, self.fsv_, index⟩

/-- The prefix `operator--`; the result is the iterator after the call. -/
def operator_dec (m : Memory) (self : iter) : Res iter :=
  let index := int_sub self.index_ 1
  if index < 0 then .ok ⟨self.fsv_.target.ptr_ - 1, self.fsv_, -1⟩
  else
    match scan_backward m self.fsv_.target (m.length + 1) self.iterator_ptr_ with
    | .error e => .error e
    | .ok p => .ok ⟨p, self.fsv_, index⟩

/-- The non-member `operator==` on iterators. -/
def operator_eq (lhs rhs : iter) : Bool :=
  decide (lhs.iterator_ptr_ = rhs.iterator_ptr_) && decide (lhs.fsv_.addr = rhs.fsv_.addr)
    && decide (lhs.index_ = rhs.index_)

/-- The non-member `operator!=` on iterators. -/
def operator_ne (lhs rhs : iter) : Bool := !(operator_eq lhs rhs)

end iter

namespace filtered_string_view

/-- The member `begin`, called on the object `*this`. -/
def «begin» (m : Memory) (this : view_ptr) : Res iter :=
  noexcept_ <|
    match this.target.size m with
    | .error e => .error e
    | .ok n =>
      if n = 0 then .ok ⟨this.target.ptr_, this, 0⟩
      else
        match this.target.at m 0 with
        | .error e => .error e
        | .ok r => .ok ⟨r.addr, this, 0⟩

/-- The member `end`, called on the object `*this`. -/
def «end» (m : Memory) (this : view_ptr) : Res iter :=
  noexcept_ <|
    match this.target.size m with
    | .error e => .error e
    | .ok n =>
      match this.target.at m (to_int (size_t_sub n 1)) with
      | .error e => .error e
      | .ok r => .ok ⟨r.addr + 1, this, to_int n⟩

/-- The member `cbegin`. -/
def cbegin (m : Memory) (this : view_ptr) : Res iter :=
  noexcept_ <|
    match this.target.size m with
    | .error e => .error e
    | .ok n =>
      if n = 0 then .ok ⟨this.target.ptr_, this, 0⟩
      else
        match this.target.at m 0 with
        | .error e => .error e
        | .ok r => .ok ⟨r.addr, this, 0⟩

/-- The member `cend`. -/
def cend (m : Memory) (this : view_ptr) : Res iter :=
  noexcept_ <|
    match this.target.size m with
    | .error e => .error e
    | .ok n =>
      match this.target.at m (to_int (size_t_sub n 1)) with
      | .error e => .error e
      | .ok r => .ok ⟨r.addr + 1, this, to_int n⟩

end filtered_string_view

/-- The adaptor `std::reverse_iterator<iter>`: its member `current`. -/
structure reverse_iterator where
  current : iter

namespace reverse_iterator

/-- The library dereference: `tmp = current; --tmp; return *tmp;`. -/
def operator_deref (m : Memory) (self : reverse_iterator) : Res char_ref :=
  match self.current.operator_dec m with
  | .error e => .error e
  | .ok tmp => tmp.operator_deref m

/-- The library increment: `--current;`. -/
def operator_inc (m : Memory) (self : reverse_iterator) : Res reverse_iterator :=
  match self.current.operator_dec m with
  | .error e => .error e
  | .ok c => .ok ⟨c⟩

/-- The library comparison `operator!=`: the comparison of the two `current`. -/
def operator_ne (lhs rhs : reverse_iterator) : Bool :=
  iter.operator_ne lhs.current rhs.current

end reverse_iterator

namespace filtered_string_view

/-- The member `rbegin`. -/
def rbegin (m : Memory) (this : view_ptr) : Res reverse_iterator :=
  noexcept_ <|
    match filtered_string_view.end m this with
    | .error e => .error e
    | .ok it => .ok ⟨it⟩

/-- The member `rend`. -/
def rend (m : Memory) (this : view_ptr) : Res reverse_iterator :=
  noexcept_ <|
    match filtered_string_view.begin m this with
    | .error e => .error e
    | .ok it => .ok ⟨it⟩

/-- The member `crbegin`. -/
def crbegin (m : Memory) (this : view_ptr) : Res reverse_iterator :=
  noexcept_ <|
    match filtered_string_view.cend m this with
    | .error e => .error e
    | .ok it => .ok ⟨it⟩

/-- The member `crend`. -/
def crend (m : Memory) (this : view_ptr) : Res reverse_iterator :=
  noexcept_ <|
    match filtered_string_view.cbegin m this with
    | .error e => .error e
    | .ok it => .ok ⟨it⟩

end filtered_string_view

/-! ## Traversals

The loop `for (; first != last; ++first) out.push_back(*first);` that a range
constructor such as `std::vector<char>{first, last}` runs. The first argument
bounds the number of rounds; `none` means that the bound was reached before
`first == last`. -/

/-- The traversal loop over iterators. -/
def traverse (m : Memory) (last : iter) : Nat → iter → List Char → Option (Res (List Char))
  | 0, _, _ => none
  | n + 1, first, out =>
    if iter.operator_ne first last then
      match first.operator_deref m with
      | .error e => some (.error e)
      | .ok c =>
        match first.operator_inc m with
        | .error e => some (.error e)
        | .ok next => traverse m last n next (out ++ [c.val])
    else some (.ok out)

/-- The traversal loop over reverse iterators. -/
def reverse_traverse (m : Memory) (last : reverse_iterator) :
    Nat → reverse_iterator → List Char → Option (Res (List Char))
  | 0, _, _ => none
  | n + 1, first, out =>
    if reverse_iterator.operator_ne first last then
      match first.operator_deref m with
      | .error e => some (.error e)
      | .ok c =>
        match first.operator_inc m with
        | .error e => some (.error e)
        | .ok next => reverse_traverse m last n next (out ++ [c.val])
    else some (.ok out)

/-- The statement `std::vector<char>{v.begin(), v.end()}`, with at most `fuel`
rounds of the traversal loop. -/
def collect (m : Memory) (this : view_ptr) (fuel : Nat) : Option (Res (List Char)) :=
  match filtered_string_view.begin m this with
  | .error e => some (.error e)
  | .ok first =>
    match filtered_string_view.end m this with
    | .error e => some (.error e)
    | .ok last => traverse m last fuel first []

/-- The statement `std::vector<char>{v.rbegin(), v.rend()}`, with at most
`fuel` rounds of the traversal loop. -/
def reverse_collect (m : Memory) (this : view_ptr) (fuel : Nat) : Option (Res (List Char)) :=
  match filtered_string_view.rbegin m this with
  | .error e => some (.error e)
  | .ok first =>
    match filtered_string_view.rend m this with
    | .error e => some (.error e)
    | .ok last => reverse_traverse m last fuel first []

/-- The statement `std::vector<char>(v.crbegin(), v.crend())`, with at most
`fuel` rounds of the traversal loop. -/
def const_reverse_collect (m : Memory) (this : view_ptr) (fuel : Nat) :
    Option (Res (List Char)) :=
  match filtered_string_view.crbegin m this with
  | .error e => some (.error e)
  | .ok first =>
    match filtered_string_view.crend m this with
    | .error e => some (.error e)
    | .ok last => reverse_traverse m last fuel first []

/-! ## Walks

A sequence of the statements `++it;` and `--it;` applied to an iterator. -/

namespace iter

/-- One statement of a walk: `++it;` or `--it;`. -/
inductive step where
  | inc
  | dec
  deriving DecidableEq, Repr

/-- The statements `steps`, run in order on the iterator `it`; the result is
the iterator after the last one. -/
def walk (m : Memory) : List step → iter → Res iter
  | [], it => .ok it
  | .inc :: rest, it =>
    match it.operator_inc m with
    | .error e => .error e
    | .ok next => walk m rest next
  | .dec :: rest, it =>
    match it.operator_dec m with
    | .error e => .error e
    | .ok next => walk m rest next

end iter

/-! ## Specification

The notions in which the behaviour of the code is stated: the raw buffer of a
view, its visible sequence, well-formedness, the lexicographic order of
character sequences, and the iterator that belongs to a logical index. -/

namespace filtered_string_view

/-- The readable references among `ptr_[i]`, ..., `ptr_[i + n - 1]`, in order. -/
def window (m : Memory) (self : filtered_string_view) (i n : Nat) : List char_ref :=
  (List.range' i n).filterMap fun (k : Nat) =>
    (m.read (self.ptr_ + (k : Int))).map fun c => (⟨self.ptr_ + (k : Int), c⟩ : char_ref)

/-- The raw buffer of a view: the references `ptr_[0]`, ..., `ptr_[length_ - 1]`. -/
def buffer (m : Memory) (self : filtered_string_view) : List char_ref :=
  self.window m 0 self.length_

/-- The visible sequence of a view: the buffer characters for which the
predicate holds, in buffer order. -/
def visible (m : Memory) (self : filtered_string_view) : List char_ref :=
  (self.buffer m).filter self.predicate_.call

/-- A view is well formed when its whole buffer lies inside live storage. -/
def wf (m : Memory) (self : filtered_string_view) : Prop :=
  ∀ i : Nat, i < self.length_ → (m.read (self.ptr_ + i)).isSome

instance (m : Memory) (self : filtered_string_view) : Decidable (self.wf m) :=
  inferInstanceAs (Decidable (∀ i : Nat, i < self.length_ → (m.read (self.ptr_ + i)).isSome))

end filtered_string_view

/-- Specification of the ordering: `x` sorts before `y` when, at the first
position where the two sequences differ, the character of `x` is the smaller
one, or when `x` is a proper prefix of `y`. -/
def sorts_before (x y : List Char) : Prop :=
  (∃ k : Nat, ∃ hx : k < x.length, ∃ hy : k < y.length,
      x.take k = y.take k ∧ char_lt (x.get ⟨k, hx⟩) (y.get ⟨k, hy⟩)) ∨
    (x <+: y ∧ x.length < y.length)

/-- Specification of the ordering as a function: the lexicographic three-way
comparison of two character sequences. -/
def lex_compare : List Char → List Char → strong_ordering
  | [], [] => .equivalent
  | [], _ :: _ => .less
  | _ :: _, [] => .greater
  | x :: xs, y :: ys =>
    if char_lt x y then .less else if char_lt y x then .greater else lex_compare xs ys

namespace filtered_string_view

/-- The buffer of the view is a C string: it lies in live storage, holds no
null character and is followed by one, so that `strlen(ptr_) = length_`. -/
def is_c_string (m : Memory) (self : filtered_string_view) : Prop :=
  self.wf m ∧ (∀ i : Nat, i < self.length_ → m.read (self.ptr_ + i) ≠ some NUL) ∧
    m.read (self.ptr_ + self.length_) = some NUL

instance (m : Memory) (self : filtered_string_view) : Decidable (self.is_c_string m) :=
  inferInstanceAs (Decidable (self.wf m ∧
    (∀ i : Nat, i < self.length_ → m.read (self.ptr_ + i) ≠ some NUL) ∧
    m.read (self.ptr_ + self.length_) = some NUL))

/-- The character values of the visible sequence of a view. -/
def visible_chars (m : Memory) (self : filtered_string_view) : List Char :=
  (self.visible m).map char_ref.val

/-- The sequences `segments` joined with the delimiter `t` between consecutive
ones: `e0 + t + e1 + t + ... + t + ek`. -/
def delimited (t : List Char) : List (List Char) → List Char
  | [] => []
  | [e] => e
  | e :: rest => e ++ t ++ delimited t rest

/-- The raw position one past the last visible character (the buffer start for
a view without visible characters). -/
def end_position (m : Memory) (self : filtered_string_view) : Int :=
  match (self.visible m).getLast? with
  | some r => r.addr + 1
  | none => self.ptr_

/-- Specification of the iterator with logical index `k` on the view object
`this`: it points at the `k`-th visible character when there is one, and it is
the end iterator (position `end_position`, index `size`) otherwise. -/
def iter_at (m : Memory) (this : view_ptr) (k : Nat) : iter :=
  match (this.target.visible m)[k]? with
  | some r => ⟨r.addr, this, k⟩
  | none => ⟨this.target.end_position m, this, (this.target.visible m).length⟩

/-- Specification of the states of an iterator of the view object `this`. -/
inductive iter_state where
  | before_begin
  | valid (i : Nat)
  | past_end
  deriving DecidableEq, Repr

/-- Specification of what it means for the iterator `it` to be in a state:
before-begin is the logical index `-1` at the raw position one before the
buffer start, `valid i` is the logical index `i` at the raw position of the
`i`-th visible character, and the end state is the logical index `size` at the
raw position one past the last visible character. -/
def in_state (m : Memory) (this : view_ptr) (it : iter) : iter_state → Prop
  | .before_begin =>
    it.fsv_ = this ∧ it.index_ = -1 ∧ it.iterator_ptr_ = this.target.ptr_ - 1
  | .valid i =>
    it.fsv_ = this ∧ it.index_ = (i : Int) ∧
      ∃ r, (this.target.visible m)[i]? = some r ∧ it.iterator_ptr_ = r.addr
  | .past_end =>
    it.fsv_ = this ∧ it.index_ = ((this.target.visible m).length : Int) ∧
      it.iterator_ptr_ = this.target.end_position m

end filtered_string_view

/-! ## Sample data -/

/-- Storage that holds the string `"Malamute"` at address `1`. -/
def malamute : Memory := "Malamute".toList.map some ++ [some NUL]

/-- The predicate `is_vowel` of the test suite. -/
def is_vowel : filter := fun _ c => decide (c ∈ ['a', 'A', 'e', 'E', 'i', 'I', 'o', 'O', 'u', 'U'])

/-- The view `filtered_string_view{"Malamute", is_vowel}` of the test suite. -/
def malamute_vowels : filtered_string_view := ⟨1, 8, is_vowel⟩

/-- Storage that holds `"Malamute"` at address `1` and `"aaue"` at address `10`. -/
def malamute_aaue : Memory :=
  "Malamute".toList.map some ++ [some NUL] ++ "aaue".toList.map some ++ [some NUL]

/-- Storage that holds the string `"milo"` at address `1`. -/
def milo : Memory := "milo".toList.map some ++ [some NUL]

/-- The view of `"milo"` without `'i'` and `'o'` of the test suite, as an
object at address `100`. -/
def milo_view : view_ptr := ⟨100, ⟨1, 4, fun _ c => !(c == 'i' || c == 'o')⟩⟩

/-- Storage that holds the empty string at address `1`. -/
def empty_storage : Memory := [some NUL]

/-- The view `filtered_string_view{""}`, as an object at address `100`. -/
def empty_string_view : view_ptr := ⟨100, filtered_string_view.of_string 1 0⟩

/-- The default view `filtered_string_view{}`, as an object at address `100`. -/
def default_view : view_ptr := ⟨100, filtered_string_view.mk_default⟩

/-- Storage that holds the five characters `a`, NUL, `b`, `x`, `c` of a
`std::string` at address `1` and the string `"x"` at address `7`. -/
def nul_storage : Memory :=
  [some 'a', some NUL, some 'b', some 'x', some 'c', some NUL, some 'x', some NUL]

/-- The view `filtered_string_view{s}` of the five-character string of
`nul_storage`. -/
def nul_view : filtered_string_view := filtered_string_view.of_string 1 5

/-- The view `filtered_string_view{"x"}` of the token of `nul_storage`. -/
def nul_token : filtered_string_view := filtered_string_view.of_string 7 1

/-- Storage that holds the string `"xa"` at address `1` and the string `"ab"`
at address `4`. -/
def xa_ab : Memory := [some 'x', some 'a', some NUL, some 'a', some 'b', some NUL]

/-- Storage that holds the string `"xax"` at address `1` and the string `"x"`
at address `5`. -/
def xax_x : Memory := [some 'x', some 'a', some 'x', some NUL, some 'x', some NUL]

/-- Storage of a string of `n` characters `'a'`: the characters and the
terminating null. -/
def run_of_a (n : Nat) : Memory := (List.replicate n 'a').map some ++ [some NUL]

/-- Storage that holds a string of `2 ^ 31 + 1` characters `'a'` at address `1`
and a second string of the same contents at address `2 ^ 31 + 3`. -/
def long_storage : Memory := run_of_a 2147483649 ++ run_of_a 2147483649

/-- The view `filtered_string_view{s}` of the first string of `long_storage`:
it has `2 ^ 31 + 1` visible characters, one more than `int` can index. -/
def long_view : filtered_string_view := filtered_string_view.of_string 1 2147483649

/-- The view `filtered_string_view{s}` of the second string of `long_storage`. -/
def long_copy : filtered_string_view := filtered_string_view.of_string 2147483651 2147483649

/-- Storage that holds a string of `2 ^ 31` characters `'a'` at address `1`. -/
def two_pow_31_storage : Memory := run_of_a 2147483648

/-- The view `filtered_string_view{s}` of the string of `two_pow_31_storage`, as
an object at address `100`: its size is `2 ^ 31`, which is `INT_MAX + 1`. -/
def two_pow_31_view : view_ptr := ⟨100, filtered_string_view.of_string 1 2147483648⟩

/-- Storage that holds a string of `INT_MAX` characters `'a'` at address `1`. -/
def int_max_storage : Memory := run_of_a 2147483647

/-- The view `filtered_string_view{s}` of the string of `int_max_storage`, as an
object at address `100`: its size is `INT_MAX`. -/
def int_max_view : view_ptr := ⟨100, filtered_string_view.of_string 1 2147483647⟩

end fsv

/-! ## Characterisation of `size` and `at` -/

namespace fsv
namespace filtered_string_view

theorem window_zero (m : Memory) (v : filtered_string_view) (i : Nat) :
    v.window m i 0 = [] := by
  simp [window]

theorem window_succ (m : Memory) (v : filtered_string_view) (i n : Nat) (c : Char)
    (hc : m.read (v.ptr_ + i) = some c) :
    v.window m i (n + 1) = ⟨v.ptr_ + i, c⟩ :: v.window m (i + 1) n := by
  simp [window, List.range'_succ, hc]

theorem read_of_wf_range (m : Memory) (v : filtered_string_view) (i n : Nat)
    (h : ∀ k : Nat, k < n + 1 → (m.read (v.ptr_ + ((i + k : Nat) : Int))).isSome) :
    (∃ c, m.read (v.ptr_ + i) = some c) ∧
      ∀ k : Nat, k < n → (m.read (v.ptr_ + ((i + 1 + k : Nat) : Int))).isSome := by
  constructor
  · have := h 0 (by omega)
    simpa [Option.isSome_iff_exists] using this
  · intro k hk
    have := h (k + 1) (by omega)
    have e : i + (k + 1) = i + 1 + k := by omega
    rwa [e] at this

theorem size_loop_eq (m : Memory) (v : filtered_string_view) (n : Nat) :
    ∀ (i soln : Nat),
      (∀ k : Nat, k < n → (m.read (v.ptr_ + ((i + k : Nat) : Int))).isSome) →
      v.size_loop m n i soln
        = .ok (soln + ((v.window m i n).filter v.predicate_.call).length) := by
  induction n with
  | zero => intro i soln _; simp [size_loop, window_zero]
  | succ n ih =>
    intro i soln h
    obtain ⟨⟨c, hc⟩, hrest⟩ := read_of_wf_range m v i n h
    rw [window_succ m v i n c hc]
    simp only [size_loop, elem, deref, hc]
    by_cases hp : v.predicate_.call ⟨v.ptr_ + i, c⟩
    · simp only [hp, if_true, List.filter_cons_of_pos, List.length_cons]
      rw [ih (i + 1) (soln + 1) hrest]
      congr 1; omega
    · simp only [hp, if_false, Bool.false_eq_true]
      rw [ih (i + 1) soln hrest, List.filter_cons_of_neg (by simpa using hp)]

theorem window_length (m : Memory) (v : filtered_string_view) (n : Nat) :
    ∀ i : Nat, (∀ k : Nat, k < n → (m.read (v.ptr_ + ((i + k : Nat) : Int))).isSome) →
      (v.window m i n).length = n := by
  induction n with
  | zero => intro i _; simp [window_zero]
  | succ n ih =>
    intro i h
    obtain ⟨⟨c, hc⟩, hrest⟩ := read_of_wf_range m v i n h
    rw [window_succ m v i n c hc, List.length_cons, ih (i + 1) hrest]

theorem window_getElem? (m : Memory) (v : filtered_string_view) (n : Nat) :
    ∀ (i t : Nat), (∀ k : Nat, k < n → (m.read (v.ptr_ + ((i + k : Nat) : Int))).isSome) →
      t < n →
      (v.window m i n)[t]?
        = (m.read (v.ptr_ + ((i + t : Nat) : Int))).map
            fun c => (⟨v.ptr_ + ((i + t : Nat) : Int), c⟩ : char_ref) := by
  induction n with
  | zero => intro i t _ ht; omega
  | succ n ih =>
    intro i t h ht
    obtain ⟨⟨c, hc⟩, hrest⟩ := read_of_wf_range m v i n h
    rw [window_succ m v i n c hc]
    cases t with
    | zero => simp [hc]
    | succ t =>
      rw [List.getElem?_cons_succ, ih (i + 1) t hrest (by omega)]
      have e : i + 1 + t = i + (t + 1) := by omega
      rw [e]

/-- The buffer of a well formed view is `ptr_[0]`, ..., `ptr_[length_ - 1]`. -/
theorem buffer_spec (m : Memory) (v : filtered_string_view) (h : v.wf m) :
    (v.buffer m).length = v.length_ ∧
      ∀ i : Nat, i < v.length_ →
        (v.buffer m)[i]?
          = (m.read (v.ptr_ + (i : Int))).map fun c => (⟨v.ptr_ + (i : Int), c⟩ : char_ref) := by
  constructor
  · exact window_length m v v.length_ 0 (by intro k hk; simpa using h k hk)
  · intro i hi
    have := window_getElem? m v v.length_ 0 i (by intro k hk; simpa using h k hk) hi
    simpa [buffer] using this

theorem wf_null (m : Memory) (v : filtered_string_view) (h : v.wf m) (h0 : v.ptr_ = 0) :
    v.length_ = 0 := by
  by_contra hne
  have := h 0 (by omega)
  simp [h0, Memory.read] at this

theorem size_eq (m : Memory) (v : filtered_string_view) (h : v.wf m) :
    v.size m = .ok (v.visible m).length := by
  unfold size
  split
  · next h0 =>
    have hl := wf_null m v h h0
    simp [visible, buffer, hl, window_zero]
  · rw [size_loop_eq m v v.length_ 0 0 (by intro k hk; simpa using h k hk)]
    simp [visible, buffer]

theorem window_length_le (m : Memory) (v : filtered_string_view) (i n : Nat) :
    (v.window m i n).length ≤ n := by
  unfold window
  refine (List.length_filterMap_le _ (List.range' i n)).trans ?_
  simp

theorem visible_length_le (m : Memory) (v : filtered_string_view) :
    (v.visible m).length ≤ v.length_ := by
  unfold visible buffer
  exact (List.length_filter_le _ _).trans (window_length_le m v 0 v.length_)

theorem at_loop_eq (m : Memory) (v : filtered_string_view) (index : Int) (n : Nat) :
    ∀ (i : Nat) (idx : Int), idx ≤ index →
      (∀ k : Nat, k < n → (m.read (v.ptr_ + ((i + k : Nat) : Int))).isSome) →
      v.at_loop m index n i idx
        = match ((v.window m i n).filter v.predicate_.call)[(index - idx).toNat]? with
          | some r => .ok r
          | none => .error (.domain_error (at_what index)) := by
  induction n with
  | zero => intro i idx _ _; simp [at_loop, window_zero]
  | succ n ih =>
    intro i idx hle h
    obtain ⟨⟨c, hc⟩, hrest⟩ := read_of_wf_range m v i n h
    rw [window_succ m v i n c hc]
    simp only [at_loop, elem, deref, hc]
    by_cases hp : v.predicate_.call ⟨v.ptr_ + i, c⟩
    · simp only [hp, if_true, List.filter_cons_of_pos]
      by_cases he : idx = index
      · simp [he]
      · have hlt : idx + 1 ≤ index := by omega
        simp only [he, if_false]
        rw [ih (i + 1) (idx + 1) hlt hrest]
        have e : (index - idx).toNat = (index - (idx + 1)).toNat + 1 := by omega
        rw [e, List.getElem?_cons_succ]
    · simp only [hp, if_false, Bool.false_eq_true]
      rw [ih (i + 1) idx hle hrest, List.filter_cons_of_neg (by simpa using hp)]

theorem at_eq (m : Memory) (v : filtered_string_view) (h : v.wf m) (index : Int) :
    v.at m index
      = if index < 0 then .error (.domain_error (at_what index))
        else match (v.visible m)[index.toNat]? with
          | some r => .ok r
          | none => .error (.domain_error (at_what index)) := by
  unfold «at»
  by_cases hneg : index < 0
  · simp [hneg]
  · by_cases hbig : to_size_t index ≥ v.length_
    · have hlen := visible_length_le m v
      have hle : to_size_t index ≤ index.toNat := by unfold to_size_t; omega
      have hnone : (v.visible m)[index.toNat]? = none :=
        List.getElem?_eq_none (by omega)
      simp [hneg, hbig, hnone]
    · simp only [hneg, hbig, or_self, if_false]
      rw [at_loop_eq m v index v.length_ 0 0 (by omega) (by intro k hk; simpa using h k hk)]
      simp [visible, buffer]

theorem at_of_lt (m : Memory) (v : filtered_string_view) (h : v.wf m) (i : Nat)
    (hi : i < (v.visible m).length) :
    v.at m (i : Int) = .ok ((v.visible m).get ⟨i, hi⟩) := by
  rw [at_eq m v h]
  have h0 : ¬ ((i : Int) < 0) := by omega
  simp [h0, List.getElem?_eq_getElem hi]

theorem at_of_not_lt (m : Memory) (v : filtered_string_view) (h : v.wf m) (index : Int)
    (hi : index < 0 ∨ ((v.visible m).length : Int) ≤ index) :
    v.at m index = .error (.domain_error (at_what index)) := by
  rw [at_eq m v h]
  by_cases hneg : index < 0
  · simp [hneg]
  · have hnone : (v.visible m)[index.toNat]? = none :=
      List.getElem?_eq_none (by omega)
    simp [hneg, hnone]

/-! ## Strings in storage -/

theorem read_some_bounds (m : Memory) (p : Int) (c : Char) (h : m.read p = some c) :
    0 < p ∧ p ≤ m.length := by
  unfold Memory.read at h
  split at h
  · simp at h
  · next hp =>
    have hlt : p.toNat - 1 < m.length := by
      by_contra hge
      have : m[p.toNat - 1]? = none := List.getElem?_eq_none (by omega)
      simp [this] at h
    omega

theorem holds_cons (m : Memory) (a : Int) (c : Char) (s : List Char) :
    m.holds a (c :: s) = true ↔ m.read a = some c ∧ m.holds (a + 1) s = true := by
  simp [Memory.holds]

theorem holds_nil (m : Memory) (a : Int) :
    m.holds a [] = true ↔ m.read a = some NUL := by
  simp [Memory.holds]

theorem holds_bounds (m : Memory) (s : List Char) :
    ∀ a : Int, m.holds a s = true → 0 < a ∧ a + s.length ≤ m.length := by
  induction s with
  | nil =>
    intro a h
    have := read_some_bounds m a NUL ((holds_nil m a).mp h)
    simpa using this
  | cons c s ih =>
    intro a h
    obtain ⟨hc, hs⟩ := (holds_cons m a c s).mp h
    have h1 := read_some_bounds m a c hc
    have h2 := ih (a + 1) hs
    simp only [List.length_cons, Nat.cast_add, Nat.cast_one]
    omega

theorem holds_read (m : Memory) (s : List Char) :
    ∀ (a : Int), m.holds a s = true →
      ∀ i : Nat, i < s.length → (m.read (a + (i : Int))).isSome := by
  induction s with
  | nil => intro a _ i hi; simp at hi
  | cons c s ih =>
    intro a h i hi
    obtain ⟨hc, hs⟩ := (holds_cons m a c s).mp h
    cases i with
    | zero => simp [hc]
    | succ i =>
      have := ih (a + 1) hs i (by simpa using hi)
      have e : a + ((i + 1 : Nat) : Int) = a + 1 + (i : Int) := by push_cast; ring
      rwa [e]

theorem wf_of_holds (m : Memory) (a : Int) (s : List Char) (p : filter)
    (h : m.holds a s = true) : (of_string_pred a s.length p).wf m := by
  intro i hi
  exact holds_read m s a h i hi

theorem window_holds (m : Memory) (v : filtered_string_view) (s : List Char) :
    ∀ i : Nat, m.holds (v.ptr_ + (i : Int)) s = true →
      v.window m i s.length
        = (s.enumFrom i).map fun ic => (⟨v.ptr_ + (ic.1 : Int), ic.2⟩ : char_ref) := by
  induction s with
  | nil => intro i _; simp [window_zero]
  | cons c s ih =>
    intro i h
    obtain ⟨hc, hs⟩ := (holds_cons m _ c s).mp h
    have e : v.ptr_ + (i : Int) + 1 = v.ptr_ + ((i + 1 : Nat) : Int) := by push_cast; ring
    rw [e] at hs
    simp only [List.length_cons]
    rw [window_succ m v i s.length c hc, ih (i + 1) hs]
    simp [List.enumFrom_cons]

theorem visible_of_string (m : Memory) (a : Int) (s : List Char) (p : filter)
    (h : m.holds a s = true) :
    (of_string_pred a s.length p).visible m
      = (s.enum.filter fun ic => p (a + (ic.1 : Int)) ic.2).map
          fun ic => (⟨a + (ic.1 : Int), ic.2⟩ : char_ref) := by
  have hw := window_holds m (of_string_pred a s.length p) s 0 (by simpa [of_string_pred] using h)
  unfold visible buffer
  have hl : (of_string_pred a s.length p).length_ = s.length := rfl
  rw [hl, hw, List.filter_map]
  rfl

theorem enumFrom_filter_snd (q : Char → Bool) (s : List Char) :
    ∀ i : Nat, ((s.enumFrom i).filter fun ic => q ic.2).map Prod.snd = s.filter q := by
  induction s with
  | nil => intro i; simp
  | cons c s ih =>
    intro i
    simp only [List.enumFrom_cons]
    by_cases hq : q c
    · simp [List.filter_cons, hq, ih (i + 1)]
    · simp [List.filter_cons, hq, ih (i + 1)]

theorem strlen_loop_holds (m : Memory) (s : List Char) :
    ∀ (fuel : Nat) (a : Int) (acc : Nat), m.holds a s = true → NUL ∉ s → s.length < fuel →
      strlen_loop m fuel a acc = .ok (acc + s.length) := by
  induction s with
  | nil =>
    intro fuel a acc h _ hf
    cases fuel with
    | zero => simp at hf
    | succ fuel => simp [strlen_loop, (holds_nil m a).mp h]
  | cons c s ih =>
    intro fuel a acc h hn hf
    obtain ⟨hc, hs⟩ := (holds_cons m a c s).mp h
    cases fuel with
    | zero => simp at hf
    | succ fuel =>
      have hne : c ≠ NUL := fun e => hn (by simp [e])
      have hn2 : NUL ∉ s := fun e => hn (by simp [e])
      simp only [strlen_loop, hc, hne, if_false]
      rw [ih fuel (a + 1) (acc + 1) hs hn2 (by simpa using hf)]
      simp only [List.length_cons]
      congr 1; omega

theorem strlen_holds (m : Memory) (a : Int) (s : List Char)
    (h : m.holds a s = true) (hn : NUL ∉ s) : strlen m a = .ok s.length := by
  have hb := holds_bounds m s a h
  unfold strlen
  rw [strlen_loop_holds m s (m.length + 1) a 0 h hn (by omega)]
  simp

/-! ## Conversion to a string and equality -/

/-- The characters of the visible sequence. -/
theorem operator_string_loop_eq (m : Memory) (v : filtered_string_view) (n : Nat) :
    ∀ (i : Nat) (soln : List Char),
      (∀ k : Nat, k < n → (m.read (v.ptr_ + ((i + k : Nat) : Int))).isSome) →
      v.operator_string_loop m n i soln
        = .ok (soln ++ ((v.window m i n).filter v.predicate_.call).map char_ref.val) := by
  induction n with
  | zero => intro i soln _; simp [operator_string_loop, window_zero]
  | succ n ih =>
    intro i soln h
    obtain ⟨⟨c, hc⟩, hrest⟩ := read_of_wf_range m v i n h
    rw [window_succ m v i n c hc]
    simp only [operator_string_loop, elem, deref, hc]
    by_cases hp : v.predicate_.call ⟨v.ptr_ + i, c⟩
    · simp only [hp, if_true, List.filter_cons_of_pos, List.map_cons]
      rw [ih (i + 1) (soln ++ [c]) hrest]
      simp
    · simp only [hp, if_false, Bool.false_eq_true]
      rw [ih (i + 1) soln hrest, List.filter_cons_of_neg (by simpa using hp)]

theorem operator_string_eq (m : Memory) (v : filtered_string_view) (h : v.wf m) :
    v.operator_string m = .ok ((v.visible m).map char_ref.val) := by
  unfold operator_string
  rw [size_eq m v h]
  by_cases h0 : (v.visible m).length = 0
  · simp [h0, List.length_eq_zero.mp h0]
  · simp only [h0, if_false]
    rw [operator_string_loop_eq m v v.length_ 0 [] (by intro k hk; simpa using h k hk)]
    simp [visible, buffer]

/-- The conversion `to_int` is reduction modulo `2 ^ 32` into `[-2 ^ 31, 2 ^ 31)`. -/
theorem to_int_eq (x : Int) :
    to_int x
      = if x % 4294967296 < 2147483648 then x % 4294967296 else x % 4294967296 - 4294967296 := by
  cases x with
  | ofNat n =>
    simp only [to_int]
    split <;> split <;> simp only [Int.ofNat_eq_coe, Int.negSucc_eq] at * <;> omega
  | negSucc n =>
    simp only [to_int]
    split <;> split <;> simp only [Int.ofNat_eq_coe, Int.negSucc_eq] at * <;> omega

theorem to_int_of_lt (i : Nat) (h : i < 2147483648) : to_int (i : Int) = (i : Int) := by
  rw [to_int_eq]
  split <;> omega

theorem to_int_range (x : Int) : -2147483648 ≤ to_int x ∧ to_int x ≤ 2147483647 := by
  rw [to_int_eq]
  split <;> omega

theorem to_int_of_range (x : Int) (h1 : -2147483648 ≤ x) (h2 : x ≤ 2147483647) :
    to_int x = x := by
  rw [to_int_eq]
  split <;> omega

theorem int_add_of_range (x y : Int) (h1 : -2147483648 ≤ x + y) (h2 : x + y ≤ 2147483647) :
    int_add x y = x + y :=
  to_int_of_range _ h1 h2

theorem int_sub_of_range (x y : Int) (h1 : -2147483648 ≤ x - y) (h2 : x - y ≤ 2147483647) :
    int_sub x y = x - y :=
  to_int_of_range _ h1 h2

theorem int_sub_int_add (x y z : Int) : int_sub (int_add x y) z = to_int (x + y - z) := by
  unfold int_sub int_add
  rw [to_int_eq (x + y), to_int_eq (x + y - z), to_int_eq]
  split_ifs <;> omega

theorem operator_eq_loop_zero (m : Memory) (a b : filtered_string_view) (i : Nat) :
    operator_eq_loop m a b 0 i = .ok true := rfl

theorem operator_eq_loop_succ (m : Memory) (a b : filtered_string_view) (n i : Nat) :
    operator_eq_loop m a b (n + 1) i
      = match a.at m (to_int i) with
        | .error e => .error e
        | .ok l =>
          match b.at m (to_int i) with
          | .error e => .error e
          | .ok r => if l.val ≠ r.val then .ok false else operator_eq_loop m a b n (i + 1) := rfl

theorem operator_eq_loop_eq (m : Memory) (a b : filtered_string_view)
    (ha : a.wf m) (hb : b.wf m) (hlen : (a.visible m).length = (b.visible m).length)
    (hfit : (a.visible m).length ≤ 2147483648) (n : Nat) :
    ∀ i : Nat, i + n = (a.visible m).length →
      operator_eq_loop m a b n i
        = .ok (decide (((a.visible m).map char_ref.val).drop i
            = ((b.visible m).map char_ref.val).drop i)) := by
  induction n with
  | zero =>
    intro i hi
    have h1 : (a.visible m).length ≤ i := by omega
    have h2 : (b.visible m).length ≤ i := by omega
    rw [operator_eq_loop_zero]
    simp [List.drop_eq_nil_of_le, h1, h2]
  | succ n ih =>
    intro i hi
    have h1 : i < (a.visible m).length := by omega
    have h2 : i < (b.visible m).length := by omega
    have h1m : i < ((a.visible m).map char_ref.val).length := by simpa using h1
    have h2m : i < ((b.visible m).map char_ref.val).length := by simpa using h2
    rw [operator_eq_loop_succ, to_int_of_lt i (by omega), at_of_lt m a ha i h1,
      at_of_lt m b hb i h2]
    simp only
    rw [List.drop_eq_getElem_cons h1m, List.drop_eq_getElem_cons h2m]
    by_cases he : ((a.visible m).get ⟨i, h1⟩).val = ((b.visible m).get ⟨i, h2⟩).val
    · simp only [ne_eq, he, not_true_eq_false, if_false]
      rw [ih (i + 1) (by omega)]
      simp [List.getElem_map] at he ⊢
      simp [he]
    · simp only [ne_eq, he, not_false_eq_true, if_true]
      simp [List.getElem_map] at he ⊢
      simp [he]

theorem operator_eq_eq (m : Memory) (a b : filtered_string_view)
    (ha : a.wf m) (hb : b.wf m) (hfit : (a.visible m).length ≤ 2147483648) :
    operator_eq m a b
      = .ok (decide ((a.visible m).map char_ref.val = (b.visible m).map char_ref.val)) := by
  unfold operator_eq
  rw [size_eq m a ha, size_eq m b hb]
  simp only
  by_cases hlen : (a.visible m).length = (b.visible m).length
  · simp only [ne_eq, hlen, not_true_eq_false, if_false]
    rw [← hlen, operator_eq_loop_eq m a b ha hb hlen hfit _ 0 (by omega)]
    simp
  · simp only [ne_eq, hlen, not_false_eq_true, if_true]
    have : (a.visible m).map char_ref.val ≠ (b.visible m).map char_ref.val := by
      intro e
      apply hlen
      have := congrArg List.length e
      simpa using this
    simp [this]

theorem visible_val_of_string (m : Memory) (a : Int) (s : List Char) (q : Char → Bool)
    (h : m.holds a s = true) :
    ((of_string_pred a s.length (fun _ c => q c)).visible m).map char_ref.val = s.filter q := by
  rw [visible_of_string m a s _ h, List.map_map, ← enumFrom_filter_snd q s 0]
  rfl

theorem visible_val_of_default (m : Memory) (a : Int) (s : List Char)
    (h : m.holds a s = true) :
    ((of_string a s.length).visible m).map char_ref.val = s := by
  have := visible_val_of_string m a s (fun _ => true) h
  simpa [of_string, of_string_pred, default_predicate] using this

/-! ## The order of `char` -/

theorem char_val_injective (a b : Char) (h : char_val a = char_val b) : a = b := by
  have hn : a.toNat = b.toNat := by
    unfold char_val at h
    split at h <;> split at h <;> (try split at h) <;> (try split at h) <;> omega
  rw [← Char.ofNat_toNat a, ← Char.ofNat_toNat b, hn]

theorem char_lt_irrefl (a : Char) : ¬ char_lt a a := by
  unfold char_lt
  omega

theorem char_lt_asymm (a b : Char) (h : char_lt a b) : ¬ char_lt b a := by
  unfold char_lt at h ⊢
  omega

theorem char_ne_of_lt (a b : Char) (h : char_lt a b) : a ≠ b := by
  intro e
  rw [e] at h
  exact char_lt_irrefl b h

theorem char_eq_of_not_lt (a b : Char) (h1 : ¬ char_lt a b) (h2 : ¬ char_lt b a) : a = b := by
  apply char_val_injective
  unfold char_lt at h1 h2
  omega

/-! ## Three-way comparison -/

theorem operator_spaceship_loop_eq (m : Memory) (a b : filtered_string_view)
    (ha : a.wf m) (hb : b.wf m)
    (hfit : min (a.visible m).length (b.visible m).length ≤ 2147483648) (n : Nat) :
    ∀ i : Nat, i + n = min (a.visible m).length (b.visible m).length →
      (match operator_spaceship_loop m a b n i with
        | .error e => .error e
        | .ok (some o) => .ok o
        | .ok none =>
          if (a.visible m).length < (b.visible m).length then .ok .less
          else if (a.visible m).length > (b.visible m).length then .ok .greater
          else .ok .equivalent)
        = Res.ok (lex_compare (((a.visible m).map char_ref.val).drop i)
            (((b.visible m).map char_ref.val).drop i)) := by
  induction n with
  | zero =>
    intro i hi
    simp only [operator_spaceship_loop]
    by_cases hlt : (a.visible m).length < (b.visible m).length
    · have h1 : (a.visible m).length ≤ i := by omega
      have h2 : i < ((b.visible m).map char_ref.val).length := by simp; omega
      have e1 : ((a.visible m).map char_ref.val).drop i = [] :=
        List.drop_eq_nil_of_le (by simpa using h1)
      rw [e1, List.drop_eq_getElem_cons h2]
      simp [hlt, lex_compare]
    · by_cases hgt : (a.visible m).length > (b.visible m).length
      · have h1 : (b.visible m).length ≤ i := by omega
        have h2 : i < ((a.visible m).map char_ref.val).length := by simp; omega
        have e1 : ((b.visible m).map char_ref.val).drop i = [] :=
          List.drop_eq_nil_of_le (by simpa using h1)
        rw [e1, List.drop_eq_getElem_cons h2]
        simp [hlt, hgt, lex_compare]
      · have h1 : (a.visible m).length ≤ i := by omega
        have h2 : (b.visible m).length ≤ i := by omega
        have e1 : ((a.visible m).map char_ref.val).drop i = [] :=
          List.drop_eq_nil_of_le (by simpa using h1)
        have e2 : ((b.visible m).map char_ref.val).drop i = [] :=
          List.drop_eq_nil_of_le (by simpa using h2)
        rw [e1, e2]
        simp [hlt, hgt, lex_compare]
  | succ n ih =>
    intro i hi
    have h1 : i < (a.visible m).length := by omega
    have h2 : i < (b.visible m).length := by omega
    have h1m : i < ((a.visible m).map char_ref.val).length := by simpa using h1
    have h2m : i < ((b.visible m).map char_ref.val).length := by simpa using h2
    simp only [operator_spaceship_loop]
    rw [to_int_of_lt i (by omega), at_of_lt m a ha i h1, at_of_lt m b hb i h2]
    simp only
    rw [List.drop_eq_getElem_cons h1m, List.drop_eq_getElem_cons h2m]
    simp only [lex_compare, List.getElem_map, List.get_eq_getElem]
    by_cases hlt : char_lt ((a.visible m)[i]).val ((b.visible m)[i]).val
    · simp [hlt]
    · by_cases hgt : char_lt ((b.visible m)[i]).val ((a.visible m)[i]).val
      · simp [hlt, hgt]
      · simp only [hlt, if_false, hgt]
        exact ih (i + 1) (by omega)

theorem operator_spaceship_eq (m : Memory) (a b : filtered_string_view)
    (ha : a.wf m) (hb : b.wf m)
    (hfit : min (a.visible m).length (b.visible m).length ≤ 2147483648) :
    operator_spaceship m a b
      = .ok (lex_compare ((a.visible m).map char_ref.val) ((b.visible m).map char_ref.val)) := by
  unfold operator_spaceship
  rw [size_eq m a ha, size_eq m b hb]
  simp only
  have := operator_spaceship_loop_eq m a b ha hb hfit
    (min (a.visible m).length (b.visible m).length) 0 (by omega)
  simpa using this

theorem sorts_before_nil_left (y : List Char) : sorts_before [] y ↔ y ≠ [] := by
  unfold sorts_before
  constructor
  · rintro (⟨k, hx, _⟩ | ⟨_, hlen⟩)
    · simp at hx
    · intro e
      simp [e] at hlen
  · intro hne
    right
    exact ⟨List.nil_prefix, by simpa using List.length_pos.mpr hne⟩

theorem sorts_before_nil_right (x : List Char) : ¬ sorts_before x [] := by
  unfold sorts_before
  rintro (⟨k, _, hy, _⟩ | ⟨_, hlen⟩)
  · simp at hy
  · simp at hlen

theorem sorts_before_cons (c d : Char) (xs ys : List Char) :
    sorts_before (c :: xs) (d :: ys) ↔ char_lt c d ∨ (c = d ∧ sorts_before xs ys) := by
  unfold sorts_before
  constructor
  · rintro (⟨k, hx, hy, htake, hlt⟩ | ⟨hpre, hlen⟩)
    · cases k with
      | zero => left; simpa using hlt
      | succ k =>
        right
        simp only [List.take_succ_cons, List.cons.injEq] at htake
        refine ⟨htake.1, Or.inl ⟨k, by simpa using hx, by simpa using hy, htake.2, ?_⟩⟩
        simpa using hlt
    · right
      rw [List.cons_prefix_cons] at hpre
      exact ⟨hpre.1, Or.inr ⟨hpre.2, by simpa using hlen⟩⟩
  · rintro (hlt | ⟨rfl, ⟨k, hx, hy, htake, hlt⟩ | ⟨hpre, hlen⟩⟩)
    · left
      exact ⟨0, by simp, by simp, by simp, by simpa using hlt⟩
    · left
      refine ⟨k + 1, by simpa using hx, by simpa using hy, by simp [htake], ?_⟩
      simpa using hlt
    · right
      exact ⟨by simpa using hpre, by simpa using hlen⟩

theorem lex_compare_less_iff (x : List Char) :
    ∀ y : List Char, lex_compare x y = .less ↔ sorts_before x y := by
  induction x with
  | nil =>
    intro y
    cases y with
    | nil => simp [lex_compare, sorts_before_nil_left]
    | cons d ys => simp [lex_compare, sorts_before_nil_left]
  | cons c xs ih =>
    intro y
    cases y with
    | nil => simp [lex_compare, sorts_before_nil_right]
    | cons d ys =>
      rw [sorts_before_cons]
      simp only [lex_compare]
      by_cases h1 : char_lt c d
      · simp [h1]
      · by_cases h2 : char_lt d c
        · have hne : c ≠ d := fun e => char_ne_of_lt d c h2 e.symm
          simp [h1, h2, hne]
        · have he : c = d := char_eq_of_not_lt c d h1 h2
          subst he
          simp [char_lt_irrefl, ih ys]

theorem lex_compare_greater_iff (x : List Char) :
    ∀ y : List Char, lex_compare x y = .greater ↔ sorts_before y x := by
  induction x with
  | nil =>
    intro y
    cases y with
    | nil => simp [lex_compare, sorts_before_nil_right]
    | cons d ys => simp [lex_compare, sorts_before_nil_right]
  | cons c xs ih =>
    intro y
    cases y with
    | nil => simp [lex_compare, sorts_before_nil_left]
    | cons d ys =>
      rw [sorts_before_cons]
      simp only [lex_compare]
      by_cases h1 : char_lt c d
      · have hne : d ≠ c := fun e => char_ne_of_lt c d h1 e.symm
        have h2 : ¬ char_lt d c := char_lt_asymm c d h1
        simp [h1, h2, hne]
      · by_cases h2 : char_lt d c
        · simp [h1, h2]
        · have he : d = c := char_eq_of_not_lt d c h2 h1
          subst he
          simp [char_lt_irrefl, ih ys]

theorem lex_compare_equivalent_iff (x : List Char) :
    ∀ y : List Char, lex_compare x y = .equivalent ↔ x = y := by
  induction x with
  | nil =>
    intro y
    cases y with
    | nil => simp [lex_compare]
    | cons d ys => simp [lex_compare]
  | cons c xs ih =>
    intro y
    cases y with
    | nil => simp [lex_compare]
    | cons d ys =>
      simp only [lex_compare]
      by_cases h1 : char_lt c d
      · have hne : c ≠ d := char_ne_of_lt c d h1
        simp [h1, hne]
      · by_cases h2 : char_lt d c
        · have hne : c ≠ d := fun e => char_ne_of_lt d c h2 e.symm
          simp [h1, h2, hne]
        · have he : c = d := char_eq_of_not_lt c d h1 h2
          subst he
          simp [char_lt_irrefl, ih ys]

/-! ## Adequacy of the bounds on the scanning loops

The loops of `strlen`, `operator++` and `operator--` have no counter in the
source. Their models stop after `m.length + 1` rounds; a larger bound never
changes the result, because a read outside storage ends the loop first. -/

theorem read_none_of_gt (m : Memory) (p : Int) (h : (m.length : Int) < p) :
    m.read p = none := by
  cases hr : m.read p with
  | none => rfl
  | some c =>
    have := read_some_bounds m p c hr
    omega

theorem read_none_of_le (m : Memory) (p : Int) (h : p ≤ 0) : m.read p = none := by
  simp [Memory.read, h]

theorem scan_forward_bound (m : Memory) (v : filtered_string_view) (f1 : Nat) :
    ∀ (f2 : Nat) (p : Int), (m.length : Int) - p < f1 → (m.length : Int) - p < f2 →
      iter.scan_forward m v f1 p = iter.scan_forward m v f2 p := by
  induction f1 with
  | zero =>
    intro f2 p h1 _
    cases f2 with
    | zero => rfl
    | succ j =>
      simp [iter.scan_forward, deref, read_none_of_gt m (p + 1) (by omega)]
  | succ k ih =>
    intro f2 p h1 h2
    cases f2 with
    | zero =>
      simp [iter.scan_forward, deref, read_none_of_gt m (p + 1) (by omega)]
    | succ j =>
      simp only [iter.scan_forward]
      cases hd : deref m (p + 1) with
      | error e => rfl
      | ok c =>
        simp only
        rw [ih j (p + 1) (by omega) (by omega)]

theorem scan_forward_fuel (m : Memory) (v : filtered_string_view) (fuel : Nat) (p : Int)
    (h : m.length + 1 ≤ fuel) :
    iter.scan_forward m v fuel p = iter.scan_forward m v (m.length + 1) p := by
  by_cases hp : 0 ≤ p
  · exact scan_forward_bound m v fuel (m.length + 1) p (by omega) (by omega)
  · cases fuel with
    | zero => omega
    | succ f =>
      simp [iter.scan_forward, deref, read_none_of_le m (p + 1) (by omega)]

theorem scan_backward_bound (m : Memory) (v : filtered_string_view) (f1 : Nat) :
    ∀ (f2 : Nat) (p : Int), p - 1 < f1 → p - 1 < f2 →
      iter.scan_backward m v f1 p = iter.scan_backward m v f2 p := by
  induction f1 with
  | zero =>
    intro f2 p h1 _
    cases f2 with
    | zero => rfl
    | succ j =>
      simp [iter.scan_backward, deref, read_none_of_le m (p - 1) (by omega)]
  | succ k ih =>
    intro f2 p h1 h2
    cases f2 with
    | zero =>
      simp [iter.scan_backward, deref, read_none_of_le m (p - 1) (by omega)]
    | succ j =>
      simp only [iter.scan_backward]
      cases hd : deref m (p - 1) with
      | error e => rfl
      | ok c =>
        simp only
        rw [ih j (p - 1) (by omega) (by omega)]

theorem scan_backward_fuel (m : Memory) (v : filtered_string_view) (fuel : Nat) (p : Int)
    (h : m.length + 1 ≤ fuel) :
    iter.scan_backward m v fuel p = iter.scan_backward m v (m.length + 1) p := by
  by_cases hp : p - 1 ≤ (m.length : Int)
  · exact scan_backward_bound m v fuel (m.length + 1) p (by omega) (by omega)
  · cases fuel with
    | zero => omega
    | succ f =>
      simp [iter.scan_backward, deref, read_none_of_gt m (p - 1) (by omega)]

theorem strlen_loop_bound (m : Memory) (f1 : Nat) :
    ∀ (f2 : Nat) (p : Int) (acc : Nat), (m.length : Int) - p < f1 → (m.length : Int) - p < f2 →
      strlen_loop m f1 p acc = strlen_loop m f2 p acc := by
  induction f1 with
  | zero =>
    intro f2 p acc h1 _
    cases f2 with
    | zero => rfl
    | succ j => simp [strlen_loop, read_none_of_gt m p (by omega)]
  | succ k ih =>
    intro f2 p acc h1 h2
    cases f2 with
    | zero => simp [strlen_loop, read_none_of_gt m p (by omega)]
    | succ j =>
      simp only [strlen_loop]
      cases hd : m.read p with
      | none => rfl
      | some c =>
        simp only
        rw [ih j (p + 1) (acc + 1) (by omega) (by omega)]

theorem strlen_fuel (m : Memory) (fuel : Nat) (p : Int) (h : m.length + 1 ≤ fuel) :
    strlen_loop m fuel p 0 = strlen m p := by
  unfold strlen
  by_cases hp : 0 < p
  · exact strlen_loop_bound m fuel (m.length + 1) p 0 (by omega) (by omega)
  · cases fuel with
    | zero => omega
    | succ f => simp [strlen_loop, read_none_of_le m p (by omega)]

/-! ## Iterators of a view without visible characters -/

theorem at_negative (m : Memory) (v : filtered_string_view) (i : Int) (h : i < 0) :
    v.at m i = .error (.domain_error (at_what i)) := by
  simp [«at», h]

theorem end_of_size_zero (m : Memory) (this : view_ptr) (h : this.target.size m = .ok 0) :
    filtered_string_view.end m this = .error .terminate := by
  have e : to_int (size_t_sub 0 1) = -1 := by decide
  simp only [«end», h, e, at_negative m this.target (-1) (by decide)]
  rfl

theorem cend_of_size_zero (m : Memory) (this : view_ptr) (h : this.target.size m = .ok 0) :
    filtered_string_view.cend m this = .error .terminate := by
  have e : to_int (size_t_sub 0 1) = -1 := by decide
  simp only [cend, h, e, at_negative m this.target (-1) (by decide)]
  rfl

theorem begin_of_size_zero (m : Memory) (this : view_ptr) (h : this.target.size m = .ok 0) :
    filtered_string_view.begin m this = .ok ⟨this.target.ptr_, this, 0⟩ := by
  simp only [«begin», h]
  rfl

theorem operator_inc_of_size_zero (m : Memory) (it : iter)
    (h : it.fsv_.target.size m = .ok 0) (hi : 0 ≤ it.index_) (hi2 : it.index_ < 2147483647) :
    it.operator_inc m
      = .error (.domain_error "filtered_string_view::at(-1): invalid index") := by
  have e : to_int ((0 : Nat) : Int) = 0 := by decide
  have hadd : int_add it.index_ 1 = it.index_ + 1 := int_add_of_range _ _ (by omega) (by omega)
  have hsub : int_sub 0 1 = -1 := by decide
  have hge : it.index_ + 1 ≥ 0 := by omega
  simp only [iter.operator_inc, h, e, hadd, hsub, hge, if_true]
  rw [at_negative m it.fsv_.target (-1) (by decide)]
  rfl

theorem rbegin_of_size_zero (m : Memory) (this : view_ptr) (h : this.target.size m = .ok 0) :
    filtered_string_view.rbegin m this = .error .terminate := by
  simp only [rbegin, end_of_size_zero m this h]
  rfl

theorem crbegin_of_size_zero (m : Memory) (this : view_ptr) (h : this.target.size m = .ok 0) :
    filtered_string_view.crbegin m this = .error .terminate := by
  simp only [crbegin, cend_of_size_zero m this h]
  rfl

/-! ## Positions of the visible characters in the buffer -/

theorem window_concat (m : Memory) (v : filtered_string_view) (i n : Nat) (c : Char)
    (hc : m.read (v.ptr_ + ((i + n : Nat) : Int)) = some c) :
    v.window m i (n + 1) = v.window m i n ++ [⟨v.ptr_ + ((i + n : Nat) : Int), c⟩] := by
  unfold window
  rw [List.range'_1_concat, List.filterMap_append]
  simp only [List.filterMap_cons, List.filterMap_nil, hc, Option.map_some']

theorem read_of_wf_range_last (m : Memory) (v : filtered_string_view) (i n : Nat)
    (h : ∀ k : Nat, k < n + 1 → (m.read (v.ptr_ + ((i + k : Nat) : Int))).isSome) :
    (∃ c, m.read (v.ptr_ + ((i + n : Nat) : Int)) = some c) ∧
      ∀ k : Nat, k < n → (m.read (v.ptr_ + ((i + k : Nat) : Int))).isSome := by
  constructor
  · have := h n (by omega)
    simpa [Option.isSome_iff_exists] using this
  · intro k hk
    exact h k (by omega)

theorem scan_forward_window (m : Memory) (v : filtered_string_view) (n : Nat) :
    ∀ (i fuel : Nat), n ≤ fuel →
      (∀ k : Nat, k < n → (m.read (v.ptr_ + ((i + k : Nat) : Int))).isSome) →
      ∀ (r : char_ref) (rest : List char_ref),
        (v.window m i n).filter v.predicate_.call = r :: rest →
        iter.scan_forward m v fuel (v.ptr_ + (i : Int) - 1) = .ok r.addr := by
  induction n with
  | zero =>
    intro i fuel _ _ r rest h
    simp [window_zero] at h
  | succ n ih =>
    intro i fuel hf hread r rest h
    obtain ⟨⟨c, hc⟩, hrest⟩ := read_of_wf_range m v i n hread
    rw [window_succ m v i n c hc] at h
    cases fuel with
    | zero => omega
    | succ f =>
      have hp : v.ptr_ + (i : Int) - 1 + 1 = v.ptr_ + (i : Int) := by ring
      simp only [iter.scan_forward, hp, deref, hc]
      by_cases hk : v.predicate_.call ⟨v.ptr_ + i, c⟩
      · rw [List.filter_cons_of_pos hk] at h
        have hr : r = ⟨v.ptr_ + i, c⟩ := (List.cons.inj h).1.symm
        simp [hk, hr]
      · rw [List.filter_cons_of_neg (by simpa using hk)] at h
        have := ih (i + 1) f (by omega) hrest r rest h
        have e : v.ptr_ + ((i + 1 : Nat) : Int) - 1 = v.ptr_ + (i : Int) := by
          push_cast; ring
        rw [e] at this
        simpa [hk] using this

theorem scan_backward_window (m : Memory) (v : filtered_string_view) (n : Nat) :
    ∀ (i fuel : Nat), n ≤ fuel →
      (∀ k : Nat, k < n → (m.read (v.ptr_ + ((i + k : Nat) : Int))).isSome) →
      ∀ (init : List char_ref) (r : char_ref),
        (v.window m i n).filter v.predicate_.call = init ++ [r] →
        iter.scan_backward m v fuel (v.ptr_ + ((i + n : Nat) : Int)) = .ok r.addr := by
  induction n with
  | zero =>
    intro i fuel _ _ init r h
    simp [window_zero] at h
  | succ n ih =>
    intro i fuel hf hread init r h
    obtain ⟨⟨c, hc⟩, hrest⟩ := read_of_wf_range_last m v i n hread
    rw [window_concat m v i n c hc, List.filter_append] at h
    cases fuel with
    | zero => omega
    | succ f =>
      have hp : v.ptr_ + ((i + (n + 1) : Nat) : Int) - 1 = v.ptr_ + ((i + n : Nat) : Int) := by
        push_cast; ring
      simp only [iter.scan_backward, hp, deref, hc]
      by_cases hk : v.predicate_.call ⟨v.ptr_ + ((i + n : Nat) : Int), c⟩
      · rw [List.filter_cons_of_pos hk, List.filter_nil] at h
        have hr : [(⟨v.ptr_ + ((i + n : Nat) : Int), c⟩ : char_ref)] = [r] :=
          (List.append_inj' h rfl).2
        rw [hk, ← (List.cons.inj hr).1]
        rfl
      · have hk' : v.predicate_.call ⟨v.ptr_ + ((i + n : Nat) : Int), c⟩ = false := by
          simpa using hk
        rw [List.filter_cons_of_neg (by simpa using hk), List.filter_nil,
          List.append_nil] at h
        rw [hk']
        exact ih i f (by omega) hrest init r h

/-- The `k`-th kept character of a window sits at some offset `j`; the kept
characters before offset `j` are the first `k` ones and those after it are the
remaining ones. -/
theorem window_position (m : Memory) (v : filtered_string_view) (n : Nat) :
    ∀ (i k : Nat),
      (∀ t : Nat, t < n → (m.read (v.ptr_ + ((i + t : Nat) : Int))).isSome) →
      k < ((v.window m i n).filter v.predicate_.call).length →
      ∃ (j : Nat) (c : Char), i ≤ j ∧ j < i + n ∧
        m.read (v.ptr_ + (j : Int)) = some c ∧
        v.predicate_.call ⟨v.ptr_ + (j : Int), c⟩ = true ∧
        ((v.window m i n).filter v.predicate_.call)[k]? = some ⟨v.ptr_ + (j : Int), c⟩ ∧
        (v.window m i (j - i)).filter v.predicate_.call
          = ((v.window m i n).filter v.predicate_.call).take k ∧
        (v.window m (j + 1) (i + n - (j + 1))).filter v.predicate_.call
          = ((v.window m i n).filter v.predicate_.call).drop (k + 1) := by
  induction n with
  | zero =>
    intro i k _ hk
    simp [window_zero] at hk
  | succ n ih =>
    intro i k hread hk
    obtain ⟨⟨c0, hc0⟩, hrest⟩ := read_of_wf_range m v i n hread
    rw [window_succ m v i n c0 hc0] at hk ⊢
    by_cases hkept : v.predicate_.call ⟨v.ptr_ + i, c0⟩
    · rw [List.filter_cons_of_pos hkept] at hk ⊢
      cases k with
      | zero =>
        refine ⟨i, c0, le_refl _, by omega, hc0, hkept, by simp, ?_, ?_⟩
        · simp [window_zero]
        · have e : i + (n + 1) - (i + 1) = n := by omega
          rw [e]
          simp
      | succ k =>
        have hk' : k < ((v.window m (i + 1) n).filter v.predicate_.call).length := by
          simpa using hk
        obtain ⟨j, c, hij, hjn, hc, hkc, hget, htake, hdrop⟩ := ih (i + 1) k hrest hk'
        refine ⟨j, c, by omega, by omega, hc, hkc, by simpa using hget, ?_, ?_⟩
        · have e : j - i = (j - (i + 1)) + 1 := by omega
          rw [e, window_succ m v i _ c0 hc0, List.filter_cons_of_pos hkept, htake]
          simp
        · have e : i + (n + 1) - (j + 1) = i + 1 + n - (j + 1) := by omega
          rw [e, hdrop]
          simp
    · have hneg : ¬ v.predicate_.call ⟨v.ptr_ + i, c0⟩ = true := hkept
      rw [List.filter_cons_of_neg hneg] at hk ⊢
      obtain ⟨j, c, hij, hjn, hc, hkc, hget, htake, hdrop⟩ := ih (i + 1) k hrest hk
      refine ⟨j, c, by omega, by omega, hc, hkc, hget, ?_, ?_⟩
      · have e : j - i = (j - (i + 1)) + 1 := by omega
        rw [e, window_succ m v i _ c0 hc0, List.filter_cons_of_neg hneg, htake]
      · have e : i + (n + 1) - (j + 1) = i + 1 + n - (j + 1) := by omega
        rw [e, hdrop]

/-- Position of the `k`-th visible character of a well formed view. -/
theorem visible_position (m : Memory) (v : filtered_string_view) (h : v.wf m) (k : Nat)
    (hk : k < (v.visible m).length) :
    ∃ (j : Nat) (c : Char), j < v.length_ ∧
      m.read (v.ptr_ + (j : Int)) = some c ∧
      v.predicate_.call ⟨v.ptr_ + (j : Int), c⟩ = true ∧
      (v.visible m).get ⟨k, hk⟩ = ⟨v.ptr_ + (j : Int), c⟩ ∧
      (v.window m 0 j).filter v.predicate_.call = (v.visible m).take k ∧
      (v.window m 0 (j + 1)).filter v.predicate_.call = (v.visible m).take (k + 1) ∧
      (v.window m (j + 1) (v.length_ - (j + 1))).filter v.predicate_.call
        = (v.visible m).drop (k + 1) := by
  obtain ⟨j, c, _, hjn, hc, hkc, hget, htake, hdrop⟩ :=
    window_position m v v.length_ 0 k (by intro t ht; simpa using h t ht) hk
  have hget' : (v.visible m)[k]? = some ⟨v.ptr_ + (j : Int), c⟩ := hget
  have hg : (v.visible m)[k] = ⟨v.ptr_ + (j : Int), c⟩ := by
    rw [List.getElem?_eq_getElem hk] at hget'
    exact Option.some.inj hget'
  have htake' : (v.window m 0 j).filter v.predicate_.call = (v.visible m).take k := by
    simpa using htake
  refine ⟨j, c, by omega, hc, hkc, hg, htake', ?_, by simpa using hdrop⟩
  have hc' : m.read (v.ptr_ + ((0 + j : Nat) : Int)) = some c := by simpa using hc
  have hkc' : v.predicate_.call ⟨v.ptr_ + ((0 + j : Nat) : Int), c⟩ = true := by
    simpa using hkc
  rw [window_concat m v 0 j c hc', List.filter_append, List.filter_cons_of_pos hkc',
    List.filter_nil, htake', List.take_succ, hget']
  simp

/-! ## Iterator states of a view with visible characters -/

theorem wf_length_le (m : Memory) (v : filtered_string_view) (h : v.wf m) :
    0 < v.length_ → 0 < v.ptr_ ∧ v.ptr_ + (v.length_ : Int) ≤ (m.length : Int) + 1 := by
  intro hpos
  have h0 := h 0 hpos
  have h1 := h (v.length_ - 1) (by omega)
  obtain ⟨c0, hc0⟩ := Option.isSome_iff_exists.mp h0
  obtain ⟨c1, hc1⟩ := Option.isSome_iff_exists.mp h1
  have b0 := read_some_bounds m _ c0 hc0
  have b1 := read_some_bounds m _ c1 hc1
  constructor
  · simpa using b0.1
  · have := b1.2
    omega

theorem iter_at_of_lt (m : Memory) (this : view_ptr) (k : Nat)
    (hk : k < (this.target.visible m).length) :
    iter_at m this k = ⟨((this.target.visible m).get ⟨k, hk⟩).addr, this, k⟩ := by
  simp [iter_at, List.getElem?_eq_getElem hk]

theorem iter_at_of_ge (m : Memory) (this : view_ptr) (k : Nat)
    (hk : (this.target.visible m).length ≤ k) :
    iter_at m this k
      = ⟨this.target.end_position m, this, (this.target.visible m).length⟩ := by
  simp [iter_at, List.getElem?_eq_none hk]

theorem end_position_eq (m : Memory) (v : filtered_string_view) (k : Nat)
    (hk : k < (v.visible m).length) (hlast : k + 1 = (v.visible m).length) :
    v.end_position m = ((v.visible m).get ⟨k, hk⟩).addr + 1 := by
  have hne : v.visible m ≠ [] := by
    intro e
    rw [e] at hk
    simp at hk
  have hl : (v.visible m).getLast? = some ((v.visible m).get ⟨k, hk⟩) := by
    rw [List.getLast?_eq_getLast _ hne, List.getLast_eq_getElem]
    have e : (v.visible m).length - 1 = k := by omega
    simp only [List.get_eq_getElem, e]
  simp [end_position, hl]

theorem begin_eq_iter_at (m : Memory) (this : view_ptr) (hwf : this.target.wf m)
    (hpos : 0 < (this.target.visible m).length) :
    filtered_string_view.begin m this = .ok (iter_at m this 0) := by
  have h0 : ¬ (this.target.visible m).length = 0 := by omega
  have hat := at_of_lt m this.target hwf 0 hpos
  simp only [Nat.cast_zero] at hat
  simp only [«begin», size_eq m this.target hwf, h0, if_false, hat, iter_at_of_lt m this 0 hpos]
  rfl

theorem size_t_sub_one (n : Nat) (h0 : 0 < n) (h : n ≤ 2147483647) :
    to_int (size_t_sub n 1) = (n : Int) - 1 := by
  have e : size_t_sub n 1 = n - 1 := by
    unfold size_t_sub to_size_t
    omega
  rw [e, to_int_of_lt (n - 1) (by omega)]
  omega

theorem end_eq_iter_at (m : Memory) (this : view_ptr) (hwf : this.target.wf m)
    (hpos : 0 < (this.target.visible m).length)
    (hfit : (this.target.visible m).length ≤ INT_MAX) :
    filtered_string_view.end m this
      = .ok (iter_at m this (this.target.visible m).length) := by
  unfold INT_MAX at hfit
  have hk : (this.target.visible m).length - 1 < (this.target.visible m).length := by omega
  have hat := at_of_lt m this.target hwf _ hk
  have hc : (((this.target.visible m).length - 1 : Nat) : Int)
      = ((this.target.visible m).length : Int) - 1 := by omega
  rw [hc] at hat
  simp only [«end», size_eq m this.target hwf, size_t_sub_one _ hpos hfit, hat,
    to_int_of_lt _ (show (this.target.visible m).length < 2147483648 by omega),
    iter_at_of_ge m this _ (le_refl _),
    end_position_eq m this.target _ hk (by omega)]
  rfl

theorem deref_iter_at (m : Memory) (this : view_ptr) (hwf : this.target.wf m) (k : Nat)
    (hk : k < (this.target.visible m).length) :
    (iter_at m this k).operator_deref m = .ok ((this.target.visible m).get ⟨k, hk⟩) := by
  obtain ⟨j, c, _, hc, _, hg, _⟩ := visible_position m this.target hwf k hk
  rw [iter_at_of_lt m this k hk, hg]
  simp [iter.operator_deref, deref, hc]

theorem inc_iter_at_inner (m : Memory) (this : view_ptr) (hwf : this.target.wf m)
    (hfit : (this.target.visible m).length ≤ INT_MAX) (k : Nat)
    (hk : k + 1 < (this.target.visible m).length) :
    (iter_at m this k).operator_inc m = .ok (iter_at m this (k + 1)) := by
  unfold INT_MAX at hfit
  have hk0 : k < (this.target.visible m).length := by omega
  obtain ⟨j, c, hj, _, _, hg, _, _, hdrop⟩ := visible_position m this.target hwf k hk0
  have hb := wf_length_le m this.target hwf (by omega)
  rw [List.drop_eq_getElem_cons hk] at hdrop
  have hscan := scan_forward_window m this.target (this.target.length_ - (j + 1)) (j + 1)
    (m.length + 1) (by omega)
    (by intro t ht; exact hwf (j + 1 + t) (by omega)) _ _ hdrop
  have e : this.target.ptr_ + ((j + 1 : Nat) : Int) - 1 = this.target.ptr_ + (j : Int) := by
    push_cast; ring
  rw [e] at hscan
  rw [iter_at_of_lt m this k hk0, iter_at_of_lt m this (k + 1) hk, hg]
  have hlt : ¬ ((k : Int) + 1 ≥ ((this.target.visible m).length : Int)) := by omega
  have hadd : int_add (k : Int) 1 = (k : Int) + 1 := int_add_of_range _ _ (by omega) (by omega)
  simp only [iter.operator_inc, size_eq m this.target hwf,
    to_int_of_lt _ (show (this.target.visible m).length < 2147483648 by omega), hadd, hlt,
    if_false, hscan]
  simp

theorem inc_iter_at_last (m : Memory) (this : view_ptr) (hwf : this.target.wf m)
    (hpos : 0 < (this.target.visible m).length)
    (hfit : (this.target.visible m).length ≤ INT_MAX) (k : Nat)
    (hk : (this.target.visible m).length ≤ k + 1)
    (hk2 : k < (this.target.visible m).length ∨ (this.target.visible m).length < INT_MAX) :
    (iter_at m this k).operator_inc m
      = .ok (iter_at m this (this.target.visible m).length) := by
  unfold INT_MAX at hfit hk2
  have hl : (this.target.visible m).length - 1 < (this.target.visible m).length := by omega
  have hat := at_of_lt m this.target hwf _ hl
  have hc : (((this.target.visible m).length - 1 : Nat) : Int)
      = ((this.target.visible m).length : Int) - 1 := by omega
  rw [hc] at hat
  have hidx : (iter_at m this k).index_ + 1 ≥ ((this.target.visible m).length : Int) ∧
      (iter_at m this k).index_ + 1 ≤ 2147483647 ∧ 0 ≤ (iter_at m this k).index_ := by
    by_cases hlt : k < (this.target.visible m).length
    · rw [iter_at_of_lt m this k hlt]
      simp only
      omega
    · rw [iter_at_of_ge m this k (by omega)]
      simp only
      omega
  have hf : (iter_at m this k).fsv_ = this := by
    by_cases hlt : k < (this.target.visible m).length
    · rw [iter_at_of_lt m this k hlt]
    · rw [iter_at_of_ge m this k (by omega)]
  have hadd : int_add (iter_at m this k).index_ 1 = (iter_at m this k).index_ + 1 :=
    int_add_of_range _ _ (by omega) (by omega)
  have hsub : int_sub ((this.target.visible m).length : Int) 1
      = ((this.target.visible m).length : Int) - 1 := int_sub_of_range _ _ (by omega) (by omega)
  simp only [iter.operator_inc, hf, size_eq m this.target hwf,
    to_int_of_lt _ (show (this.target.visible m).length < 2147483648 by omega), hadd, hsub,
    hidx.1, if_true, hat, iter_at_of_ge m this _ (le_refl _),
    end_position_eq m this.target _ hl (by omega)]

theorem dec_iter_at (m : Memory) (this : view_ptr) (hwf : this.target.wf m) (k : Nat)
    (hk : k < (this.target.visible m).length)
    (hfit : (this.target.visible m).length ≤ INT_MAX) :
    (iter_at m this (k + 1)).operator_dec m = .ok (iter_at m this k) := by
  unfold INT_MAX at hfit
  have hb := wf_length_le m this.target hwf
  have htk : (this.target.visible m).take (k + 1)
      = (this.target.visible m).take k ++ [(this.target.visible m).get ⟨k, hk⟩] := by
    rw [List.take_succ, List.getElem?_eq_getElem hk]
    rfl
  by_cases hlt : k + 1 < (this.target.visible m).length
  · obtain ⟨j, c, hj, _, _, hg, htake, _, _⟩ := visible_position m this.target hwf (k + 1) hlt
    rw [htk] at htake
    have hscan := scan_backward_window m this.target j 0 (m.length + 1)
      (by have := hb (by omega); omega)
      (by intro t ht; exact hwf (0 + t) (by omega)) _ _ htake
    have e : this.target.ptr_ + ((0 + j : Nat) : Int) = this.target.ptr_ + (j : Int) := by
      simp
    rw [e] at hscan
    rw [iter_at_of_lt m this (k + 1) hlt, iter_at_of_lt m this k hk, hg]
    have hnn : ¬ ((k : Int) < 0) := by omega
    have hidx : int_sub ((k + 1 : Nat) : Int) 1 = (k : Int) := by
      rw [int_sub_of_range _ _ (by omega) (by omega)]
      omega
    simp only [iter.operator_dec, hidx, hnn, if_false, hscan]
  · obtain ⟨j, c, hj, _, _, hg, _, htake, _⟩ := visible_position m this.target hwf k hk
    rw [htk] at htake
    have hscan := scan_backward_window m this.target (j + 1) 0 (m.length + 1)
      (by have := hb (by omega); omega)
      (by intro t ht; exact hwf (0 + t) (by omega)) _ _ htake
    have e : this.target.ptr_ + ((0 + (j + 1) : Nat) : Int)
        = this.target.ptr_ + (j : Int) + 1 := by
      push_cast; ring
    rw [e] at hscan
    rw [iter_at_of_ge m this (k + 1) (by omega), iter_at_of_lt m this k hk,
      end_position_eq m this.target k hk (by omega), hg]
    rw [hg] at hscan
    have hnn : ¬ ((k : Int) < 0) := by omega
    have hidx : int_sub ((this.target.visible m).length : Int) 1 = (k : Int) := by
      rw [int_sub_of_range _ _ (by omega) (by omega)]
      omega
    simp only [iter.operator_dec, hidx, hnn, if_false, hscan]

theorem iter_at_eq_iff (m : Memory) (this : view_ptr) (j k : Nat)
    (hj : j ≤ (this.target.visible m).length) (hk : k ≤ (this.target.visible m).length) :
    iter.operator_eq (iter_at m this j) (iter_at m this k) = decide (j = k) := by
  by_cases hjk : j = k
  · subst hjk
    simp [iter.operator_eq]
  · have hidx : (iter_at m this j).index_ ≠ (iter_at m this k).index_ := by
      by_cases h1 : j < (this.target.visible m).length
      · by_cases h2 : k < (this.target.visible m).length
        · rw [iter_at_of_lt m this j h1, iter_at_of_lt m this k h2]
          simp only [ne_eq]
          omega
        · rw [iter_at_of_lt m this j h1, iter_at_of_ge m this k (by omega)]
          simp only [ne_eq]
          omega
      · by_cases h2 : k < (this.target.visible m).length
        · rw [iter_at_of_ge m this j (by omega), iter_at_of_lt m this k h2]
          simp only [ne_eq]
          omega
        · omega
    simp [iter.operator_eq, hidx, hjk]

/-! ## Traversals of a view with visible characters -/

theorem traverse_iter_at (m : Memory) (this : view_ptr) (hwf : this.target.wf m)
    (hpos : 0 < (this.target.visible m).length)
    (hfit : (this.target.visible m).length ≤ INT_MAX) (n : Nat) :
    ∀ (k fuel : Nat) (out : List Char), k + n = (this.target.visible m).length → n < fuel →
      traverse m (iter_at m this (this.target.visible m).length) fuel (iter_at m this k) out
        = some (.ok (out ++ ((this.target.visible m).drop k).map char_ref.val)) := by
  induction n with
  | zero =>
    intro k fuel out hk hf
    cases fuel with
    | zero => omega
    | succ f =>
      have hk' : k = (this.target.visible m).length := by omega
      subst hk'
      simp [traverse, iter.operator_ne, iter_at_eq_iff m this _ _ (le_refl _) (le_refl _)]
  | succ n ih =>
    intro k fuel out hk hf
    cases fuel with
    | zero => omega
    | succ f =>
      have hlt : k < (this.target.visible m).length := by omega
      have hne : iter.operator_ne (iter_at m this k)
          (iter_at m this (this.target.visible m).length) = true := by
        simp only [iter.operator_ne, iter_at_eq_iff m this _ _ (le_of_lt hlt) (le_refl _)]
        simp
        omega
      have hinc : (iter_at m this k).operator_inc m = .ok (iter_at m this (k + 1)) := by
        by_cases hl : k + 1 < (this.target.visible m).length
        · exact inc_iter_at_inner m this hwf hfit k hl
        · have e : k + 1 = (this.target.visible m).length := by omega
          rw [e]
          exact inc_iter_at_last m this hwf hpos hfit k (by omega) (Or.inl hlt)
      have hd : ((this.target.visible m).drop k).map char_ref.val
          = ((this.target.visible m).get ⟨k, hlt⟩).val
            :: ((this.target.visible m).drop (k + 1)).map char_ref.val := by
        rw [List.drop_eq_getElem_cons hlt]
        rfl
      simp only [traverse, hne, if_true, deref_iter_at m this hwf k hlt, hinc]
      rw [ih (k + 1) f _ (by omega) (by omega), hd]
      simp only [List.append_assoc, List.singleton_append]

theorem reverse_traverse_iter_at (m : Memory) (this : view_ptr) (hwf : this.target.wf m)
    (hfit : (this.target.visible m).length ≤ INT_MAX) (k : Nat) :
    ∀ (fuel : Nat) (out : List Char), k ≤ (this.target.visible m).length → k < fuel →
      reverse_traverse m ⟨iter_at m this 0⟩ fuel ⟨iter_at m this k⟩ out
        = some (.ok (out ++ (((this.target.visible m).take k).map char_ref.val).reverse)) := by
  induction k with
  | zero =>
    intro fuel out _ hf
    cases fuel with
    | zero => omega
    | succ f =>
      simp [reverse_traverse, reverse_iterator.operator_ne, iter.operator_ne,
        iter_at_eq_iff m this 0 0 (Nat.zero_le _) (Nat.zero_le _)]
  | succ k ih =>
    intro fuel out hk hf
    cases fuel with
    | zero => omega
    | succ f =>
      have hlt : k < (this.target.visible m).length := by omega
      have hne : reverse_iterator.operator_ne ⟨iter_at m this (k + 1)⟩ ⟨iter_at m this 0⟩
          = true := by
        simp [reverse_iterator.operator_ne, iter.operator_ne,
          iter_at_eq_iff m this _ _ hk (Nat.zero_le _)]
      have hdec := dec_iter_at m this hwf k hlt hfit
      simp only [reverse_traverse, hne, if_true, reverse_iterator.operator_deref,
        reverse_iterator.operator_inc, hdec, deref_iter_at m this hwf k hlt]
      have ht : (((this.target.visible m).take (k + 1)).map char_ref.val).reverse
          = ((this.target.visible m).get ⟨k, hlt⟩).val
            :: (((this.target.visible m).take k).map char_ref.val).reverse := by
        rw [List.take_succ, List.getElem?_eq_getElem hlt]
        simp only [Option.toList_some, List.map_append, List.map_cons, List.map_nil,
          List.reverse_append, List.reverse_cons, List.reverse_nil, List.nil_append,
          List.cons_append, List.get_eq_getElem]
      rw [ih f _ (by omega) (by omega), ht]
      simp only [List.append_assoc, List.singleton_append]

/-- Forward traversal of a view with at least one visible character: with more
rounds than visible characters the loop ends and has dereferenced exactly the
visible characters, in order. -/
theorem collect_yields_visible (m : Memory) (this : view_ptr) (hwf : this.target.wf m)
    (hpos : 0 < (this.target.visible m).length)
    (hfit : (this.target.visible m).length ≤ INT_MAX)
    (fuel : Nat) (hfuel : (this.target.visible m).length < fuel) :
    collect m this fuel = some (.ok ((this.target.visible m).map char_ref.val)) := by
  simp only [collect, begin_eq_iter_at m this hwf hpos, end_eq_iter_at m this hwf hpos hfit]
  rw [traverse_iter_at m this hwf hpos hfit _ 0 fuel [] (by omega) hfuel]
  simp

/-- Reverse traversal of a view with at least one visible character yields
the visible characters from last to first, through `rbegin`/`rend` and through
`crbegin`/`crend`. -/
theorem reverse_collect_yields_reversed (m : Memory) (this : view_ptr)
    (hwf : this.target.wf m) (hpos : 0 < (this.target.visible m).length)
    (hfit : (this.target.visible m).length ≤ INT_MAX)
    (fuel : Nat) (hfuel : (this.target.visible m).length < fuel) :
    reverse_collect m this fuel
        = some (.ok ((this.target.visible m).map char_ref.val).reverse) ∧
      const_reverse_collect m this fuel
        = some (.ok ((this.target.visible m).map char_ref.val).reverse) := by
  have hr : reverse_collect m this fuel
      = some (.ok ((this.target.visible m).map char_ref.val).reverse) := by
    simp only [reverse_collect, rbegin, rend, begin_eq_iter_at m this hwf hpos,
      end_eq_iter_at m this hwf hpos hfit, noexcept_]
    rw [reverse_traverse_iter_at m this hwf hfit _ fuel [] (le_refl _) hfuel]
    simp
  exact ⟨hr, hr⟩

/-- Round trips at the two ends of a view with at least one visible character:
`++(--end())` is `end()` and `--(++begin())` is `begin()`. -/
theorem round_trip_of_nonempty_view (m : Memory) (this : view_ptr)
    (hwf : this.target.wf m) (hpos : 0 < (this.target.visible m).length)
    (hfit : (this.target.visible m).length ≤ INT_MAX) :
    (∃ e d e', filtered_string_view.end m this = .ok e ∧ e.operator_dec m = .ok d ∧
      d.operator_inc m = .ok e' ∧ iter.operator_eq e' e = true) ∧
    (∃ b i b', filtered_string_view.begin m this = .ok b ∧ b.operator_inc m = .ok i ∧
      i.operator_dec m = .ok b' ∧ iter.operator_eq b' b = true) := by
  constructor
  · refine ⟨iter_at m this (this.target.visible m).length,
      iter_at m this ((this.target.visible m).length - 1),
      iter_at m this (this.target.visible m).length,
      end_eq_iter_at m this hwf hpos hfit, ?_, ?_, ?_⟩
    · have hd := dec_iter_at m this hwf ((this.target.visible m).length - 1) (by omega) hfit
      have e : (this.target.visible m).length - 1 + 1 = (this.target.visible m).length := by
        omega
      rw [e] at hd
      exact hd
    · exact inc_iter_at_last m this hwf hpos hfit _ (by omega) (Or.inl (by omega))
    · simp [iter.operator_eq]
  · refine ⟨iter_at m this 0, iter_at m this 1, iter_at m this 0,
      begin_eq_iter_at m this hwf hpos, ?_, dec_iter_at m this hwf 0 hpos hfit, ?_⟩
    · by_cases hl : 0 + 1 < (this.target.visible m).length
      · exact inc_iter_at_inner m this hwf hfit 0 hl
      · have e : (this.target.visible m).length = 1 := by omega
        have hi := inc_iter_at_last m this hwf hpos hfit 0 (by omega) (Or.inl hpos)
        rw [e] at hi
        exact hi
    · simp [iter.operator_eq]

/-! ## Cases of the test suite -/

/-- The test `at() works`. -/
theorem test_at_works :
    malamute_vowels.at malamute 0 = .ok ⟨2, 'a'⟩ ∧ malamute_vowels.at malamute 1 = .ok ⟨4, 'a'⟩ ∧
      malamute_vowels.at malamute 2 = .ok ⟨6, 'u'⟩ ∧
      malamute_vowels.at malamute 3 = .ok ⟨8, 'e'⟩ := by
  decide

/-- The test `at() throws exception`. -/
theorem test_at_throws :
    malamute_vowels.at malamute (-1)
        = .error (.domain_error "filtered_string_view::at(-1): invalid index") ∧
      malamute_vowels.at malamute 8
        = .error (.domain_error "filtered_string_view::at(8): invalid index") ∧
      malamute_vowels.at malamute 4
        = .error (.domain_error "filtered_string_view::at(4): invalid index") := by
  decide

/-- The test `at() has correct error message`. -/
theorem test_at_message :
    empty_string_view.target.at empty_storage 0
        = .error (.domain_error "filtered_string_view::at(0): invalid index") ∧
      empty_string_view.target.at empty_storage 3
        = .error (.domain_error "filtered_string_view::at(3): invalid index") := by
  decide

/-- The test `Reverse Iterator and reverse const iterator`, with the forward
traversal of the same view. -/
theorem test_reverse_iterator :
    collect milo milo_view 3 = some (.ok ['m', 'l']) ∧
      reverse_collect milo milo_view 3 = some (.ok ['l', 'm']) ∧
      const_reverse_collect milo milo_view 3 = some (.ok ['l', 'm']) := by
  decide

/-! ## Stream output and moves -/

theorem operator_shl_loop_eq (m : Memory) (v : filtered_string_view) (hwf : v.wf m)
    (hfit : (v.visible m).length ≤ 2147483648) (n : Nat) :
    ∀ (i : Nat) (os : List Char), i + n = (v.visible m).length →
      operator_shl_loop m v n i os
        = .ok (os ++ ((v.visible m).drop i).map char_ref.val) := by
  induction n with
  | zero =>
    intro i os hi
    have e : (v.visible m).drop i = [] := List.drop_eq_nil_of_le (by omega)
    simp [operator_shl_loop, e]
  | succ n ih =>
    intro i os hi
    have hlt : i < (v.visible m).length := by omega
    have hd : ((v.visible m).drop i).map char_ref.val
        = ((v.visible m).get ⟨i, hlt⟩).val :: ((v.visible m).drop (i + 1)).map char_ref.val := by
      rw [List.drop_eq_getElem_cons hlt]
      rfl
    simp only [operator_shl_loop]
    rw [to_int_of_lt i (by omega), at_of_lt m v hwf i hlt]
    simp only
    rw [ih (i + 1) _ (by omega), hd]
    simp only [List.append_assoc, List.singleton_append]

theorem operator_shl_eq (m : Memory) (v : filtered_string_view) (hwf : v.wf m)
    (hfit : (v.visible m).length ≤ 2147483648) (os : List Char) :
    operator_shl m os v = .ok (os ++ (v.visible m).map char_ref.val) := by
  simp only [operator_shl, size_eq m v hwf]
  rw [operator_shl_loop_eq m v hwf hfit _ 0 os (by omega)]
  simp

theorem copy_eq (v : filtered_string_view) : v.copy = v := rfl

/-! ## Errors of `substr` -/

theorem strlen_loop_error (m : Memory) (fuel : Nat) :
    ∀ (p : Int) (acc : Nat) (e : Exn), strlen_loop m fuel p acc = .error e → e = .undefined := by
  induction fuel with
  | zero =>
    intro p acc e h
    simp [strlen_loop] at h
    exact h.symm
  | succ f ih =>
    intro p acc e h
    simp only [strlen_loop] at h
    cases hr : m.read p with
    | none =>
      rw [hr] at h
      simp at h
      exact h.symm
    | some c =>
      rw [hr] at h
      by_cases hc : c = NUL
      · simp [hc] at h
      · simp only [hc, if_false] at h
        exact ih _ _ _ h

theorem of_cstr_pred_error (m : Memory) (p : Int) (f : filter) (e : Exn)
    (h : of_cstr_pred m p f = .error e) : e = .undefined := by
  unfold of_cstr_pred at h
  cases hs : strlen m p with
  | ok n => rw [hs] at h; simp at h
  | error e' =>
    rw [hs] at h
    have := strlen_loop_error m _ _ _ _ hs
    cases h
    exact this

/-- The resolved count of `substr`. -/
theorem substr_eq (m : Memory) (v : filtered_string_view) (n : Nat)
    (hsize : v.size m = .ok n) (pos count : Int) :
    substr m v pos count
      = match v.at m pos with
        | .error e => .error e
        | .ok new_ptr =>
          match v.at m
              (int_sub (int_add pos (if count ≤ 0 then int_sub (to_int n) pos else count)) 1) with
          | .error e => .error e
          | .ok end_ =>
            of_cstr_pred m new_ptr.addr
              (substr_predicate v end_.addr
                (if count ≤ 0 then int_sub (to_int n) pos else count)) := by
  unfold substr
  by_cases hc : count ≤ 0
  · simp only [hc, if_true, hsize]
  · simp only [hc, if_false]

/-! ## The loops of `split` -/

theorem to_int_zero : to_int 0 = 0 := by decide

theorem to_size_t_of_nonneg (x : Nat) (h : x < 2147483648) : to_size_t (x : Int) = x := by
  unfold to_size_t
  omega

theorem split_match_loop_eq (m : Memory) (v t : filtered_string_view)
    (hv : v.wf m) (ht : t.wf m) (hfit : (v.visible m).length ≤ 2147483648)
    (end_ : Nat) (hend : end_ + (t.visible m).length ≤ (v.visible m).length) (n : Nat) :
    ∀ i : Nat, i + n = (t.visible m).length →
      split_match_loop m v t end_ n i
        = .ok (decide ((((v.visible m).map char_ref.val).drop (end_ + i)).take n
            = ((t.visible m).map char_ref.val).drop i)) := by
  induction n with
  | zero =>
    intro i hi
    have e : ((t.visible m).map char_ref.val).drop i = [] :=
      List.drop_eq_nil_of_le (by simp; omega)
    simp [split_match_loop, e]
  | succ n ih =>
    intro i hi
    have h1 : end_ + i < (v.visible m).length := by omega
    have h2 : i < (t.visible m).length := by omega
    have h1m : end_ + i < ((v.visible m).map char_ref.val).length := by simpa using h1
    have h2m : i < ((t.visible m).map char_ref.val).length := by simpa using h2
    simp only [split_match_loop]
    rw [to_int_of_lt (end_ + i) (by omega), to_int_of_lt i (by omega),
      at_of_lt m v hv (end_ + i) h1, at_of_lt m t ht i h2]
    simp only
    rw [List.drop_eq_getElem_cons h1m, List.drop_eq_getElem_cons h2m, List.take_succ_cons]
    by_cases he : ((v.visible m).get ⟨end_ + i, h1⟩).val = ((t.visible m).get ⟨i, h2⟩).val
    · simp only [ne_eq, he, not_true_eq_false, if_false]
      rw [ih (i + 1) (by omega)]
      simp only [List.get_eq_getElem] at he
      simp only [List.getElem_map, he, List.cons.injEq, true_and]
      rfl
    · simp only [ne_eq, he, not_false_eq_true, if_true]
      simp only [List.get_eq_getElem] at he
      simp [List.getElem_map, he]

/-! ## `compose` on a null buffer -/

theorem strlen_null (m : Memory) : strlen m 0 = .error .undefined := by
  simp [strlen, strlen_loop, Memory.read]

theorem compose_null (m : Memory) (v : filtered_string_view) (h : v.ptr_ = 0)
    (filts : List filter) : compose m v filts = .error .undefined := by
  simp [compose, of_cstr_pred, data, h, strlen_null]

/-! ## Views over C strings -/

theorem strlen_loop_cells (m : Memory) (n : Nat) :
    ∀ (fuel : Nat) (p : Int) (acc : Nat), n < fuel →
      (∀ i : Nat, i < n → (m.read (p + (i : Int))).isSome ∧ m.read (p + (i : Int)) ≠ some NUL) →
      m.read (p + (n : Int)) = some NUL →
      strlen_loop m fuel p acc = .ok (acc + n) := by
  induction n with
  | zero =>
    intro fuel p acc hf _ hz
    cases fuel with
    | zero => omega
    | succ f =>
      have hz' : m.read p = some NUL := by simpa using hz
      simp [strlen_loop, hz']
  | succ n ih =>
    intro fuel p acc hf hc hz
    cases fuel with
    | zero => omega
    | succ f =>
      have h0 := hc 0 (by omega)
      simp only [Nat.cast_zero, add_zero] at h0
      obtain ⟨c, hcr⟩ := Option.isSome_iff_exists.mp h0.1
      have hne : c ≠ NUL := fun e => h0.2 (by rw [hcr, e])
      simp only [strlen_loop, hcr, hne, if_false]
      rw [ih f (p + 1) (acc + 1) (by omega)
        (by
          intro i hi
          have := hc (i + 1) (by omega)
          have e : p + ((i + 1 : Nat) : Int) = p + 1 + (i : Int) := by push_cast; ring
          rwa [e] at this)
        (by
          have e : p + ((n + 1 : Nat) : Int) = p + 1 + (n : Int) := by push_cast; ring
          rwa [e] at hz)]
      congr 1
      omega

theorem strlen_cells (m : Memory) (n : Nat) (p : Int)
    (hc : ∀ i : Nat, i < n →
      (m.read (p + (i : Int))).isSome ∧ m.read (p + (i : Int)) ≠ some NUL)
    (hz : m.read (p + (n : Int)) = some NUL) : strlen m p = .ok n := by
  have hb := read_some_bounds m _ _ hz
  have hp : n = 0 ∨ 0 < p := by
    by_cases h0 : n = 0
    · exact Or.inl h0
    · right
      obtain ⟨c, hcr⟩ := Option.isSome_iff_exists.mp (hc 0 (by omega)).1
      have := read_some_bounds m _ _ hcr
      simpa using this.1
  unfold strlen
  rw [strlen_loop_cells m n (m.length + 1) p 0 (by omega) hc hz]
  simp

theorem strlen_suffix (m : Memory) (v : filtered_string_view) (h : v.is_c_string m)
    (j : Nat) (hj : j ≤ v.length_) :
    strlen m (v.ptr_ + (j : Int)) = .ok (v.length_ - j) := by
  obtain ⟨hwf, hnn, hz⟩ := h
  apply strlen_cells
  · intro i hi
    have e : v.ptr_ + (j : Int) + (i : Int) = v.ptr_ + ((j + i : Nat) : Int) := by
      push_cast; ring
    rw [e]
    exact ⟨hwf (j + i) (by omega), hnn (j + i) (by omega)⟩
  · have e : v.ptr_ + (j : Int) + ((v.length_ - j : Nat) : Int) = v.ptr_ + (v.length_ : Int) := by
      omega
    rw [e]
    exact hz

theorem window_shift (m : Memory) (v w : filtered_string_view) (j : Nat)
    (h : w.ptr_ = v.ptr_ + (j : Int)) (i n : Nat) :
    w.window m i n = v.window m (j + i) n := by
  unfold window
  rw [← List.map_add_range' j i n 1, List.filterMap_map]
  congr 1
  funext k
  have e : w.ptr_ + (k : Int) = v.ptr_ + ((j + k : Nat) : Int) := by
    rw [h]; push_cast; ring
  simp only [Function.comp, e]

theorem window_same_ptr (m : Memory) (v w : filtered_string_view) (h : w.ptr_ = v.ptr_)
    (i n : Nat) : w.window m i n = v.window m i n := by
  have := window_shift m v w 0 (by simpa using h) i n
  simpa using this

theorem compose_predicate_call (ps : List filter) (r : char_ref) :
    (compose_predicate ps).call r = ps.all fun p => p.call r := by
  induction ps with
  | nil => rfl
  | cons p ps ih =>
    have : (compose_predicate (p :: ps)).call r
        = (if !p.call r then false else (compose_predicate ps).call r) := rfl
    rw [this, ih]
    cases hp : p.call r <;> simp [hp]

/-- The function `compose` on a view over a C string: the result has the same
buffer, and its visible sequence consists of the buffer characters that
satisfy every predicate of the list, in buffer order. -/
theorem compose_of_c_string (m : Memory) (v : filtered_string_view)
    (h : v.is_c_string m) (ps : List filter) :
    ∃ w, compose m v ps = .ok w ∧ w.ptr_ = v.ptr_ ∧ w.length_ = v.length_ ∧ w.wf m ∧
      w.visible m = (v.buffer m).filter fun r => ps.all fun p => p.call r := by
  have hs := strlen_suffix m v h 0 (Nat.zero_le _)
  simp only [Nat.cast_zero, add_zero, Nat.sub_zero] at hs
  refine ⟨⟨v.ptr_, v.length_, compose_predicate ps⟩, ?_, rfl, rfl, h.1, ?_⟩
  · simp [compose, of_cstr_pred, data, hs]
  · unfold visible buffer
    rw [window_same_ptr m v _ rfl]
    apply List.filter_congr
    intro r _
    exact compose_predicate_call ps r

/-- The order of two predicates in the list given to `compose` does not
matter on a view over a C string: the two results compare equal. -/
theorem compose_order_irrelevant (m : Memory) (v : filtered_string_view)
    (h : v.is_c_string m) (hfit : v.length_ ≤ INT_MAX) (p1 p2 : filter) :
    ∃ a b, compose m v [p1, p2] = .ok a ∧ compose m v [p2, p1] = .ok b ∧
      operator_eq m a b = .ok true := by
  obtain ⟨a, ha, _, hal, hawf, hav⟩ := compose_of_c_string m v h [p1, p2]
  obtain ⟨b, hb, _, _, hbwf, hbv⟩ := compose_of_c_string m v h [p2, p1]
  refine ⟨a, b, ha, hb, ?_⟩
  have hfa : (a.visible m).length ≤ 2147483648 := by
    have := visible_length_le m a
    unfold INT_MAX at hfit
    omega
  rw [operator_eq_eq m a b hawf hbwf hfa, hav, hbv]
  have : ((v.buffer m).filter fun r => [p1, p2].all fun p => p.call r)
      = (v.buffer m).filter fun r => [p2, p1].all fun p => p.call r := by
    apply List.filter_congr
    intro r _
    simp [Bool.and_comm]
  rw [this]
  simp

/-! ## `substr` on a view over a C string -/

theorem window_append (m : Memory) (v : filtered_string_view) (i a b : Nat) :
    v.window m i (a + b) = v.window m i a ++ v.window m (i + a) b := by
  unfold window
  rw [← List.filterMap_append, List.range'_append_1, Nat.add_comm b a]

theorem window_mem_addr (m : Memory) (v : filtered_string_view) (i n : Nat) (r : char_ref)
    (h : r ∈ v.window m i n) :
    ∃ k : Nat, i ≤ k ∧ k < i + n ∧ r.addr = v.ptr_ + (k : Int) := by
  unfold window at h
  rw [List.mem_filterMap] at h
  obtain ⟨k, hk, hr⟩ := h
  rw [List.mem_range'_1] at hk
  cases hread : m.read (v.ptr_ + (k : Int)) with
  | none => rw [hread] at hr; simp at hr
  | some c =>
    rw [hread] at hr
    simp only [Option.map_some', Option.some.injEq] at hr
    exact ⟨k, hk.1, hk.2, by rw [← hr]⟩

theorem substr_predicate_call (v : filtered_string_view) (end_ rcount : Int) (r : char_ref) :
    (substr_predicate v end_ rcount).call r
      = (decide (r.addr ≤ end_) && v.predicate_.call r && decide (rcount ≠ 0)) := rfl

/-- The visible sequence of the view that `substr` builds, when the length of
the new buffer reaches the end of the buffer of `v`. -/
theorem substr_view_visible (m : Memory) (v : filtered_string_view) (hwf : v.wf m)
    (k1 k2 : Nat) (hk : k1 ≤ k2) (hk2 : k2 < (v.visible m).length) (rcount : Int)
    (hrc : rcount ≠ 0) (w : filtered_string_view)
    (hptr : w.ptr_ = ((v.visible m).get ⟨k1, by omega⟩).addr)
    (hlen : w.ptr_ + (w.length_ : Int) = v.ptr_ + (v.length_ : Int))
    (hpred : w.predicate_
      = substr_predicate v ((v.visible m).get ⟨k2, hk2⟩).addr rcount) :
    w.visible m = ((v.visible m).drop k1).take (k2 + 1 - k1) := by
  have hk1 : k1 < (v.visible m).length := by omega
  obtain ⟨j1, c1, hj1, _, _, hg1, ht1, _, _⟩ := visible_position m v hwf k1 hk1
  obtain ⟨j2, c2, hj2, _, _, hg2, _, ht2, hd2⟩ := visible_position m v hwf k2 hk2
  -- the raw positions are ordered like the logical ones
  have hjj : j1 ≤ j2 := by
    by_contra hcon
    have hsplit := window_append m v 0 (j2 + 1) (j1 - (j2 + 1))
    have e : j2 + 1 + (j1 - (j2 + 1)) = j1 := by omega
    rw [e, Nat.zero_add] at hsplit
    have hl := congrArg (fun l => (l.filter v.predicate_.call).length) hsplit
    simp only [List.filter_append, List.length_append] at hl
    rw [ht1, ht2] at hl
    simp only [List.length_take] at hl
    omega
  rw [hg1] at hptr
  rw [hg2] at hpred
  simp only at hptr hpred
  have hwl : w.length_ = v.length_ - j1 := by omega
  -- the window of `w` is the window of `v` from `j1` on
  have hwin : w.window m 0 w.length_
      = v.window m j1 (j2 + 1 - j1) ++ v.window m (j2 + 1) (v.length_ - (j2 + 1)) := by
    rw [window_shift m v w j1 hptr 0 w.length_, hwl, Nat.add_zero]
    have e : v.length_ - j1 = (j2 + 1 - j1) + (v.length_ - (j2 + 1)) := by omega
    rw [e, window_append]
    congr 2
    omega
  have hfirst : (v.window m j1 (j2 + 1 - j1)).filter w.predicate_.call
      = (v.window m j1 (j2 + 1 - j1)).filter v.predicate_.call := by
    apply List.filter_congr
    intro r hr
    obtain ⟨k, _, hkn, hka⟩ := window_mem_addr m v _ _ r hr
    have hle : r.addr ≤ v.ptr_ + (j2 : Int) := by omega
    rw [hpred, substr_predicate_call]
    simp [hle, hrc]
  have hsecond : (v.window m (j2 + 1) (v.length_ - (j2 + 1))).filter w.predicate_.call = [] := by
    rw [List.filter_eq_nil_iff]
    intro r hr
    obtain ⟨k, hkl, _, hka⟩ := window_mem_addr m v _ _ r hr
    have hgt : ¬ r.addr ≤ v.ptr_ + (j2 : Int) := by omega
    rw [hpred, substr_predicate_call]
    simp [hgt]
  have hmid : (v.window m j1 (j2 + 1 - j1)).filter v.predicate_.call
      = ((v.visible m).take (k2 + 1)).drop k1 := by
    have hsplit := window_append m v 0 j1 (j2 + 1 - j1)
    have e : j1 + (j2 + 1 - j1) = j2 + 1 := by omega
    rw [e, Nat.zero_add] at hsplit
    have hf := congrArg (fun l => l.filter v.predicate_.call) hsplit
    simp only [List.filter_append] at hf
    rw [ht1, ht2] at hf
    have hd := congrArg (fun l => l.drop k1) hf
    simp only at hd
    rw [List.drop_append_of_le_length (by simp; omega)] at hd
    have hz : ((v.visible m).take k1).drop k1 = [] :=
      List.drop_eq_nil_of_le (by simp)
    rw [hz, List.nil_append] at hd
    exact hd.symm
  unfold visible buffer
  rw [hwin, List.filter_append, hfirst, hsecond, List.append_nil, hmid, List.drop_take]
  rfl

/-- The function `substr` on a view over a C string: for `0 ≤ pos < size` and
`count ≤ 0` or `pos + count ≤ size` it returns a view whose visible sequence is
`v.at(pos)`, ..., `v.at(pos + rc - 1)`, with `rc = count` when `count > 0` and
`rc = size - pos` otherwise. -/
theorem substr_yields_range (m : Memory) (v : filtered_string_view)
    (h : v.is_c_string m) (n : Nat) (hsize : v.size m = .ok n) (hfit : n ≤ INT_MAX)
    (pos count : Int) (h0 : 0 ≤ pos) (h1 : pos < (n : Int))
    (hc : count ≤ 0 ∨ pos + count ≤ (n : Int)) :
    ∃ w, substr m v pos count = .ok w ∧ w.wf m ∧
      w.visible m
        = ((v.visible m).drop pos.toNat).take
            (if 0 < count then count else (n : Int) - pos).toNat := by
  have hwf := h.1
  have hs := size_eq m v hwf
  rw [hsize] at hs
  have hn : (v.visible m).length = n := by
    have := Res.ok.inj hs
    omega
  unfold INT_MAX at hfit
  have hti : to_int (n : Int) = (n : Int) := to_int_of_lt n (by omega)
  -- the resolved count and the two logical indices
  obtain ⟨rc, hrc⟩ : ∃ rc : Int, rc = if count ≤ 0 then (n : Int) - pos else count := ⟨_, rfl⟩
  have hrc1 : 1 ≤ rc ∧ pos + rc ≤ (n : Int) := by
    rw [hrc]; split <;> omega
  have hrc' : (if 0 < count then count else (n : Int) - pos) = rc := by
    rw [hrc]; split <;> split <;> omega
  have hk1 : pos.toNat < (v.visible m).length := by omega
  have hk2 : (pos + rc - 1).toNat < (v.visible m).length := by omega
  have hat1 := at_of_lt m v hwf pos.toNat hk1
  have hat2 := at_of_lt m v hwf (pos + rc - 1).toNat hk2
  rw [Int.toNat_of_nonneg h0] at hat1
  rw [Int.toNat_of_nonneg (by omega)] at hat2
  obtain ⟨j1, c1, hj1, _, _, hg1, _⟩ := visible_position m v hwf pos.toNat hk1
  have hstr := strlen_suffix m v h j1 (by omega)
  have hsub := substr_eq m v n hsize pos count
  have hint : int_sub (int_add pos rc) 1 = pos + rc - 1 := by
    rw [int_add_of_range _ _ (by omega) (by omega), int_sub_of_range _ _ (by omega) (by omega)]
  rw [hti, int_sub_of_range _ pos (by omega) (by omega), ← hrc, hint, hat1] at hsub
  simp only [hat2] at hsub
  rw [hg1] at hsub
  simp only [of_cstr_pred, hstr] at hsub
  refine ⟨_, hsub, ?_, ?_⟩
  · intro i hi
    simp only at hi ⊢
    have := hwf (j1 + i) (by omega)
    have e : v.ptr_ + (j1 : Int) + (i : Int) = v.ptr_ + ((j1 + i : Nat) : Int) := by
      push_cast; ring
    rw [e]
    exact this
  · rw [hrc']
    have hv := substr_view_visible m v hwf pos.toNat (pos + rc - 1).toNat (by omega) hk2 rc
      (by omega) ⟨v.ptr_ + (j1 : Int), v.length_ - j1,
        substr_predicate v ((v.visible m).get ⟨(pos + rc - 1).toNat, hk2⟩).addr rc⟩
      (by rw [hg1]) (by simp only; omega) rfl
    rw [hv]
    congr 1
    omega

/-! ## `split` on a source over a C string -/

theorem delimited_concat (t : List Char) (segs : List (List Char)) (e : List Char) :
    delimited t (segs ++ [e]) = (segs.map fun s => s ++ t).flatten ++ e := by
  induction segs with
  | nil => simp [delimited]
  | cons s rest ih =>
    have hstep : delimited t (s :: rest ++ [e]) = s ++ t ++ delimited t (rest ++ [e]) := by
      cases rest with
      | nil => rfl
      | cons r rs => rfl
    rw [hstep, ih]
    simp

theorem visible_chars_default (m : Memory) : visible_chars m mk_default = [] := by
  simp [visible_chars, visible, buffer, window_zero, mk_default]

theorem split_match_loop_overrun (m : Memory) (v t : filtered_string_view)
    (hv : v.wf m) (ht : t.wf m) (hfit : (v.visible m).length ≤ 2147483647)
    (end_ : Nat) (n : Nat) :
    ∀ i : Nat, i + n = (t.visible m).length → end_ + i ≤ (v.visible m).length →
      (v.visible m).length < end_ + i + n →
      split_match_loop m v t end_ n i ≠ .ok true := by
  induction n with
  | zero => intro i _ h1 h2; omega
  | succ n ih =>
    intro i hi h1 h2
    simp only [split_match_loop]
    rw [to_int_of_lt (end_ + i) (by omega)]
    by_cases hlt : end_ + i < (v.visible m).length
    · have h2t : i < (t.visible m).length := by omega
      rw [at_of_lt m v hv (end_ + i) hlt, to_int_of_lt i (by omega), at_of_lt m t ht i h2t]
      simp only
      split
      · intro hcon; cases hcon
      · exact ih (i + 1) (by omega) (by omega) (by omega)
    · rw [at_of_not_lt m v hv _ (by right; omega)]
      intro hcon
      cases hcon

/-- Invariant of the outer loop of `split`: the elements pushed so far, each
followed by the token, spell the first `begin` visible characters of the
source. -/
theorem split_loop_invariant (m : Memory) (v t : filtered_string_view)
    (h : v.is_c_string m) (ht : t.wf m) (hfit : (v.visible m).length ≤ INT_MAX)
    (htpos : 0 < (t.visible m).length) (fuel : Nat) :
    ∀ (end_ bN : Nat) (soln : List filtered_string_view) (b' : Int)
      (s' : List filtered_string_view),
      bN ≤ end_ → bN ≤ (v.visible m).length →
      (soln.map fun e => visible_chars m e ++ visible_chars m t).flatten
        = (visible_chars m v).take bN →
      split_loop m v t fuel end_ (bN : Int) soln = .ok (b', s') →
      ∃ bN' : Nat, b' = (bN' : Int) ∧ bN' ≤ (v.visible m).length ∧
        (s'.map fun e => visible_chars m e ++ visible_chars m t).flatten
          = (visible_chars m v).take bN' := by
  have hwf := h.1
  have hfit' : (v.visible m).length ≤ 2147483647 := hfit
  induction fuel with
  | zero =>
    intro end_ bN soln b' s' _ _ _ hret
    simp [split_loop] at hret
  | succ fuel ih =>
    intro end_ bN soln b' s' hbe hbs hinv hret
    simp only [split_loop, size_eq m v hwf, size_eq m t ht] at hret
    by_cases hlt : end_ < (v.visible m).length
    · have hat := at_of_lt m v hwf end_ hlt
      have hat0 := at_of_lt m t ht 0 htpos
      simp only [Nat.cast_zero] at hat0
      rw [to_int_of_lt end_ (by omega)] at hret
      simp only [hlt, if_true, hat, hat0] at hret
      by_cases hhead : ((v.visible m).get ⟨end_, hlt⟩).val = ((t.visible m).get ⟨0, htpos⟩).val
      · simp only [hhead, if_true] at hret
        cases hm : split_match_loop m v t end_ ((t.visible m).length - 1) 1 with
        | error e =>
          rw [hm] at hret
          simp at hret
        | ok b =>
          rw [hm] at hret
          cases b with
          | false =>
            simp only at hret
            exact ih (end_ + 1) bN soln b' s' (by omega) hbs hinv hret
          | true =>
            simp only at hret
            by_cases hov : end_ + (t.visible m).length ≤ (v.visible m).length
            · -- the token occurs at `end_`
              have hme := split_match_loop_eq m v t hwf ht (by omega) end_ hov
                ((t.visible m).length - 1) 1 (by omega)
              rw [hm] at hme
              have hdec := of_decide_eq_true (Res.ok.inj hme).symm
              have hocc : ((visible_chars m v).drop end_).take (t.visible m).length
                  = visible_chars m t := by
                unfold visible_chars
                have h1m : end_ < ((v.visible m).map char_ref.val).length := by simpa using hlt
                have h2m : 0 < ((t.visible m).map char_ref.val).length := by simpa using htpos
                have e : (t.visible m).length = ((t.visible m).length - 1) + 1 := by omega
                rw [e, List.drop_eq_getElem_cons h1m, List.take_succ_cons, hdec]
                have e2 : ((t.visible m).map char_ref.val)
                    = ((t.visible m).map char_ref.val)[0]
                      :: ((t.visible m).map char_ref.val).drop 1 := by
                  rw [← List.drop_eq_getElem_cons h2m]
                  rfl
                conv_rhs => rw [e2]
                simp only [List.get_eq_getElem] at hhead
                simp only [List.getElem_map, hhead]
              -- the element pushed for the segment before the token
              obtain ⟨el, hel, helv⟩ : ∃ el, split_segment m v (bN : Int) (end_ : Int) = .ok el ∧
                  visible_chars m el = ((visible_chars m v).drop bN).take (end_ - bN) := by
                unfold split_segment
                by_cases hne : (end_ : Int) ≠ (bN : Int)
                · rw [if_pos hne, int_sub_of_range _ _ (by omega) (by omega)]
                  obtain ⟨w, hw, _, hwv⟩ := substr_yields_range m v h (v.visible m).length
                    (size_eq m v hwf) hfit (bN : Int) ((end_ : Int) - (bN : Int)) (by omega)
                    (by omega) (by right; omega)
                  refine ⟨w, hw, ?_⟩
                  unfold visible_chars
                  rw [hwv]
                  have hpos : (0 : Int) < (end_ : Int) - (bN : Int) := by omega
                  simp only [hpos, if_true, Int.toNat_ofNat, List.map_take, List.map_drop]
                  congr 1
                  omega
                · have hee : end_ = bN := by omega
                  rw [if_neg hne]
                  refine ⟨mk_default, rfl, ?_⟩
                  rw [visible_chars_default, hee]
                  simp
              rw [hel] at hret
              simp only at hret
              have hb : to_int ((((t.visible m).length + end_ : Nat)) : Int)
                  = (((t.visible m).length + end_ : Nat) : Int) :=
                to_int_of_lt _ (by omega)
              have he : to_size_t (int_sub (((t.visible m).length + end_ : Nat) : Int) 1) + 1
                  = (t.visible m).length + end_ := by
                rw [int_sub_of_range _ _ (by omega) (by omega)]
                unfold to_size_t
                omega
              rw [hb, he] at hret
              refine ih ((t.visible m).length + end_) ((t.visible m).length + end_)
                (soln ++ [el]) b' s' (le_refl _) (by omega) ?_ hret
              rw [List.map_append, List.flatten_append, hinv]
              simp only [List.map_cons, List.map_nil, List.flatten_cons, List.flatten_nil,
                List.append_nil]
              rw [helv, ← hocc, ← List.append_assoc, ← List.take_add,
                show bN + (end_ - bN) = end_ by omega, ← List.take_add, Nat.add_comm]
            · exact absurd hm (split_match_loop_overrun m v t hwf ht hfit' end_ _ 1
                (by omega) (by omega) (by omega))
      · simp only [hhead, if_false] at hret
        exact ih (end_ + 1) bN soln b' s' (by omega) hbs hinv hret
    · simp only [hlt, if_false] at hret
      have hr := Res.ok.inj hret
      have hb : b' = (bN : Int) := (congrArg Prod.fst hr).symm
      have hs : s' = soln := (congrArg Prod.snd hr).symm
      exact ⟨bN, hb, hbs, by rw [hs]; exact hinv⟩

/-- The function `split` on a source over a C string, with a token and a source
of at least one visible character each and a token no longer than the source:
whenever it returns the elements `e0`, ..., `ek`, their visible sequences
joined with the visible sequence of the token spell the visible sequence of
the source. -/
theorem split_concatenation (m : Memory) (v t : filtered_string_view)
    (h : v.is_c_string m) (ht : t.wf m) (n nt : Nat)
    (hsize : v.size m = .ok n) (hst : t.size m = .ok nt) (hfit : n ≤ INT_MAX)
    (hpos : 0 < n) (htpos : 0 < nt) (hle : nt ≤ n)
    (es : List filtered_string_view) (hret : split m v t = .ok es) :
    delimited (visible_chars m t) (es.map (visible_chars m)) = visible_chars m v := by
  have hwf := h.1
  have hs := size_eq m v hwf
  rw [hsize] at hs
  have hn : (v.visible m).length = n := by
    have := Res.ok.inj hs
    omega
  have hs2 := size_eq m t ht
  rw [hst] at hs2
  have hnt : (t.visible m).length = nt := by
    have := Res.ok.inj hs2
    omega
  have hne : ¬ (n = 0 ∨ nt = 0 ∨ nt > n) := by omega
  simp only [split, hsize, hst, hne, if_false] at hret
  cases hl : split_loop m v t (n + 1) 0 0 [] with
  | error e =>
    rw [hl] at hret
    simp at hret
  | ok r =>
    obtain ⟨b', s'⟩ := r
    rw [hl] at hret
    simp only at hret
    have hl' : split_loop m v t (n + 1) 0 ((0 : Nat) : Int) [] = .ok (b', s') := by
      simpa using hl
    obtain ⟨bN', hb, hbs, hinv⟩ := split_loop_invariant m v t h ht (by omega) (by omega)
      (n + 1) 0 0 [] b' s' (le_refl _) (Nat.zero_le _) (by simp) hl'
    have hti : to_int (n : Int) = (n : Int) := to_int_of_lt n (by unfold INT_MAX at hfit; omega)
    rw [hti, hb] at hret
    have hfin : ∀ el : filtered_string_view,
        visible_chars m el = (visible_chars m v).drop bN' →
        delimited (visible_chars m t) ((s' ++ [el]).map (visible_chars m))
          = visible_chars m v := by
      intro el hel
      rw [List.map_append, List.map_cons, List.map_nil, delimited_concat, List.map_map]
      have : (s'.map ((fun s => s ++ visible_chars m t) ∘ visible_chars m))
          = s'.map fun e => visible_chars m e ++ visible_chars m t := rfl
      rw [this, hinv, hel, List.take_append_drop]
    by_cases hlt : (bN' : Int) < (n : Int)
    · simp only [hlt, if_true] at hret
      obtain ⟨w, hw, _, hwv⟩ := substr_yields_range m v h n hsize hfit (bN' : Int)
        ((n : Int) - (bN' : Int)) (by omega) hlt (by right; omega)
      rw [int_sub_of_range _ _ (by unfold INT_MAX at hfit; omega)
        (by unfold INT_MAX at hfit; omega), hw] at hret
      simp only at hret
      have hes : es = s' ++ [w] := (Res.ok.inj hret).symm
      rw [hes]
      apply hfin
      unfold visible_chars
      rw [hwv]
      have hp : (0 : Int) < (n : Int) - (bN' : Int) := by omega
      simp only [hp, if_true, Int.toNat_ofNat, List.map_take, List.map_drop]
      apply List.take_of_length_le
      simp
      omega
    · simp only [hlt, if_false] at hret
      have hes : es = s' ++ [mk_default] := (Res.ok.inj hret).symm
      rw [hes]
      apply hfin
      rw [visible_chars_default]
      symm
      apply List.drop_eq_nil_of_le
      unfold visible_chars
      simp
      omega

/-! ## Iterator states and walks -/

theorem in_state_before_begin_iff (m : Memory) (this : view_ptr) (it : iter) :
    in_state m this it .before_begin ↔ it = ⟨this.target.ptr_ - 1, this, -1⟩ := by
  obtain ⟨p, f, i⟩ := it
  simp only [in_state, iter.mk.injEq]
  tauto

theorem in_state_valid_iff (m : Memory) (this : view_ptr) (it : iter) (i : Nat) :
    in_state m this it (.valid i)
      ↔ i < (this.target.visible m).length ∧ it = iter_at m this i := by
  obtain ⟨p, f, x⟩ := it
  simp only [in_state]
  constructor
  · rintro ⟨hf, hx, r, hr, hp⟩
    have hi : i < (this.target.visible m).length := by
      by_contra hcon
      rw [List.getElem?_eq_none (by omega)] at hr
      cases hr
    refine ⟨hi, ?_⟩
    rw [iter_at_of_lt m this i hi, hf, hx, hp]
    rw [List.getElem?_eq_getElem hi] at hr
    cases hr
    rfl
  · rintro ⟨hi, he⟩
    rw [iter_at_of_lt m this i hi] at he
    cases he
    exact ⟨rfl, rfl, _, List.getElem?_eq_getElem hi, rfl⟩

theorem in_state_past_end_iff (m : Memory) (this : view_ptr) (it : iter) :
    in_state m this it .past_end ↔ it = iter_at m this (this.target.visible m).length := by
  obtain ⟨p, f, x⟩ := it
  rw [iter_at_of_ge m this _ (le_refl _)]
  simp only [in_state, iter.mk.injEq]
  tauto

theorem in_state_unique (m : Memory) (this : view_ptr) (it : iter) (s s' : iter_state)
    (h : in_state m this it s) (h' : in_state m this it s') : s = s' := by
  cases s with
  | before_begin =>
    cases s' with
    | before_begin => rfl
    | valid j =>
      have h1 := h.2.1
      have h2 := h'.2.1
      omega
    | past_end =>
      have h1 := h.2.1
      have h2 := h'.2.1
      omega
  | valid i =>
    have hi := ((in_state_valid_iff m this it i).mp h).1
    cases s' with
    | before_begin =>
      have h1 := h.2.1
      have h2 := h'.2.1
      omega
    | valid j =>
      have h1 := h.2.1
      have h2 := h'.2.1
      have : i = j := by omega
      rw [this]
    | past_end =>
      have h1 := h.2.1
      have h2 := h'.2.1
      omega
  | past_end =>
    cases s' with
    | before_begin =>
      have h1 := h.2.1
      have h2 := h'.2.1
      omega
    | valid j =>
      have hj := ((in_state_valid_iff m this it j).mp h').1
      have h1 := h.2.1
      have h2 := h'.2.1
      omega
    | past_end => rfl

theorem dec_iter_at_zero (m : Memory) (this : view_ptr)
    (hpos : 0 < (this.target.visible m).length) :
    (iter_at m this 0).operator_dec m = .ok ⟨this.target.ptr_ - 1, this, -1⟩ := by
  have hs : int_sub 0 1 = -1 := by decide
  rw [iter_at_of_lt m this 0 hpos]
  simp [iter.operator_dec, hs]

theorem dec_before_begin (m : Memory) (this : view_ptr) :
    iter.operator_dec m ⟨this.target.ptr_ - 1, this, -1⟩
      = .ok ⟨this.target.ptr_ - 1, this, -1⟩ := by
  have hs : int_sub (-1) 1 = -2 := by decide
  simp [iter.operator_dec, hs]

theorem inc_before_begin (m : Memory) (this : view_ptr) (hwf : this.target.wf m)
    (hpos : 0 < (this.target.visible m).length)
    (hfit : (this.target.visible m).length ≤ INT_MAX) :
    iter.operator_inc m ⟨this.target.ptr_ - 1, this, -1⟩ = .ok (iter_at m this 0) := by
  unfold INT_MAX at hfit
  have hlen := visible_length_le m this.target
  have hb := wf_length_le m this.target hwf (by omega)
  have hcons : (this.target.window m 0 this.target.length_).filter this.target.predicate_.call
      = (this.target.visible m).get ⟨0, hpos⟩ :: (this.target.visible m).drop 1 := by
    show this.target.visible m = _
    rw [List.get_eq_getElem, ← List.drop_eq_getElem_cons hpos]
    rfl
  have hscan := scan_forward_window m this.target this.target.length_ 0 (m.length + 1)
    (by omega) (by intro t ht; exact hwf (0 + t) (by omega)) _ _ hcons
  simp only [Nat.cast_zero, add_zero] at hscan
  have hadd : int_add (-1) 1 = 0 := by decide
  have hlt : ¬ ((0 : Int) ≥ ((this.target.visible m).length : Int)) := by omega
  rw [iter_at_of_lt m this 0 hpos]
  simp only [iter.operator_inc, size_eq m this.target hwf,
    to_int_of_lt _ (show (this.target.visible m).length < 2147483648 by omega), hadd, hlt,
    if_false, hscan]
  simp

theorem inc_iter_at_lt (m : Memory) (this : view_ptr) (hwf : this.target.wf m)
    (hfit : (this.target.visible m).length ≤ INT_MAX) (k : Nat)
    (hk : k < (this.target.visible m).length) :
    (iter_at m this k).operator_inc m = .ok (iter_at m this (k + 1)) := by
  by_cases hk1 : k + 1 < (this.target.visible m).length
  · exact inc_iter_at_inner m this hwf hfit k hk1
  · have e : k + 1 = (this.target.visible m).length := by omega
    rw [e]
    exact inc_iter_at_last m this hwf (by omega) hfit k (by omega) (Or.inl hk)

theorem inc_iter_at (m : Memory) (this : view_ptr) (hwf : this.target.wf m)
    (hpos : 0 < (this.target.visible m).length)
    (hfit : (this.target.visible m).length < INT_MAX) (k : Nat) :
    (iter_at m this k).operator_inc m
      = .ok (iter_at m this (min (k + 1) (this.target.visible m).length)) := by
  by_cases hk : k + 1 < (this.target.visible m).length
  · rw [inc_iter_at_inner m this hwf (by omega) k hk, Nat.min_eq_left (by omega)]
  · rw [inc_iter_at_last m this hwf hpos (by omega) k (by omega) (Or.inr hfit),
      Nat.min_eq_right (by omega)]

theorem walk_inc_iter_at (m : Memory) (this : view_ptr) (hwf : this.target.wf m)
    (hfit : (this.target.visible m).length ≤ INT_MAX) (k : Nat) :
    ∀ j : Nat, j + k ≤ (this.target.visible m).length →
      iter.walk m (List.replicate k .inc) (iter_at m this j) = .ok (iter_at m this (j + k)) := by
  induction k with
  | zero => intro j _; rfl
  | succ k ih =>
    intro j hj
    simp only [List.replicate_succ, iter.walk]
    rw [inc_iter_at_lt m this hwf hfit j (by omega)]
    simp only
    rw [ih (j + 1) (by omega)]
    congr 2
    omega

theorem walk_dec_iter_at (m : Memory) (this : view_ptr) (hwf : this.target.wf m)
    (hfit : (this.target.visible m).length ≤ INT_MAX) (k : Nat) :
    ∀ j : Nat, k ≤ j → j ≤ (this.target.visible m).length →
      iter.walk m (List.replicate k .dec) (iter_at m this j) = .ok (iter_at m this (j - k)) := by
  induction k with
  | zero => intro j _ _; rfl
  | succ k ih =>
    intro j hk hj
    obtain ⟨j', rfl⟩ : ∃ j', j = j' + 1 := ⟨j - 1, by omega⟩
    simp only [List.replicate_succ, iter.walk]
    rw [dec_iter_at m this hwf j' (by omega) hfit]
    simp only
    rw [ih j' (by omega) (by omega)]
    congr 2
    omega

/-- Every increment and every decrement of an iterator that is in one of the
three states returns an iterator that is again in one of them. -/
theorem step_in_state (m : Memory) (this : view_ptr) (hwf : this.target.wf m)
    (hpos : 0 < (this.target.visible m).length)
    (hfit : (this.target.visible m).length < INT_MAX) (it : iter) (s : iter_state)
    (h : in_state m this it s) :
    (∃ it' s', it.operator_inc m = .ok it' ∧ in_state m this it' s') ∧
      ∃ it' s', it.operator_dec m = .ok it' ∧ in_state m this it' s' := by
  have hend : in_state m this (iter_at m this (this.target.visible m).length) .past_end :=
    (in_state_past_end_iff m this _).mpr rfl
  have hbb : in_state m this ⟨this.target.ptr_ - 1, this, -1⟩ .before_begin :=
    (in_state_before_begin_iff m this _).mpr rfl
  have hval : ∀ k, k < (this.target.visible m).length →
      in_state m this (iter_at m this k) (.valid k) :=
    fun k hk => (in_state_valid_iff m this _ k).mpr ⟨hk, rfl⟩
  have hinc : ∀ k, ∃ it' s', (iter_at m this k).operator_inc m = .ok it' ∧
      in_state m this it' s' := by
    intro k
    have hstep := inc_iter_at m this hwf hpos hfit k
    by_cases hk : k + 1 < (this.target.visible m).length
    · rw [Nat.min_eq_left (by omega)] at hstep
      exact ⟨_, _, hstep, hval (k + 1) hk⟩
    · rw [Nat.min_eq_right (by omega)] at hstep
      exact ⟨_, _, hstep, hend⟩
  have hdec : ∀ k, k ≤ (this.target.visible m).length →
      ∃ it' s', (iter_at m this k).operator_dec m = .ok it' ∧ in_state m this it' s' := by
    intro k hk
    cases k with
    | zero => exact ⟨_, _, dec_iter_at_zero m this hpos, hbb⟩
    | succ k =>
      exact ⟨_, _, dec_iter_at m this hwf k (by omega) (by omega), hval k (by omega)⟩
  cases s with
  | before_begin =>
    rw [(in_state_before_begin_iff m this it).mp h]
    exact ⟨⟨_, _, inc_before_begin m this hwf hpos (by omega), hval 0 hpos⟩,
      ⟨_, _, dec_before_begin m this, hbb⟩⟩
  | valid i =>
    obtain ⟨hi, he⟩ := (in_state_valid_iff m this it i).mp h
    rw [he]
    exact ⟨hinc i, hdec i (by omega)⟩
  | past_end =>
    rw [(in_state_past_end_iff m this it).mp h]
    exact ⟨hinc _, hdec _ (le_refl _)⟩

/-- A walk from an iterator that is in one of the three states returns an
iterator that is again in one of them. -/
theorem walk_in_state (m : Memory) (this : view_ptr) (hwf : this.target.wf m)
    (hpos : 0 < (this.target.visible m).length)
    (hfit : (this.target.visible m).length < INT_MAX) (steps : List iter.step) :
    ∀ (it : iter) (s : iter_state), in_state m this it s →
      ∃ it' s', iter.walk m steps it = .ok it' ∧ in_state m this it' s' := by
  induction steps with
  | nil => intro it s h; exact ⟨it, s, rfl, h⟩
  | cons st rest ih =>
    intro it s h
    obtain ⟨⟨i1, s1, hi1, hs1⟩, ⟨i2, s2, hi2, hs2⟩⟩ := step_in_state m this hwf hpos hfit it s h
    cases st with
    | inc =>
      simp only [iter.walk, hi1]
      exact ih i1 s1 hs1
    | dec =>
      simp only [iter.walk, hi2]
      exact ih i2 s2 hs2

/-! ## `substr` on a well formed view -/

theorem to_int_two_pow_31 : to_int ((2147483648 : Nat) : Int) = -2147483648 := by
  rw [to_int_eq]
  split_ifs <;> omega

theorem read_append_mid (pre post : Memory) (x : Option Char) :
    Memory.read (pre ++ x :: post) ((pre.length : Int) + 1) = x := by
  unfold Memory.read
  have h0 : ¬ ((pre.length : Int) + 1 ≤ 0) := by omega
  have e : ((pre.length : Int) + 1).toNat - 1 = pre.length := by omega
  rw [if_neg h0, e, List.getElem?_append_right (le_refl _)]
  simp

theorem holds_run (post : Memory) (n : Nat) :
    ∀ pre : Memory, Memory.holds (pre ++ (run_of_a n ++ post)) ((pre.length : Int) + 1)
      (List.replicate n 'a') = true := by
  induction n with
  | zero =>
    intro pre
    rw [List.replicate_zero, holds_nil]
    exact read_append_mid pre post (some NUL)
  | succ n ih =>
    intro pre
    have e : pre ++ (run_of_a (n + 1) ++ post)
        = (pre ++ [some 'a']) ++ (run_of_a n ++ post) := by
      simp [run_of_a, List.replicate_succ]
    rw [List.replicate_succ, holds_cons]
    constructor
    · have := read_append_mid pre (run_of_a n ++ post) (some 'a')
      rw [e]
      simpa using this
    · have := ih (pre ++ [some 'a'])
      rw [e]
      simpa [add_assoc] using this

/-- The default-predicate view over a stored string of `n` characters `'a'`. -/
theorem run_view (m : Memory) (a : Int) (n : Nat)
    (h : m.holds a (List.replicate n 'a') = true) :
    (of_string a n).wf m ∧
      ((of_string a n).visible m).map char_ref.val = List.replicate n 'a' ∧
      ((of_string a n).visible m).length = n ∧ (of_string a n).size m = .ok n := by
  have hwf := wf_of_holds m a (List.replicate n 'a') default_predicate h
  have hv := visible_val_of_default m a (List.replicate n 'a') h
  rw [List.length_replicate] at hwf hv
  have hwf' : (of_string a n).wf m := hwf
  have hl : ((of_string a n).visible m).length = n := by
    have := congrArg List.length hv
    simpa using this
  exact ⟨hwf', hv, hl, by rw [size_eq m _ hwf', hl]⟩

theorem same_val_at (m : Memory) (a b : filtered_string_view)
    (hsame : (a.visible m).map char_ref.val = (b.visible m).map char_ref.val) (i : Nat)
    (h1 : i < (a.visible m).length) (h2 : i < (b.visible m).length) :
    ((a.visible m).get ⟨i, h1⟩).val = ((b.visible m).get ⟨i, h2⟩).val := by
  have h1m : i < ((a.visible m).map char_ref.val).length := by simpa using h1
  have := List.getElem_of_eq hsame h1m
  simpa using this

theorem same_val_length (m : Memory) (a b : filtered_string_view)
    (hsame : (a.visible m).map char_ref.val = (b.visible m).map char_ref.val) :
    (a.visible m).length = (b.visible m).length := by
  have := congrArg List.length hsame
  simpa using this

/-- The loop of `operator==` on two views with the same visible characters
runs through every index that `int` can hold. -/
theorem operator_eq_loop_run (m : Memory) (a b : filtered_string_view)
    (ha : a.wf m) (hb : b.wf m)
    (hsame : (a.visible m).map char_ref.val = (b.visible m).map char_ref.val) (k : Nat) :
    ∀ i r : Nat, i + k ≤ 2147483648 → i + k ≤ (a.visible m).length →
      operator_eq_loop m a b (k + r) i = operator_eq_loop m a b r (i + k) := by
  have hlen := same_val_length m a b hsame
  induction k with
  | zero => intro i r _ _; simp
  | succ k ih =>
    intro i r h1 h2
    have h1a : i < (a.visible m).length := by omega
    have h1b : i < (b.visible m).length := by omega
    have e : k + 1 + r = (k + r) + 1 := by omega
    rw [e, operator_eq_loop_succ, to_int_of_lt i (by omega), at_of_lt m a ha i h1a,
      at_of_lt m b hb i h1b]
    simp only [same_val_at m a b hsame i h1a h1b, ne_eq, not_true_eq_false, if_false]
    rw [ih (i + 1) r (by omega) (by omega)]
    congr 1
    omega

/-- The operator `==` on two views with the same visible characters, more than
`2 ^ 31` of them: the index `2 ^ 31` becomes `INT_MIN` and `at` throws. -/
theorem operator_eq_of_long (m : Memory) (a b : filtered_string_view)
    (ha : a.wf m) (hb : b.wf m)
    (hsame : (a.visible m).map char_ref.val = (b.visible m).map char_ref.val)
    (hlong : 2147483648 < (a.visible m).length) :
    operator_eq m a b = .error (.domain_error (at_what (-2147483648))) := by
  have hlen := same_val_length m a b hsame
  obtain ⟨r, hr⟩ : ∃ r, (a.visible m).length = 2147483648 + (r + 1) :=
    ⟨(a.visible m).length - 2147483649, by omega⟩
  have hrun := operator_eq_loop_run m a b ha hb hsame 2147483648 0 (r + 1) (by omega)
    (by omega)
  simp only [operator_eq, size_eq m a ha, size_eq m b hb, hlen, ne_eq, not_true_eq_false,
    if_false]
  rw [← hlen, hr, hrun, operator_eq_loop_succ, Nat.zero_add, to_int_two_pow_31,
    at_negative m a _ (by omega)]

/-- The loop of `operator<=>` on two views with the same visible characters
runs through every index that `int` can hold. -/
theorem operator_spaceship_loop_run (m : Memory) (a b : filtered_string_view)
    (ha : a.wf m) (hb : b.wf m)
    (hsame : (a.visible m).map char_ref.val = (b.visible m).map char_ref.val) (k : Nat) :
    ∀ i r : Nat, i + k ≤ 2147483648 → i + k ≤ (a.visible m).length →
      operator_spaceship_loop m a b (k + r) i = operator_spaceship_loop m a b r (i + k) := by
  have hlen := same_val_length m a b hsame
  induction k with
  | zero => intro i r _ _; simp
  | succ k ih =>
    intro i r h1 h2
    have h1a : i < (a.visible m).length := by omega
    have h1b : i < (b.visible m).length := by omega
    have e : k + 1 + r = (k + r) + 1 := by omega
    rw [e]
    simp only [operator_spaceship_loop]
    rw [to_int_of_lt i (by omega), at_of_lt m a ha i h1a, at_of_lt m b hb i h1b]
    simp only [same_val_at m a b hsame i h1a h1b, char_lt_irrefl, if_false]
    rw [ih (i + 1) r (by omega) (by omega)]
    congr 1
    omega

theorem operator_spaceship_of_long (m : Memory) (a b : filtered_string_view)
    (ha : a.wf m) (hb : b.wf m)
    (hsame : (a.visible m).map char_ref.val = (b.visible m).map char_ref.val)
    (hlong : 2147483648 < (a.visible m).length) :
    operator_spaceship m a b = .error (.domain_error (at_what (-2147483648))) := by
  have hlen := same_val_length m a b hsame
  obtain ⟨r, hr⟩ : ∃ r, (a.visible m).length = 2147483648 + (r + 1) :=
    ⟨(a.visible m).length - 2147483649, by omega⟩
  have hrun := operator_spaceship_loop_run m a b ha hb hsame 2147483648 0 (r + 1) (by omega)
    (by omega)
  have hstep : operator_spaceship_loop m a b (r + 1) (0 + 2147483648)
      = .error (.domain_error (at_what (-2147483648))) := by
    simp only [operator_spaceship_loop]
    rw [Nat.zero_add, to_int_two_pow_31, at_negative m a _ (by omega)]
  simp only [operator_spaceship, size_eq m a ha, size_eq m b hb, ← hlen, Nat.min_self]
  rw [hr, hrun, hstep]

/-- The loop of `operator<<` runs through every index that `int` can hold. -/
theorem operator_shl_loop_run (m : Memory) (v : filtered_string_view) (hwf : v.wf m)
    (k : Nat) :
    ∀ (i r : Nat) (os : List Char), i + k ≤ 2147483648 → i + k ≤ (v.visible m).length →
      ∃ os', operator_shl_loop m v (k + r) i os = operator_shl_loop m v r (i + k) os' := by
  induction k with
  | zero => intro i r os _ _; exact ⟨os, by simp⟩
  | succ k ih =>
    intro i r os h1 h2
    have h1a : i < (v.visible m).length := by omega
    have e : k + 1 + r = (k + r) + 1 := by omega
    obtain ⟨os', hos⟩ := ih (i + 1) r (os ++ [((v.visible m).get ⟨i, h1a⟩).val]) (by omega)
      (by omega)
    refine ⟨os', ?_⟩
    rw [e]
    simp only [operator_shl_loop]
    rw [to_int_of_lt i (by omega), at_of_lt m v hwf i h1a]
    simp only
    rw [hos]
    congr 1
    omega

theorem operator_shl_of_long (m : Memory) (v : filtered_string_view) (hwf : v.wf m)
    (hlong : 2147483648 < (v.visible m).length) (os : List Char) :
    operator_shl m os v = .error (.domain_error (at_what (-2147483648))) := by
  obtain ⟨r, hr⟩ : ∃ r, (v.visible m).length = 2147483648 + (r + 1) :=
    ⟨(v.visible m).length - 2147483649, by omega⟩
  obtain ⟨os', hrun⟩ := operator_shl_loop_run m v hwf 2147483648 0 (r + 1) os (by omega)
    (by omega)
  simp only [operator_shl, size_eq m v hwf]
  rw [hr, hrun]
  simp only [operator_shl_loop]
  rw [Nat.zero_add, to_int_two_pow_31, at_negative m v _ (by omega)]

/-- The members `end` and `cend` on a view with `2 ^ 31 + 1` visible characters:
the index `size() - 1` becomes `INT_MIN`, `at` throws, and the program ends. -/
theorem end_of_long (m : Memory) (this : view_ptr) (hwf : this.target.wf m)
    (hlen : (this.target.visible m).length = 2147483649) :
    filtered_string_view.end m this = .error .terminate ∧
      filtered_string_view.cend m this = .error .terminate := by
  have e : to_int (size_t_sub 2147483649 1) = -2147483648 := by
    have e1 : size_t_sub 2147483649 1 = 2147483648 := by
      unfold size_t_sub to_size_t
      omega
    rw [e1]
    exact to_int_two_pow_31
  constructor
  · simp only [«end», size_eq m this.target hwf, hlen, e,
      at_negative m this.target (-2147483648) (by omega)]
    rfl
  · simp only [cend, size_eq m this.target hwf, hlen, e,
      at_negative m this.target (-2147483648) (by omega)]
    rfl

/-- The inner loop of `split` at position `0`, on a source and a token with the
same visible characters, runs through every index that `int` can hold. -/
theorem split_match_loop_run (m : Memory) (v t : filtered_string_view)
    (hv : v.wf m) (ht : t.wf m)
    (hsame : (v.visible m).map char_ref.val = (t.visible m).map char_ref.val) (k : Nat) :
    ∀ i r : Nat, i + k ≤ 2147483648 → i + k ≤ (v.visible m).length →
      split_match_loop m v t 0 (k + r) i = split_match_loop m v t 0 r (i + k) := by
  have hlen := same_val_length m v t hsame
  induction k with
  | zero => intro i r _ _; simp
  | succ k ih =>
    intro i r h1 h2
    have h1a : i < (v.visible m).length := by omega
    have h1b : i < (t.visible m).length := by omega
    have e : k + 1 + r = (k + r) + 1 := by omega
    rw [e]
    simp only [split_match_loop, Nat.zero_add]
    rw [to_int_of_lt i (by omega), at_of_lt m v hv i h1a, at_of_lt m t ht i h1b]
    simp only [same_val_at m v t hsame i h1a h1b, ne_eq, not_true_eq_false, if_false]
    rw [ih (i + 1) r (by omega) (by omega)]
    congr 1
    omega

/-- The function `split` on a source and a token with the same visible
characters, more than `2 ^ 31` of them: the inner loop reaches the index
`2 ^ 31`, which becomes `INT_MIN`, and `at` throws. -/
theorem split_of_long (m : Memory) (v t : filtered_string_view)
    (hv : v.wf m) (ht : t.wf m)
    (hsame : (v.visible m).map char_ref.val = (t.visible m).map char_ref.val)
    (hlong : 2147483648 < (v.visible m).length) :
    split m v t = .error (.domain_error (at_what (-2147483648))) := by
  have hlen := same_val_length m v t hsame
  obtain ⟨r, hr⟩ : ∃ r, (v.visible m).length = 2147483648 + (r + 1) :=
    ⟨(v.visible m).length - 2147483649, by omega⟩
  have h0v : 0 < (v.visible m).length := by omega
  have h0t : 0 < (t.visible m).length := by omega
  have hat0v := at_of_lt m v hv 0 h0v
  have hat0t := at_of_lt m t ht 0 h0t
  simp only [Nat.cast_zero] at hat0v hat0t
  have hmatch : split_match_loop m v t 0 ((t.visible m).length - 1) 1
      = .error (.domain_error (at_what (-2147483648))) := by
    have e : (t.visible m).length - 1 = 2147483647 + (r + 1) := by omega
    rw [e, split_match_loop_run m v t hv ht hsame 2147483647 1 (r + 1) (by omega) (by omega)]
    simp only [split_match_loop]
    have e2 : (((0 + (1 + 2147483647) : Nat)) : Int) = ((2147483648 : Nat) : Int) := by
      norm_num
    rw [e2, to_int_two_pow_31, at_negative m v _ (by omega)]
  have hne : ¬ ((v.visible m).length = 0 ∨ (t.visible m).length = 0 ∨
      (t.visible m).length > (v.visible m).length) := by omega
  simp only [split, size_eq m v hv, size_eq m t ht, hne, if_false, split_loop, h0v, if_true,
    Nat.cast_zero, to_int_zero, hat0v, hat0t, same_val_at m v t hsame 0 h0v h0t, hmatch]

/-- The function `substr` with the default arguments on a view with
`2 ^ 31 + 1` visible characters: the index `pos + rcount - 1` is
`static_cast<int>(size()) - 1`, which is `INT_MIN`, and `at` throws. -/
theorem substr_of_long (m : Memory) (v : filtered_string_view) (hwf : v.wf m)
    (hlen : (v.visible m).length = 2147483649) :
    substr m v 0 0 = .error (.domain_error (at_what (-2147483648))) := by
  have h0 : 0 < (v.visible m).length := by omega
  have hat0 := at_of_lt m v hwf 0 h0
  simp only [Nat.cast_zero] at hat0
  have hidx : int_sub (int_add 0 (int_sub (to_int ((2147483649 : Nat) : Int)) 0)) 1
      = -2147483648 := by
    rw [int_sub_int_add]
    unfold int_sub
    rw [to_int_eq, to_int_eq (to_int _ - 0), to_int_eq]
    split_ifs <;> omega
  have hs : v.size m = .ok 2147483649 := by rw [size_eq m v hwf, hlen]
  rw [substr_eq m v 2147483649 hs 0 0, hat0]
  simp only [le_refl, if_true, hidx, at_negative m v (-2147483648) (by omega)]

/-! ## The sample views that are too long for `int` -/

theorem run_of_a_length (n : Nat) : (run_of_a n).length = n + 1 := by
  simp [run_of_a]

theorem holds_first_run (n : Nat) (post : Memory) :
    Memory.holds (run_of_a n ++ post) 1 (List.replicate n 'a') = true := by
  have h := holds_run post n []
  simpa using h

theorem holds_second_run (n : Nat) :
    Memory.holds (run_of_a n ++ run_of_a n) ((n : Int) + 2) (List.replicate n 'a') = true := by
  have h := holds_run [] n (run_of_a n)
  rw [List.append_nil, run_of_a_length] at h
  have e : ((n + 1 : Nat) : Int) + 1 = (n : Int) + 2 := by push_cast; ring
  rwa [e] at h

theorem long_view_spec :
    long_view.wf long_storage ∧
      (long_view.visible long_storage).map char_ref.val = List.replicate 2147483649 'a' ∧
      (long_view.visible long_storage).length = 2147483649 ∧
      long_view.size long_storage = .ok 2147483649 :=
  run_view long_storage 1 2147483649 (holds_first_run 2147483649 (run_of_a 2147483649))

theorem long_copy_stored :
    Memory.holds long_storage 2147483651 (List.replicate 2147483649 'a') = true := by
  have h := holds_second_run 2147483649
  have e : ((2147483649 : Nat) : Int) + 2 = 2147483651 := by norm_num
  rw [e] at h
  exact h

theorem long_copy_spec :
    long_copy.wf long_storage ∧
      (long_copy.visible long_storage).map char_ref.val = List.replicate 2147483649 'a' ∧
      (long_copy.visible long_storage).length = 2147483649 ∧
      long_copy.size long_storage = .ok 2147483649 :=
  run_view long_storage 2147483651 2147483649 long_copy_stored

theorem int_max_view_spec :
    int_max_view.target.wf int_max_storage ∧
      (int_max_view.target.visible int_max_storage).map char_ref.val
        = List.replicate 2147483647 'a' ∧
      (int_max_view.target.visible int_max_storage).length = 2147483647 ∧
      int_max_view.target.size int_max_storage = .ok 2147483647 := by
  have h := holds_first_run 2147483647 []
  rw [List.append_nil] at h
  exact run_view int_max_storage 1 2147483647 h

theorem size_default (m : Memory) : mk_default.size m = .ok 0 := by
  simp [size, mk_default]

theorem split_early_return (m : Memory) (v t : filtered_string_view) (nv nt : Nat)
    (hsv : v.size m = .ok nv) (hst : t.size m = .ok nt) (hcase : nv = 0 ∨ nt = 0 ∨ nt > nv) :
    split m v t = .ok [v.copy] := by
  simp only [split, hsv, hst, hcase, if_true]

theorem holds_terminator (m : Memory) (s : List Char) :
    ∀ a : Int, m.holds a s = true → m.read (a + (s.length : Int)) = some NUL := by
  induction s with
  | nil =>
    intro a h
    simpa using (holds_nil m a).mp h
  | cons c s ih =>
    intro a h
    obtain ⟨_, hs⟩ := (holds_cons m a c s).mp h
    have := ih (a + 1) hs
    have e : a + ((c :: s).length : Int) = a + 1 + (s.length : Int) := by
      simp only [List.length_cons]
      push_cast
      ring
    rwa [e]

/-- The `i`-th visible character of a default-predicate view sits at offset `i`. -/
theorem run_view_get_addr (m : Memory) (a : Int) (n : Nat) (hwf : (of_string a n).wf m)
    (i : Nat) (hi : i < ((of_string a n).visible m).length) :
    (((of_string a n).visible m).get ⟨i, hi⟩).addr = a + (i : Int) := by
  have hvb : (of_string a n).visible m = (of_string a n).buffer m := by
    unfold visible
    apply List.filter_eq_self.mpr
    intro r _
    rfl
  obtain ⟨hlen, hget⟩ := buffer_spec m (of_string a n) hwf
  have hi' : i < (of_string a n).length_ := by
    rw [hvb, hlen] at hi
    exact hi
  have hg := hget i hi'
  obtain ⟨c, hc⟩ := Option.isSome_iff_exists.mp (hwf i hi')
  rw [hc] at hg
  have hsome : ((of_string a n).visible m)[i]? = some ⟨a + (i : Int), c⟩ := by
    rw [hvb]
    exact hg
  rw [List.getElem?_eq_getElem hi] at hsome
  have := Option.some.inj hsome
  simp only [List.get_eq_getElem, this]

theorem run_view_get_val (m : Memory) (a : Int) (n : Nat)
    (hv : ((of_string a n).visible m).map char_ref.val = List.replicate n 'a')
    (i : Nat) (hi : i < ((of_string a n).visible m).length) :
    (((of_string a n).visible m).get ⟨i, hi⟩).val = 'a' := by
  have hm : i < (((of_string a n).visible m).map char_ref.val).length := by simpa using hi
  have h1 := List.getElem_of_eq hv hm
  rw [List.getElem_map, List.getElem_replicate] at h1
  simpa using h1

/-- The increment of `begin()` on a view with `2 ^ 31` visible characters:
`size()` converted to `int` is `INT_MIN`, so `index_ >= sz` holds and the
iterator is placed one past `at(sz - 1)`, which is `at(INT_MAX)`. -/
theorem inc_begin_of_two_pow_31 (m : Memory) (this : view_ptr) (hwf : this.target.wf m)
    (hlen : (this.target.visible m).length = 2147483648) :
    ∃ b i r, filtered_string_view.begin m this = .ok b ∧ b.operator_inc m = .ok i ∧
      this.target.at m 2147483647 = .ok r ∧ i.iterator_ptr_ = r.addr + 1 ∧
      i.index_ = -2147483648 := by
  have hpos : 0 < (this.target.visible m).length := by omega
  have hlt : 2147483647 < (this.target.visible m).length := by omega
  have hat := at_of_lt m this.target hwf 2147483647 hlt
  have e : ((2147483647 : Nat) : Int) = 2147483647 := by norm_num
  rw [e] at hat
  have hadd : int_add 0 1 = 1 := by decide
  have hsub : int_sub (-2147483648) 1 = 2147483647 := by
    unfold int_sub
    rw [to_int_eq]
    split_ifs <;> omega
  have hge : (1 : Int) ≥ -2147483648 := by omega
  refine ⟨iter_at m this 0,
    ⟨((this.target.visible m).get ⟨2147483647, hlt⟩).addr + 1, this, -2147483648⟩, _,
    begin_eq_iter_at m this hwf hpos, ?_, hat, rfl, rfl⟩
  rw [iter_at_of_lt m this 0 hpos]
  simp only [iter.operator_inc, size_eq m this.target hwf, hlen, to_int_two_pow_31,
    Nat.cast_zero, hadd, hge, if_true, hsub, hat]

theorem two_pow_31_stored :
    Memory.holds two_pow_31_storage 1 (List.replicate 2147483648 'a') = true := by
  have h := holds_first_run 2147483648 []
  rw [List.append_nil] at h
  exact h

theorem two_pow_31_view_spec :
    two_pow_31_view.target.wf two_pow_31_storage ∧
      (two_pow_31_view.target.visible two_pow_31_storage).map char_ref.val
        = List.replicate 2147483648 'a' ∧
      (two_pow_31_view.target.visible two_pow_31_storage).length = 2147483648 ∧
      two_pow_31_view.target.size two_pow_31_storage = .ok 2147483648 :=
  run_view two_pow_31_storage 1 2147483648 two_pow_31_stored

theorem read_past_storage (m : Memory) (p : Int) (h : (m.length : Int) < p) :
    m.read p = none := by
  unfold Memory.read
  have h0 : ¬ (p ≤ 0) := by omega
  have hle : m.length ≤ p.toNat - 1 := by omega
  rw [if_neg h0, List.getElem?_eq_none hle]
  rfl

theorem scan_forward_past_storage (m : Memory) (v : filtered_string_view) (fuel : Nat) (p : Int)
    (h : (m.length : Int) < p + 1) :
    iter.scan_forward m v (fuel + 1) p = .error .undefined := by
  simp [iter.scan_forward, deref, read_past_storage m (p + 1) h]

theorem inc_end_of_int_max_run (a n : Nat) (hn : n = 2147483647) :
    (iter_at (run_of_a n) ⟨a, of_string 1 n⟩ n).operator_inc (run_of_a n)
      = .error .undefined := by
  have hh := holds_first_run n []
  rw [List.append_nil] at hh
  obtain ⟨hw, _, hl, hs⟩ := run_view (run_of_a n) 1 n hh
  have hlt : n - 1 < ((of_string 1 n).visible (run_of_a n)).length := by omega
  have hend : (of_string 1 n).end_position (run_of_a n) = (n : Int) + 1 := by
    rw [end_position_eq (run_of_a n) (of_string 1 n) (n - 1) hlt (by omega),
      run_view_get_addr (run_of_a n) 1 n hw (n - 1) hlt]
    omega
  have hadd : int_add ((n : Nat) : Int) 1 = -2147483648 := by
    unfold int_add
    rw [to_int_eq]
    split_ifs <;> omega
  have hsz : to_int ((n : Nat) : Int) = 2147483647 := by
    rw [to_int_eq]
    split_ifs <;> omega
  have hge : ¬ ((-2147483648 : Int) ≥ 2147483647) := by omega
  rw [iter_at_of_ge (run_of_a n) ⟨a, of_string 1 n⟩ n (le_of_eq hl)]
  simp only [iter.operator_inc, hs, hl, hadd, hsz, hge, if_false, hend]
  rw [scan_forward_past_storage]
  rw [run_of_a_length]
  omega

end filtered_string_view
end fsv

/-! ## The view core: `at`, `size` -/

namespace fsv
namespace filtered_string_view

/-- C1: for a well formed view of size `n` and an index `i` with `0 ≤ i < n`,
`at(i)` succeeds and returns the `i`-th (0-based) element of the buffer
characters, taken in buffer order, for which the predicate of the view holds. -/
theorem at_returns_ith_kept (m : Memory) (v : filtered_string_view) (hwf : v.wf m)
    (n : Nat) (hsize : v.size m = .ok n) (i : Int) (h0 : 0 ≤ i) (hi : i < (n : Int)) :
    ∃ r, v.at m i = .ok r ∧ ((v.buffer m).filter v.predicate_.call)[i.toNat]? = some r := by
  rw [size_eq m v hwf] at hsize
  have hn : (v.visible m).length = n := by simpa using hsize
  have hlt : i.toNat < (v.visible m).length := by omega
  refine ⟨(v.visible m).get ⟨i.toNat, hlt⟩, ?_, ?_⟩
  · have := at_of_lt m v hwf i.toNat hlt
    rwa [Int.toNat_of_nonneg h0] at this
  · exact List.getElem?_eq_getElem hlt

/-- Witness of C1 on the view of `"Malamute"` filtered by `is_vowel`. -/
theorem at_returns_ith_kept_witness :
    malamute_vowels.wf malamute ∧ malamute_vowels.size malamute = .ok 4 ∧
      ∃ r, malamute_vowels.at malamute 2 = .ok r ∧
        ((malamute_vowels.buffer malamute).filter malamute_vowels.predicate_.call)[(2 : Int).toNat]?
          = some r :=
  ⟨by decide, by decide,
    at_returns_ith_kept malamute malamute_vowels (by decide) 4 (by decide) 2 (by decide)
      (by decide)⟩

/-- C2: for a well formed view of size `n` and every integer `i`, `at(i)` throws
the index-range error exactly when `i < 0` or `i ≥ n`; the text of the error is
`filtered_string_view::at(<i>): invalid index` with `<i>` in decimal, `at`
fails in no other way, and a view of size `0` throws for every `i`. -/
theorem at_throws_iff_out_of_range (m : Memory) (v : filtered_string_view) (hwf : v.wf m)
    (n : Nat) (hsize : v.size m = .ok n) (i : Int) :
    (v.at m i
        = .error (.domain_error ("filtered_string_view::at(" ++ toString i ++ "): invalid index"))
      ↔ (i < 0 ∨ (n : Int) ≤ i)) ∧
    (∀ e, v.at m i = .error e →
      e = .domain_error ("filtered_string_view::at(" ++ toString i ++ "): invalid index")) ∧
    (n = 0 → v.at m i
        = .error (.domain_error ("filtered_string_view::at(" ++ toString i ++ "): invalid index")))
    := by
  rw [size_eq m v hwf] at hsize
  have hn : (v.visible m).length = n := by simpa using hsize
  have hout : (i < 0 ∨ (n : Int) ≤ i) → v.at m i = .error (.domain_error (at_what i)) := by
    intro h
    exact at_of_not_lt m v hwf i (by rw [hn]; exact h)
  have hin : ¬ (i < 0 ∨ (n : Int) ≤ i) → ∃ r, v.at m i = .ok r := by
    intro h
    have hlt : i.toNat < (v.visible m).length := by omega
    have := at_of_lt m v hwf i.toNat hlt
    rw [Int.toNat_of_nonneg (by omega)] at this
    exact ⟨_, this⟩
  refine ⟨⟨?_, hout⟩, ?_, ?_⟩
  · intro herr
    by_contra h
    obtain ⟨r, hr⟩ := hin h
    rw [hr] at herr
    cases herr
  · intro e he
    by_cases h : i < 0 ∨ (n : Int) ≤ i
    · rw [hout h] at he
      cases he
      rfl
    · obtain ⟨r, hr⟩ := hin h
      rw [hr] at he
      cases he
  · intro h0
    exact hout (by omega)

/-- Witness of C2: index `4` on the four vowels of `"Malamute"`. -/
theorem at_throws_iff_out_of_range_witness :
    malamute_vowels.wf malamute ∧ malamute_vowels.size malamute = .ok 4 ∧
      malamute_vowels.at malamute 4
        = .error (.domain_error "filtered_string_view::at(4): invalid index") :=
  ⟨by decide, by decide,
    ((at_throws_iff_out_of_range malamute malamute_vowels (by decide) 4 (by decide) 4).1).mpr
      (by decide)⟩

/-- C3: for a string `s` stored at address `a`, the view built from `s` and a
predicate has as size the number of characters of `s` that satisfy the
predicate: for a predicate `q` of the character value it is `s.countP q`, for a
predicate that also looks at the address it is the number of positions of `s`
it accepts, and the same holds for the constructor from a C string. The default
view has size `0`. -/
theorem size_counts_kept (m : Memory) (a : Int) (s : List Char) (h : m.holds a s = true) :
    (∀ q : Char → Bool,
      (of_string_pred a s.length (fun _ c => q c)).size m = .ok (s.countP q)) ∧
    (∀ p : filter,
      (of_string_pred a s.length p).size m
        = .ok (s.enum.filter fun ic => p (a + (ic.1 : Int)) ic.2).length) ∧
    (NUL ∉ s → ∀ q : Char → Bool,
      ∃ v, of_cstr_pred m a (fun _ c => q c) = .ok v ∧ v.size m = .ok (s.countP q)) ∧
    mk_default.size m = .ok 0 := by
  have hgen : ∀ p : filter, (of_string_pred a s.length p).size m
      = .ok (s.enum.filter fun ic => p (a + (ic.1 : Int)) ic.2).length := by
    intro p
    rw [size_eq m _ (wf_of_holds m a s p h), visible_of_string m a s p h]
    simp
  have hval : ∀ q : Char → Bool,
      (of_string_pred a s.length (fun _ c => q c)).size m = .ok (s.countP q) := by
    intro q
    rw [hgen, List.countP_eq_length_filter, ← enumFrom_filter_snd q s 0, List.length_map]
    rfl
  refine ⟨hval, hgen, ?_, by simp [mk_default, size]⟩
  intro hn q
  refine ⟨of_string_pred a s.length (fun _ c => q c), ?_, hval q⟩
  simp [of_cstr_pred, strlen_holds m a s h hn, of_string_pred]

/-- Witness of C3: the string `"Malamute"` has one `'u'`. -/
theorem size_counts_kept_witness :
    malamute.holds 1 "Malamute".toList = true ∧
      (of_string_pred 1 "Malamute".toList.length (fun _ c => c == 'u')).size malamute
        = .ok ("Malamute".toList.countP (fun c => c == 'u')) :=
  ⟨by decide, (size_counts_kept malamute 1 "Malamute".toList (by decide)).1 (fun c => c == 'u')⟩

/-! ## Conversion to a string and equality -/

/-- C4: the conversion of a well formed view to an owning string yields exactly
the buffer characters for which the predicate holds, in buffer order; a view
of size `0` yields the empty string, and so does the default view with its
null buffer. -/
theorem operator_string_yields_kept (m : Memory) (v : filtered_string_view) (hwf : v.wf m) :
    v.operator_string m = .ok (((v.buffer m).filter v.predicate_.call).map char_ref.val) ∧
    (v.size m = .ok 0 → v.operator_string m = .ok []) ∧
    mk_default.operator_string m = .ok [] := by
  refine ⟨operator_string_eq m v hwf, ?_, by simp [mk_default, operator_string, size]⟩
  intro h0
  simp [operator_string, h0]

/-- Witness of C4: the vowels of `"Malamute"` are `"aaue"`. -/
theorem operator_string_yields_kept_witness :
    malamute_vowels.wf malamute ∧
      malamute_vowels.operator_string malamute = .ok ['a', 'a', 'u', 'e'] :=
  ⟨by decide,
    (operator_string_yields_kept malamute malamute_vowels (by decide)).1.trans (by decide)⟩

/-- C5, amended: when a well formed view `v` is converted to an owning string
`s` of at most `2 ^ 31` characters (so that every index below the size is an
`int`) and `s` is stored at address `a`, the default-predicate view built from
`s` compares equal to `v`, in both directions of `operator==`. -/
theorem string_round_trip_equal (m : Memory) (v : filtered_string_view) (hwf : v.wf m)
    (s : List Char) (hs : v.operator_string m = .ok s)
    (a : Int) (hstored : m.holds a s = true) (hfit : s.length ≤ INT_MAX + 1) :
    operator_eq m (of_string a s.length) v = .ok true ∧
      operator_eq m v (of_string a s.length) = .ok true := by
  rw [operator_string_eq m v hwf] at hs
  have hv : (v.visible m).map char_ref.val = s := by simpa using hs
  have hw : ((of_string a s.length).visible m).map char_ref.val = s :=
    visible_val_of_default m a s hstored
  have hwf2 : (of_string a s.length).wf m := wf_of_holds m a s _ hstored
  have hl1 : (v.visible m).length = s.length := by rw [← hv]; simp
  have hl2 : ((of_string a s.length).visible m).length = s.length := by
    have := congrArg List.length hw
    simpa using this
  unfold INT_MAX at hfit
  constructor
  · rw [operator_eq_eq m _ v hwf2 hwf (by omega), hw, hv]
    simp
  · rw [operator_eq_eq m v _ hwf hwf2 (by omega), hw, hv]
    simp

/-- Witness of C5: the vowels of `"Malamute"` and the stored string `"aaue"`. -/
theorem string_round_trip_equal_witness :
    malamute_vowels.wf malamute_aaue ∧
      malamute_vowels.operator_string malamute_aaue = .ok "aaue".toList ∧
      malamute_aaue.holds 10 "aaue".toList = true ∧ "aaue".toList.length ≤ INT_MAX + 1 ∧
      operator_eq malamute_aaue (of_string 10 "aaue".toList.length) malamute_vowels = .ok true ∧
      operator_eq malamute_aaue malamute_vowels (of_string 10 "aaue".toList.length) = .ok true :=
  ⟨by decide, by decide, by decide, by decide,
    string_round_trip_equal malamute_aaue malamute_vowels (by decide) "aaue".toList (by decide)
      10 (by decide) (by decide)⟩

/-- C5, counterexample: the view over a string of `2 ^ 31 + 1` characters `'a'`
converts to a string of the same characters; for the default-predicate view
over a stored copy of that string (`long_copy`), `operator==` returns no truth
value in either direction: it reaches the index `2 ^ 31`, which is `INT_MIN` as
an `int`, and `at` throws. -/
theorem string_round_trip_throws_on_long_view :
    long_view.wf long_storage ∧
    long_view.operator_string long_storage = .ok (List.replicate 2147483649 'a') ∧
    long_storage.holds 2147483651 (List.replicate 2147483649 'a') = true ∧
    long_copy = of_string 2147483651 2147483649 ∧
    operator_eq long_storage long_copy long_view
      = .error (.domain_error (at_what (-2147483648))) ∧
    operator_eq long_storage long_view long_copy
      = .error (.domain_error (at_what (-2147483648))) := by
  obtain ⟨hw1, hv1, hl1, _⟩ := long_view_spec
  obtain ⟨hw2, hv2, hl2, _⟩ := long_copy_spec
  refine ⟨hw1, by rw [operator_string_eq _ _ hw1, hv1], long_copy_stored, rfl, ?_, ?_⟩
  · exact operator_eq_of_long _ _ _ hw2 hw1 (hv2.trans hv1.symm) (by omega)
  · exact operator_eq_of_long _ _ _ hw1 hw2 (hv1.trans hv2.symm) (by omega)

/-- C6, amended: for well formed views `a` and `b` of sizes `na` and `nb` that
differ or are at most `2 ^ 31` (so that every index below the size is an
`int`), `a == b` returns a truth value, and it is `true` exactly when `na = nb`
and `a.at(i) == b.at(i)` for every `i < na`, that is exactly when the two
visible character sequences are the same list. Buffers and predicates enter
only through those sequences. -/
theorem operator_eq_iff_same_visible (m : Memory) (a b : filtered_string_view)
    (ha : a.wf m) (hb : b.wf m) (na nb : Nat)
    (hsa : a.size m = .ok na) (hsb : b.size m = .ok nb)
    (hfit : na = nb → na ≤ INT_MAX + 1) :
    ∃ res, operator_eq m a b = .ok res ∧
      (res = true ↔
        (na = nb ∧ ∀ i : Nat, i < na →
          ∃ x y, a.at m (i : Int) = .ok x ∧ b.at m (i : Int) = .ok y ∧ x.val = y.val)) ∧
      (res = true ↔
        ((a.buffer m).filter a.predicate_.call).map char_ref.val
          = ((b.buffer m).filter b.predicate_.call).map char_ref.val) := by
  have hsa' := hsa
  have hsb' := hsb
  rw [size_eq m a ha] at hsa
  rw [size_eq m b hb] at hsb
  have hna : (a.visible m).length = na := by simpa using hsa
  have hnb : (b.visible m).length = nb := by simpa using hsb
  unfold INT_MAX at hfit
  by_cases hlen : na = nb
  · have hfit' := hfit hlen
    refine ⟨_, operator_eq_eq m a b ha hb (by omega), ?_, by simp [visible]⟩
    rw [decide_eq_true_iff]
    constructor
    · intro he
      refine ⟨hlen, fun i hi => ?_⟩
      have h1 : i < (a.visible m).length := by omega
      have h2 : i < (b.visible m).length := by omega
      refine ⟨_, _, at_of_lt m a ha i h1, at_of_lt m b hb i h2, ?_⟩
      have h1m : i < ((a.visible m).map char_ref.val).length := by simpa using h1
      have := List.getElem_of_eq he h1m
      simpa using this
    · rintro ⟨_, hall⟩
      apply List.ext_getElem
      · simp only [List.length_map]; omega
      · intro i h1 h2
        simp only [List.length_map] at h1 h2
        obtain ⟨x, y, hx, hy, hxy⟩ := hall i (by omega)
        rw [at_of_lt m a ha i h1] at hx
        rw [at_of_lt m b hb i h2] at hy
        cases hx
        cases hy
        simpa using hxy
  · refine ⟨false, by simp [operator_eq, hsa', hsb', hlen], ?_, ?_⟩
    · constructor
      · intro hf
        cases hf
      · rintro ⟨he, _⟩
        exact absurd he hlen
    · constructor
      · intro hf
        cases hf
      · intro he
        have := congrArg List.length he
        simp only [List.length_map] at this
        have hv : (a.visible m).length = (b.visible m).length := this
        omega

/-- Witness of C6: the vowels of `"Malamute"` against the plain string `"aaue"`. -/
theorem operator_eq_iff_same_visible_witness :
    malamute_vowels.wf malamute_aaue ∧ (of_string 10 4).wf malamute_aaue ∧
      malamute_vowels.size malamute_aaue = .ok 4 ∧ (of_string 10 4).size malamute_aaue = .ok 4 ∧
      ((4 : Nat) = 4 → 4 ≤ INT_MAX + 1) ∧
      ∃ res, operator_eq malamute_aaue malamute_vowels (of_string 10 4) = .ok res ∧
        (res = true ↔
          ((4 : Nat) = 4 ∧ ∀ i : Nat, i < 4 →
            ∃ x y, malamute_vowels.at malamute_aaue (i : Int) = .ok x ∧
              (of_string 10 4).at malamute_aaue (i : Int) = .ok y ∧ x.val = y.val)) ∧
        (res = true ↔
          ((malamute_vowels.buffer malamute_aaue).filter malamute_vowels.predicate_.call).map
              char_ref.val
            = (((of_string 10 4).buffer malamute_aaue).filter
                (of_string 10 4).predicate_.call).map char_ref.val) :=
  ⟨by decide, by decide, by decide, by decide, by decide,
    operator_eq_iff_same_visible malamute_aaue malamute_vowels (of_string 10 4) (by decide)
      (by decide) 4 4 (by decide) (by decide) (by decide)⟩

/-- C6, counterexample: the two views `long_view` and `long_copy` have the same
size `2 ^ 31 + 1` and the same visible sequence, yet `long_view == long_copy`
returns no truth value: the loop reaches the index `2 ^ 31`, which is `INT_MIN`
as an `int`, and `at` throws. -/
theorem operator_eq_throws_on_long_views :
    long_view.wf long_storage ∧ long_copy.wf long_storage ∧
    long_view.size long_storage = .ok 2147483649 ∧
    long_copy.size long_storage = .ok 2147483649 ∧
    ((long_view.buffer long_storage).filter long_view.predicate_.call).map char_ref.val
      = ((long_copy.buffer long_storage).filter long_copy.predicate_.call).map char_ref.val ∧
    operator_eq long_storage long_view long_copy
      = .error (.domain_error (at_what (-2147483648))) ∧
    ∀ res, operator_eq long_storage long_view long_copy ≠ .ok res := by
  obtain ⟨hw1, hv1, hl1, hs1⟩ := long_view_spec
  obtain ⟨hw2, hv2, hl2, hs2⟩ := long_copy_spec
  have herr := operator_eq_of_long _ _ _ hw1 hw2 (hv1.trans hv2.symm) (by omega)
  refine ⟨hw1, hw2, hs1, hs2, hv1.trans hv2.symm, herr, ?_⟩
  intro res hres
  rw [herr] at hres
  cases hres

/-! ## Three-way comparison -/

/-- C7, amended: for well formed views `a` and `b` of which the smaller has at
most `2 ^ 31` visible characters (so that every index the loop uses is an
`int`), `a <=> b` returns the lexicographic comparison of the two visible
character sequences under the order of `char`: `less` exactly when `a` has the
smaller character at the first position where the sequences differ or is a
proper prefix of `b`, `greater` in the mirrored cases, and `equivalent` in all
other cases. -/
theorem operator_spaceship_lexicographic (m : Memory) (a b : filtered_string_view)
    (ha : a.wf m) (hb : b.wf m) (na nb : Nat)
    (hsa : a.size m = .ok na) (hsb : b.size m = .ok nb) (hfit : min na nb ≤ INT_MAX + 1) :
    ∃ o, operator_spaceship m a b = .ok o ∧
      (o = .less ↔
        sorts_before (((a.buffer m).filter a.predicate_.call).map char_ref.val)
          (((b.buffer m).filter b.predicate_.call).map char_ref.val)) ∧
      (o = .greater ↔
        sorts_before (((b.buffer m).filter b.predicate_.call).map char_ref.val)
          (((a.buffer m).filter a.predicate_.call).map char_ref.val)) ∧
      (o = .equivalent ↔
        ¬ sorts_before (((a.buffer m).filter a.predicate_.call).map char_ref.val)
            (((b.buffer m).filter b.predicate_.call).map char_ref.val) ∧
        ¬ sorts_before (((b.buffer m).filter b.predicate_.call).map char_ref.val)
            (((a.buffer m).filter a.predicate_.call).map char_ref.val)) := by
  rw [size_eq m a ha] at hsa
  rw [size_eq m b hb] at hsb
  have hna : (a.visible m).length = na := by simpa using hsa
  have hnb : (b.visible m).length = nb := by simpa using hsb
  unfold INT_MAX at hfit
  have hl := lex_compare_less_iff ((a.visible m).map char_ref.val)
    ((b.visible m).map char_ref.val)
  have hg := lex_compare_greater_iff ((a.visible m).map char_ref.val)
    ((b.visible m).map char_ref.val)
  refine ⟨_, operator_spaceship_eq m a b ha hb (by omega), hl, hg, ?_⟩
  show _ ↔ ¬ sorts_before ((a.visible m).map char_ref.val) ((b.visible m).map char_ref.val) ∧
    ¬ sorts_before ((b.visible m).map char_ref.val) ((a.visible m).map char_ref.val)
  rw [← hl, ← hg]
  cases lex_compare ((a.visible m).map char_ref.val) ((b.visible m).map char_ref.val) <;> simp

/-- Witness of C7: the whole string `"Malamute"` against its vowels `"aaue"`. -/
theorem operator_spaceship_lexicographic_witness :
    (of_string 1 8).wf malamute ∧ malamute_vowels.wf malamute ∧
      (of_string 1 8).size malamute = .ok 8 ∧ malamute_vowels.size malamute = .ok 4 ∧
      min 8 4 ≤ INT_MAX + 1 ∧
      ∃ o, operator_spaceship malamute (of_string 1 8) malamute_vowels = .ok o ∧
        (o = .less ↔
          sorts_before
            ((((of_string 1 8).buffer malamute).filter (of_string 1 8).predicate_.call).map
              char_ref.val)
            (((malamute_vowels.buffer malamute).filter malamute_vowels.predicate_.call).map
              char_ref.val)) ∧
        (o = .greater ↔
          sorts_before
            (((malamute_vowels.buffer malamute).filter malamute_vowels.predicate_.call).map
              char_ref.val)
            ((((of_string 1 8).buffer malamute).filter (of_string 1 8).predicate_.call).map
              char_ref.val)) ∧
        (o = .equivalent ↔
          ¬ sorts_before
              ((((of_string 1 8).buffer malamute).filter (of_string 1 8).predicate_.call).map
                char_ref.val)
              (((malamute_vowels.buffer malamute).filter malamute_vowels.predicate_.call).map
                char_ref.val) ∧
          ¬ sorts_before
              (((malamute_vowels.buffer malamute).filter malamute_vowels.predicate_.call).map
                char_ref.val)
              ((((of_string 1 8).buffer malamute).filter (of_string 1 8).predicate_.call).map
                char_ref.val)) :=
  ⟨by decide, by decide, by decide, by decide, by decide,
    operator_spaceship_lexicographic malamute (of_string 1 8) malamute_vowels (by decide)
      (by decide) 8 4 (by decide) (by decide) (by decide)⟩

/-- C7, counterexample: the two views `long_view` and `long_copy` have the same
visible sequence of `2 ^ 31 + 1` characters, so their lexicographic comparison
is `equivalent`; yet `long_view <=> long_copy` returns no ordering: the loop
reaches the index `2 ^ 31`, which is `INT_MIN` as an `int`, and `at` throws. -/
theorem operator_spaceship_throws_on_long_views :
    long_view.wf long_storage ∧ long_copy.wf long_storage ∧
    long_view.size long_storage = .ok 2147483649 ∧
    long_copy.size long_storage = .ok 2147483649 ∧
    lex_compare
        (((long_view.buffer long_storage).filter long_view.predicate_.call).map char_ref.val)
        (((long_copy.buffer long_storage).filter long_copy.predicate_.call).map char_ref.val)
      = .equivalent ∧
    operator_spaceship long_storage long_view long_copy
      = .error (.domain_error (at_what (-2147483648))) ∧
    ∀ o, operator_spaceship long_storage long_view long_copy ≠ .ok o := by
  obtain ⟨hw1, hv1, hl1, hs1⟩ := long_view_spec
  obtain ⟨hw2, hv2, hl2, hs2⟩ := long_copy_spec
  have herr := operator_spaceship_of_long _ _ _ hw1 hw2 (hv1.trans hv2.symm) (by omega)
  refine ⟨hw1, hw2, hs1, hs2, ?_, herr, ?_⟩
  · exact (lex_compare_equivalent_iff _ _).mpr (hv1.trans hv2.symm)
  · intro o ho
    rw [herr] at ho
    cases ho

/-! ## Iterators -/

/-- C8, at the failing input: on the default view (for every storage) and on
the view of the empty string, `begin()` returns an iterator but `end()` calls
`at(-1)`, whose exception leaves a `noexcept` function, so the program is
terminated; the traversal from `begin()` to `end()` ends the same way and
yields no sequence. -/
theorem end_of_empty_view_terminates :
    (∀ m : Memory, filtered_string_view.end m default_view = .error .terminate) ∧
    (∀ m : Memory, filtered_string_view.begin m default_view = .ok ⟨0, default_view, 0⟩) ∧
    filtered_string_view.end empty_storage empty_string_view = .error .terminate ∧
    filtered_string_view.begin empty_storage empty_string_view
      = .ok ⟨1, empty_string_view, 0⟩ ∧
    (∀ fuel : Nat, collect empty_storage empty_string_view fuel = some (.error .terminate)) := by
  refine ⟨fun m => end_of_size_zero m default_view rfl,
    fun m => begin_of_size_zero m default_view rfl,
    end_of_size_zero _ _ (by decide), begin_of_size_zero _ _ (by decide), fun fuel => ?_⟩
  simp only [collect, begin_of_size_zero empty_storage empty_string_view (by decide),
    end_of_size_zero empty_storage empty_string_view (by decide)]

/-- C9, at the failing input: on the view of the empty string `rbegin()` and
`crbegin()` call `end()` and `cend()`, which terminate the program, so the
reverse traversals yield no sequence. -/
theorem rbegin_of_empty_view_terminates :
    filtered_string_view.rbegin empty_storage empty_string_view = .error .terminate ∧
    filtered_string_view.crbegin empty_storage empty_string_view = .error .terminate ∧
    (∀ fuel : Nat,
      reverse_collect empty_storage empty_string_view fuel = some (.error .terminate)) ∧
    (∀ fuel : Nat,
      const_reverse_collect empty_storage empty_string_view fuel
        = some (.error .terminate)) := by
  refine ⟨rbegin_of_size_zero _ _ (by decide), crbegin_of_size_zero _ _ (by decide),
    fun fuel => ?_, fun fuel => ?_⟩
  · simp only [reverse_collect, rbegin_of_size_zero empty_storage empty_string_view (by decide)]
  · simp only [const_reverse_collect,
      crbegin_of_size_zero empty_storage empty_string_view (by decide)]

/-- C10, at the failing input: on the view of the empty string there is no
`end()` to decrement (the call terminates the program), and incrementing
`begin()` throws the index-range error of `at(-1)` instead of returning an
iterator. -/
theorem round_trip_of_empty_view_fails :
    filtered_string_view.end empty_storage empty_string_view = .error .terminate ∧
    ∃ it, filtered_string_view.begin empty_storage empty_string_view = .ok it ∧
      it.operator_inc empty_storage
        = .error (.domain_error "filtered_string_view::at(-1): invalid index") := by
  refine ⟨end_of_size_zero _ _ (by decide), _, begin_of_size_zero _ _ (by decide), ?_⟩
  exact operator_inc_of_size_zero _ _ (by decide) (by decide) (by decide)

/-! ## Stream output and moves -/

/-- C19, amended: writing a well formed view of at most `2 ^ 31` visible
characters (so that every index below the size is an `int`) to an output
stream appends exactly the characters of its visible sequence, in order, and
nothing else: the text added to the stream is the result of the conversion to
an owning string, which is empty for a view of size `0`. -/
theorem operator_shl_emits_visible (m : Memory) (v : filtered_string_view) (hwf : v.wf m)
    (n : Nat) (hsize : v.size m = .ok n) (hfit : n ≤ INT_MAX + 1) (os : List Char) :
    ∃ s, v.operator_string m = .ok s ∧ operator_shl m os v = .ok (os ++ s) ∧
      s = ((v.buffer m).filter v.predicate_.call).map char_ref.val ∧ (n = 0 → s = []) := by
  rw [size_eq m v hwf] at hsize
  have hn : (v.visible m).length = n := by simpa using hsize
  unfold INT_MAX at hfit
  refine ⟨_, operator_string_eq m v hwf, operator_shl_eq m v hwf (by omega) os, rfl, ?_⟩
  intro h0
  have : v.visible m = [] := List.length_eq_zero.mp (by omega)
  simp [this]

/-- Witness of C19: the vowels of `"Malamute"` written to an empty stream. -/
theorem operator_shl_emits_visible_witness :
    malamute_vowels.wf malamute ∧ malamute_vowels.size malamute = .ok 4 ∧
      4 ≤ INT_MAX + 1 ∧
      ∃ s, malamute_vowels.operator_string malamute = .ok s ∧
        operator_shl malamute [] malamute_vowels = .ok ([] ++ s) ∧
        s = ((malamute_vowels.buffer malamute).filter malamute_vowels.predicate_.call).map
              char_ref.val ∧
        (4 = 0 → s = []) :=
  ⟨by decide, by decide, by decide,
    operator_shl_emits_visible malamute malamute_vowels (by decide) 4 (by decide) (by decide) []⟩

/-- C19, counterexample: the view `long_view` converts to the string of its
`2 ^ 31 + 1` characters, but writing it to a stream emits no such text:
`operator<<` reaches the index `2 ^ 31`, which is `INT_MIN` as an `int`, and
`at` throws. -/
theorem operator_shl_throws_on_long_view :
    long_view.wf long_storage ∧ long_view.size long_storage = .ok 2147483649 ∧
    long_view.operator_string long_storage = .ok (List.replicate 2147483649 'a') ∧
    operator_shl long_storage [] long_view
      = .error (.domain_error (at_what (-2147483648))) ∧
    ∀ out, operator_shl long_storage [] long_view ≠ .ok out := by
  obtain ⟨hw1, hv1, hl1, hs1⟩ := long_view_spec
  have herr := operator_shl_of_long long_storage long_view hw1 (by omega) []
  refine ⟨hw1, hs1, by rw [operator_string_eq _ _ hw1, hv1], herr, ?_⟩
  intro out hout
  rw [herr] at hout
  cases hout

/-- C20: move construction from `v`, and move assignment from `v` to a distinct
object, leave `v` in the default state (null buffer, length `0`, the default
predicate, size `0`) and give the destination the buffer pointer, the length
and the predicate of `v`, hence its visible sequence. -/
theorem move_resets_source (m : Memory) (v self : filtered_string_view)
    (this_addr other_addr : Nat) (hne : this_addr ≠ other_addr) :
    ((v.move).2 = mk_default ∧ (v.move).2.ptr_ = 0 ∧ (v.move).2.length_ = 0 ∧
      (v.move).2.predicate_ = default_predicate ∧ (v.move).2.size m = .ok 0 ∧
      (v.move).1 = v ∧ (v.move).1.visible m = v.visible m) ∧
    ((move_assign this_addr other_addr self v).2 = mk_default ∧
      (move_assign this_addr other_addr self v).2.ptr_ = 0 ∧
      (move_assign this_addr other_addr self v).2.length_ = 0 ∧
      (move_assign this_addr other_addr self v).2.predicate_ = default_predicate ∧
      (move_assign this_addr other_addr self v).2.size m = .ok 0 ∧
      (move_assign this_addr other_addr self v).1 = v ∧
      (move_assign this_addr other_addr self v).1.visible m = v.visible m) := by
  have h : move_assign this_addr other_addr self v = v.move := by
    simp [move_assign, move, hne]
  rw [h]
  have hs : (v.move).2.size m = .ok 0 := by simp [move, size]
  exact ⟨⟨rfl, rfl, rfl, rfl, hs, rfl, rfl⟩, ⟨rfl, rfl, rfl, rfl, hs, rfl, rfl⟩⟩

/-- Witness of C20: moving the view of the vowels of `"Malamute"`. -/
theorem move_resets_source_witness :
    (100 : Nat) ≠ 200 ∧
      (malamute_vowels.move).2 = mk_default ∧ (malamute_vowels.move).1 = malamute_vowels ∧
      (move_assign 100 200 mk_default malamute_vowels).2 = mk_default ∧
      (move_assign 100 200 mk_default malamute_vowels).1 = malamute_vowels :=
  ⟨by decide,
    (move_resets_source malamute malamute_vowels mk_default 100 200 (by decide)).1.1,
    (move_resets_source malamute malamute_vowels mk_default 100 200 (by decide)).1.2.2.2.2.2.1,
    (move_resets_source malamute malamute_vowels mk_default 100 200 (by decide)).2.1,
    (move_resets_source malamute malamute_vowels mk_default 100 200 (by decide)).2.2.2.2.2.2.1⟩

/-! ## Derived operations -/

/-- C13, amended: for a well formed view of size `n ≤ 2 ^ 31` and all `int`
values `pos` and `count`, `substr(v, pos, count)` throws the index-range error
exactly when `pos < 0`, or `pos ≥ n`, or `count > 0` and `pos + count > n`;
that is exactly when `v.at(pos)` or `v.at(pos + rc - 1)` throws, where
`rc = count` when `count > 0` and `rc = static_cast<int>(size()) - pos`
otherwise and the sums are computed in `int`; the error is the one `at` throws
for the offending index (`pos` when `pos` is out of range, the `int` value of
`pos + count - 1` otherwise, which is `pos + count - 1` itself when that fits),
and no view is returned in that case. -/
theorem substr_throws_iff (m : Memory) (v : filtered_string_view) (hwf : v.wf m)
    (n : Nat) (hsize : v.size m = .ok n) (hfit : n ≤ INT_MAX + 1) (pos count : Int)
    (hpos : INT_MIN ≤ pos ∧ pos ≤ INT_MAX) (hcount : INT_MIN ≤ count ∧ count ≤ INT_MAX) :
    ((∃ w, substr m v pos count = .error (.domain_error w)) ↔
      (pos < 0 ∨ (n : Int) ≤ pos ∨ (0 < count ∧ (n : Int) < pos + count))) ∧
    ((pos < 0 ∨ (n : Int) ≤ pos ∨ (0 < count ∧ (n : Int) < pos + count)) ↔
      ((∃ w, v.at m pos = .error (.domain_error w)) ∨
        (∃ w, v.at m
            (int_sub (int_add pos (if 0 < count then count else int_sub (to_int n) pos)) 1)
          = .error (.domain_error w)))) ∧
    ((pos < 0 ∨ (n : Int) ≤ pos) →
      v.at m pos = .error (.domain_error (at_what pos)) ∧
      substr m v pos count = .error (.domain_error (at_what pos))) ∧
    ((0 ≤ pos ∧ pos < (n : Int) ∧ 0 < count ∧ (n : Int) < pos + count) →
      v.at m (int_sub (int_add pos count) 1)
        = .error (.domain_error (at_what (int_sub (int_add pos count) 1))) ∧
      substr m v pos count
        = .error (.domain_error (at_what (int_sub (int_add pos count) 1))) ∧
      (pos + count - 1 ≤ INT_MAX → int_sub (int_add pos count) 1 = pos + count - 1)) ∧
    ((pos < 0 ∨ (n : Int) ≤ pos ∨ (0 < count ∧ (n : Int) < pos + count)) →
      ∀ w, substr m v pos count ≠ .ok w) := by
  have hs := size_eq m v hwf
  rw [hsize] at hs
  have hn : (v.visible m).length = n := by
    have := Res.ok.inj hs
    omega
  unfold INT_MAX at hfit hpos hcount
  unfold INT_MIN at hpos hcount
  have hsub := substr_eq m v n hsize pos count
  have hrc : (if 0 < count then count else int_sub (to_int n) pos)
      = (if count ≤ 0 then int_sub (to_int n) pos else count) := by
    split <;> split <;> first | rfl | omega
  -- the three regions of the arguments
  have hA : (pos < 0 ∨ (n : Int) ≤ pos) →
      v.at m pos = .error (.domain_error (at_what pos)) ∧
      substr m v pos count = .error (.domain_error (at_what pos)) := by
    intro h
    have hat := at_of_not_lt m v hwf pos (by rw [hn]; exact h)
    exact ⟨hat, by rw [hsub, hat]⟩
  have hB : (0 ≤ pos ∧ pos < (n : Int) ∧ 0 < count ∧ (n : Int) < pos + count) →
      v.at m (int_sub (int_add pos count) 1)
        = .error (.domain_error (at_what (int_sub (int_add pos count) 1))) ∧
      substr m v pos count
        = .error (.domain_error (at_what (int_sub (int_add pos count) 1))) ∧
      (pos + count - 1 ≤ 2147483647 → int_sub (int_add pos count) 1 = pos + count - 1) := by
    rintro ⟨h0, h1, h2, h3⟩
    have hlt : pos.toNat < (v.visible m).length := by omega
    have hat1 := at_of_lt m v hwf pos.toNat hlt
    rw [Int.toNat_of_nonneg h0] at hat1
    have hout : int_sub (int_add pos count) 1 < 0 ∨
        ((v.visible m).length : Int) ≤ int_sub (int_add pos count) 1 := by
      rw [int_sub_int_add, to_int_eq]
      split_ifs <;> omega
    have hat2 := at_of_not_lt m v hwf _ hout
    have hc : ¬ count ≤ 0 := by omega
    refine ⟨hat2, ?_, ?_⟩
    · rw [hsub, hat1]
      simp only [hc, if_false, hat2]
    · intro hle
      rw [int_sub_int_add]
      exact to_int_of_range _ (by omega) hle
  have hC : ¬ (pos < 0 ∨ (n : Int) ≤ pos ∨ (0 < count ∧ (n : Int) < pos + count)) →
      (∀ w, substr m v pos count ≠ .error (.domain_error w)) ∧
      (∃ r, v.at m pos = .ok r) ∧
      (∃ r, v.at m
          (int_sub (int_add pos (if 0 < count then count else int_sub (to_int n) pos)) 1)
        = .ok r) := by
    intro h
    have hlt : pos.toNat < (v.visible m).length := by omega
    have hat1 := at_of_lt m v hwf pos.toNat hlt
    rw [Int.toNat_of_nonneg (by omega)] at hat1
    have hidx : 0 ≤ int_sub (int_add pos (if count ≤ 0 then int_sub (to_int n) pos else count)) 1
        ∧ int_sub (int_add pos (if count ≤ 0 then int_sub (to_int n) pos else count)) 1
          < (n : Int) := by
      rw [int_sub_int_add]
      by_cases hc : count ≤ 0
      · simp only [hc, if_true, int_sub]
        rw [to_int_eq, to_int_eq (to_int (n : Int) - pos), to_int_eq (n : Int)]
        split_ifs <;> omega
      · simp only [hc, if_false]
        rw [to_int_eq]
        split_ifs <;> omega
    have hlt2 : (int_sub (int_add pos
        (if count ≤ 0 then int_sub (to_int n) pos else count)) 1).toNat
        < (v.visible m).length := by omega
    have hat2 := at_of_lt m v hwf _ hlt2
    rw [Int.toNat_of_nonneg hidx.1] at hat2
    refine ⟨?_, ⟨_, hat1⟩, ⟨_, by rw [hrc]; exact hat2⟩⟩
    intro w hw
    rw [hsub, hat1] at hw
    simp only [hat2] at hw
    have := of_cstr_pred_error m _ _ _ hw
    cases this
  refine ⟨⟨?_, ?_⟩, ⟨?_, ?_⟩, hA, hB, ?_⟩
  · rintro ⟨w, hw⟩
    by_contra h
    exact (hC h).1 w hw
  · intro h
    by_cases hp : pos < 0 ∨ (n : Int) ≤ pos
    · exact ⟨_, (hA hp).2⟩
    · exact ⟨_, (hB (by omega)).2.1⟩
  · intro h
    by_cases hp : pos < 0 ∨ (n : Int) ≤ pos
    · exact Or.inl ⟨_, (hA hp).1⟩
    · have hb : 0 ≤ pos ∧ pos < (n : Int) ∧ 0 < count ∧ (n : Int) < pos + count := by omega
      right
      refine ⟨at_what (int_sub (int_add pos count) 1), ?_⟩
      simp only [hb.2.2.1, if_true]
      exact (hB hb).1
  · intro h
    by_contra hcon
    obtain ⟨_, ⟨r1, h1⟩, ⟨r2, h2⟩⟩ := hC hcon
    rcases h with ⟨w, hw⟩ | ⟨w, hw⟩
    · rw [h1] at hw; cases hw
    · rw [h2] at hw; cases hw
  · intro h w hw
    by_cases hp : pos < 0 ∨ (n : Int) ≤ pos
    · rw [(hA hp).2] at hw; cases hw
    · rw [(hB (by omega)).2.1] at hw; cases hw

/-- Witness of C13: on the four vowels of `"Malamute"`, `substr(v, 1, 4)` throws
the error of `at(1 + 4 - 1)`. -/
theorem substr_throws_iff_witness :
    malamute_vowels.wf malamute ∧ malamute_vowels.size malamute = .ok 4 ∧
      4 ≤ INT_MAX + 1 ∧ (INT_MIN ≤ 1 ∧ (1 : Int) ≤ INT_MAX) ∧
      (INT_MIN ≤ 4 ∧ (4 : Int) ≤ INT_MAX) ∧
      substr malamute malamute_vowels 1 4
        = .error (.domain_error (at_what (int_sub (int_add 1 4) 1))) ∧
      ((1 : Int) + 4 - 1 ≤ INT_MAX → int_sub (int_add 1 4) 1 = 1 + 4 - 1) :=
  ⟨by decide, by decide, by decide, by decide, by decide,
    ((substr_throws_iff malamute malamute_vowels (by decide) 4 (by decide) (by decide) 1
      4 (by decide) (by decide)).2.2.2.1 (by decide)).2⟩

/-- C13, counterexample: on the view `long_view` of size `2 ^ 31 + 1` the call
`substr(v, 0, 0)` throws, although `0 ≤ pos < size(v)` and `count ≤ 0`, and
although `v.at(0)` and `v.at(size(v) - 1)` do not throw: `size()` converted to
`int` is negative, so the index `pos + rcount - 1` is `INT_MIN`. -/
theorem substr_throws_on_long_view :
    long_view.wf long_storage ∧ long_view.size long_storage = .ok 2147483649 ∧
    ¬ ((0 : Int) < 0 ∨ ((2147483649 : Nat) : Int) ≤ 0 ∨
      ((0 : Int) < 0 ∧ ((2147483649 : Nat) : Int) < 0 + 0)) ∧
    (∃ r, long_view.at long_storage 0 = .ok r) ∧
    (∃ r, long_view.at long_storage (((2147483649 : Nat) : Int) - 1) = .ok r) ∧
    substr long_storage long_view 0 0 = .error (.domain_error (at_what (-2147483648))) := by
  obtain ⟨hw1, hv1, hl1, hs1⟩ := long_view_spec
  have h0 : 0 < (long_view.visible long_storage).length := by omega
  have h1 : 2147483648 < (long_view.visible long_storage).length := by omega
  have hat0 := at_of_lt long_storage long_view hw1 0 h0
  have hat1 := at_of_lt long_storage long_view hw1 2147483648 h1
  have e : ((2147483649 : Nat) : Int) - 1 = ((2147483648 : Nat) : Int) := by norm_num
  refine ⟨hw1, hs1, by omega, ⟨_, hat0⟩, ⟨_, by rw [e]; exact hat1⟩,
    substr_of_long long_storage long_view hw1 hl1⟩

/-- C14, amended: for a well formed source view `v` of size `nv ≤ 2 ^ 31` (so
that every index below the size is an `int`) and a token `t` of size `nt`, if
`nv = 0`, or `nt = 0`, or `nt > nv`, then `split(v, t)` returns a sequence of
exactly one element, and that element compares equal to `v`. -/
theorem split_without_match_returns_source (m : Memory) (v t : filtered_string_view)
    (hwf : v.wf m) (nv nt : Nat) (hsv : v.size m = .ok nv) (hst : t.size m = .ok nt)
    (hfit : nv ≤ INT_MAX + 1) (hcase : nv = 0 ∨ nt = 0 ∨ nt > nv) :
    ∃ e, split m v t = .ok [e] ∧ operator_eq m e v = .ok true := by
  have hs := size_eq m v hwf
  rw [hsv] at hs
  have hn : (v.visible m).length = nv := by
    have := Res.ok.inj hs
    omega
  unfold INT_MAX at hfit
  refine ⟨v.copy, ?_, ?_⟩
  · simp only [split, hsv, hst, hcase, if_true]
  · rw [copy_eq, operator_eq_eq m v v hwf hwf (by omega)]
    simp

/-- Witness of C14: the string `"xax"` split by the empty token (the storage
`xax_x` holds `"xax"` at address `1`, and the empty view starts at its
terminator, address `4`). -/
theorem split_without_match_returns_source_witness :
    (of_string 1 3).wf xax_x ∧ (of_string 1 3).size xax_x = .ok 3 ∧
      (of_string 4 0).size xax_x = .ok 0 ∧ 3 ≤ INT_MAX + 1 ∧ (3 = 0 ∨ 0 = 0 ∨ 0 > 3) ∧
      ∃ e, split xax_x (of_string 1 3) (of_string 4 0) = .ok [e] ∧
        operator_eq xax_x e (of_string 1 3) = .ok true :=
  ⟨by decide, by decide, by decide, by decide, by decide,
    split_without_match_returns_source xax_x (of_string 1 3) (of_string 4 0) (by decide) 3 0
      (by decide) (by decide) (by decide) (by decide)⟩

/-- C14, counterexample: `split` of the view `long_view` of size `2 ^ 31 + 1`
by the empty token (the default view) returns one element, a copy of the
source, but that element does not compare equal to the source: `operator==`
reaches the index `2 ^ 31`, which is `INT_MIN` as an `int`, and `at` throws. -/
theorem split_copy_of_long_view_not_equal :
    long_view.wf long_storage ∧ long_view.size long_storage = .ok 2147483649 ∧
    mk_default.size long_storage = .ok 0 ∧
    ∃ e, split long_storage long_view mk_default = .ok [e] ∧
      operator_eq long_storage e long_view
        = .error (.domain_error (at_what (-2147483648))) := by
  obtain ⟨hw1, hv1, hl1, hs1⟩ := long_view_spec
  have hd := size_default long_storage
  refine ⟨hw1, hs1, hd, long_view.copy,
    split_early_return _ _ _ _ _ hs1 hd (Or.inr (Or.inl rfl)), ?_⟩
  · rw [copy_eq]
    exact operator_eq_of_long _ _ _ hw1 hw1 rfl (by omega)

/-- C17, amended: for a well formed view `v` with at least one and at most
`2 ^ 31` visible characters (so that every index below the size is an `int`)
and a well formed token `t` with the same visible character sequence,
`split(v, t)` returns exactly two elements, and both have size `0`. -/
theorem split_by_whole_source (m : Memory) (v t : filtered_string_view)
    (hv : v.wf m) (ht : t.wf m) (n : Nat) (hsize : v.size m = .ok n) (hpos : 0 < n)
    (hfit : n ≤ INT_MAX + 1)
    (hsame : ((t.buffer m).filter t.predicate_.call).map char_ref.val
      = ((v.buffer m).filter v.predicate_.call).map char_ref.val) :
    ∃ e0 e1, split m v t = .ok [e0, e1] ∧ e0.size m = .ok 0 ∧ e1.size m = .ok 0 := by
  have hs := size_eq m v hv
  rw [hsize] at hs
  have hn : (v.visible m).length = n := by
    have := Res.ok.inj hs
    omega
  have hsame' : (t.visible m).map char_ref.val = (v.visible m).map char_ref.val := hsame
  have hnt : (t.visible m).length = n := by
    have := congrArg List.length hsame'
    simp only [List.length_map] at this
    omega
  have hst : t.size m = .ok n := by rw [size_eq m t ht, hnt]
  unfold INT_MAX at hfit
  obtain ⟨k, rfl⟩ : ∃ k, n = k + 1 := ⟨n - 1, by omega⟩
  have h0v : 0 < (v.visible m).length := by omega
  have h0t : 0 < (t.visible m).length := by omega
  have hat0v := at_of_lt m v hv 0 h0v
  have hat0t := at_of_lt m t ht 0 h0t
  simp only [Nat.cast_zero] at hat0v hat0t
  have hhead : ((v.visible m).get ⟨0, h0v⟩).val = ((t.visible m).get ⟨0, h0t⟩).val := by
    have h0m : 0 < ((t.visible m).map char_ref.val).length := by simpa using h0t
    have := List.getElem_of_eq hsame' h0m
    simp only [List.getElem_map] at this
    simp only [List.get_eq_getElem]
    exact this.symm
  have hmatch := split_match_loop_eq m v t hv ht (by omega) 0 (by omega) k 1 (by omega)
  have htail : (((v.visible m).map char_ref.val).drop (0 + 1)).take k
      = ((t.visible m).map char_ref.val).drop 1 := by
    rw [hsame']
    apply List.take_of_length_le
    simp
    omega
  rw [htail] at hmatch
  simp only [decide_True] at hmatch
  have hb : to_int (((k + 1 + 0 : Nat) : Int)) = to_int ((k + 1 : Nat) : Int) := by
    rw [Nat.add_zero]
  have he : to_size_t (int_sub (to_int ((k + 1 : Nat) : Int)) 1) = k := by
    unfold int_sub to_size_t
    rw [to_int_eq, to_int_eq ((k + 1 : Nat) : Int)]
    split_ifs <;> omega
  have hloop : split_loop m v t (k + 1 + 1) 0 0 []
      = .ok (to_int ((k + 1 : Nat) : Int), [mk_default]) := by
    simp only [split_loop, hsize, hst, Nat.zero_lt_succ, if_true, hat0v, hat0t, hhead,
      Nat.add_sub_cancel, hmatch, split_segment, Nat.cast_zero, to_int_zero, ne_eq,
      not_true_eq_false, if_false, hb, he, Nat.lt_irrefl, List.nil_append]
  refine ⟨mk_default, mk_default, ?_, by simp [mk_default, size], by simp [mk_default, size]⟩
  have hlt : ¬ (to_int ((k + 1 : Nat) : Int) < to_int ((k + 1 : Nat) : Int)) :=
    lt_irrefl _
  have hne : ¬ (k + 1 = 0 ∨ k + 1 = 0 ∨ k + 1 > k + 1) := by omega
  simp only [split, hsize, hst, hne, if_false, hloop, hlt, List.singleton_append]

/-- Witness of C17: the view of the vowels of `"Malamute"` split by the view of
the stored string `"aaue"`, which has the same visible sequence. -/
theorem split_by_whole_source_witness :
    malamute_vowels.wf malamute_aaue ∧ (of_string 10 4).wf malamute_aaue ∧
      malamute_vowels.size malamute_aaue = .ok 4 ∧ 0 < 4 ∧ 4 ≤ INT_MAX + 1 ∧
      (((of_string 10 4).buffer malamute_aaue).filter (of_string 10 4).predicate_.call).map
          char_ref.val
        = ((malamute_vowels.buffer malamute_aaue).filter malamute_vowels.predicate_.call).map
            char_ref.val ∧
      ∃ e0 e1, split malamute_aaue malamute_vowels (of_string 10 4) = .ok [e0, e1] ∧
        e0.size malamute_aaue = .ok 0 ∧ e1.size malamute_aaue = .ok 0 :=
  ⟨by decide, by decide, by decide, by decide, by decide, by decide,
    split_by_whole_source malamute_aaue malamute_vowels (of_string 10 4) (by decide)
      (by decide) 4 (by decide) (by decide) (by decide) (by decide)⟩

/-- C17, counterexample: the views `long_view` and `long_copy` have the same
visible sequence of `2 ^ 31 + 1` characters, but `split(long_view, long_copy)`
returns no sequence: the inner loop reaches the index `2 ^ 31`, which is
`INT_MIN` as an `int`, and `at` throws. -/
theorem split_by_whole_source_throws_on_long_view :
    long_view.wf long_storage ∧ long_copy.wf long_storage ∧
    long_view.size long_storage = .ok 2147483649 ∧
    ((long_copy.buffer long_storage).filter long_copy.predicate_.call).map char_ref.val
      = ((long_view.buffer long_storage).filter long_view.predicate_.call).map char_ref.val ∧
    split long_storage long_view long_copy
      = .error (.domain_error (at_what (-2147483648))) := by
  obtain ⟨hw1, hv1, hl1, hs1⟩ := long_view_spec
  obtain ⟨hw2, hv2, hl2, hs2⟩ := long_copy_spec
  exact ⟨hw1, hw2, hs1, hv2.trans hv1.symm,
    split_of_long _ _ _ hw1 hw2 (hv1.trans hv2.symm) (by omega)⟩

/-- C11, at the failing inputs: the view over the five characters `a`, NUL,
`b`, `x`, `c` of a `std::string` has all five in its buffer, but `compose` with
the empty list returns a view of buffer length `1` whose visible sequence is
`a` alone, because the constructor it calls measures the buffer again with
`strlen`; and on the default view `compose` calls `strlen(nullptr)`, which is
undefined. -/
theorem compose_measures_buffer_with_strlen :
    (∃ w, compose nul_storage nul_view [] = .ok w ∧ w.ptr_ = 1 ∧ w.length_ = 1 ∧
      (w.visible nul_storage).map char_ref.val = ['a']) ∧
    nul_view.wf nul_storage ∧ nul_view.length_ = 5 ∧
    (nul_view.buffer nul_storage).map char_ref.val = ['a', NUL, 'b', 'x', 'c'] ∧
    (∀ (m : Memory) (ps : List filter), compose m mk_default ps = .error .undefined) :=
  ⟨⟨⟨1, 1, compose_predicate []⟩, by rfl, rfl, rfl, by decide⟩, by decide, rfl, by decide,
    fun m ps => compose_null m mk_default rfl ps⟩

/-- C12, at the failing input: on the view over the characters `a`, NUL, `b`,
`x`, `c`, whose first three visible characters are `a`, NUL, `b`,
`substr(v, 0, 3)` returns a view whose visible sequence is `a` alone: the
length of the new view is measured with `strlen` and stops at the NUL. -/
theorem substr_stops_at_nul :
    nul_view.wf nul_storage ∧ nul_view.size nul_storage = .ok 5 ∧
    nul_view.at nul_storage 0 = .ok ⟨1, 'a'⟩ ∧ nul_view.at nul_storage 1 = .ok ⟨2, NUL⟩ ∧
    nul_view.at nul_storage 2 = .ok ⟨3, 'b'⟩ ∧
    ∃ w, substr nul_storage nul_view 0 3 = .ok w ∧ w.length_ = 1 ∧
      (w.visible nul_storage).map char_ref.val = ['a'] :=
  ⟨by decide, by decide, by decide, by decide, by decide,
    ⟨1, 1, substr_predicate nul_view 3 3⟩, by rfl, rfl, by decide⟩

/-- C15, at the failing input: `split("xa", "ab")` finds the first character of
the token at the last position of the source, reads the source one position
further with `at(2)`, and throws the index-range error of `at`. -/
theorem split_throws_on_match_across_end :
    (of_string 1 2).wf xa_ab ∧ (of_string 4 2).wf xa_ab ∧
    (of_string 1 2).operator_string xa_ab = .ok ['x', 'a'] ∧
    (of_string 4 2).operator_string xa_ab = .ok ['a', 'b'] ∧
    split xa_ab (of_string 1 2) (of_string 4 2)
      = .error (.domain_error "filtered_string_view::at(2): invalid index") :=
  ⟨by decide, by decide, by decide, by decide, by rfl⟩

/-- C16, at the failing input: the source over the characters `a`, NUL, `b`,
`x`, `c` split by the token `"x"` returns two elements whose visible sequences
are `a` and `c`; joined with the token they give `a`, `x`, `c`, not the source:
the first element is built by `substr`, which stops at the NUL. -/
theorem split_loses_characters_after_nul :
    nul_view.wf nul_storage ∧ nul_token.wf nul_storage ∧
    (nul_view.visible nul_storage).map char_ref.val = ['a', NUL, 'b', 'x', 'c'] ∧
    (nul_token.visible nul_storage).map char_ref.val = ['x'] ∧
    ∃ e0 e1, split nul_storage nul_view nul_token = .ok [e0, e1] ∧
      (e0.visible nul_storage).map char_ref.val = ['a'] ∧
      (e1.visible nul_storage).map char_ref.val = ['c'] ∧
      (e0.visible nul_storage).map char_ref.val
          ++ (nul_token.visible nul_storage).map char_ref.val
          ++ (e1.visible nul_storage).map char_ref.val
        ≠ (nul_view.visible nul_storage).map char_ref.val :=
  ⟨by decide, by decide, by decide, by decide,
    ⟨1, 1, substr_predicate nul_view 3 3⟩, ⟨5, 1, substr_predicate nul_view 5 1⟩, by rfl,
    by decide, by decide, by decide⟩

/-- C18, at the failing input: on the default view both `compose(v, [p1, p2])`
and `compose(v, [p2, p1])` call `strlen(nullptr)`, which is undefined, so
neither returns a view that could be compared. -/
theorem compose_of_default_view_undefined (m : Memory) (p1 p2 : filter) :
    compose m mk_default [p1, p2] = .error .undefined ∧
      compose m mk_default [p2, p1] = .error .undefined :=
  ⟨compose_null m mk_default rfl _, compose_null m mk_default rfl _⟩

/-! ## Consistency of the comparison operators -/

/-- C21, amended: for a well formed view with `n ≥ 1` visible characters, `n`
representable as `int` (`n ≤ INT_MAX`), and every `k` with `0 ≤ k ≤ n`, `begin()` and `end()`
return, `k` increments of `begin()` and `n - k` decrements of `end()` return
iterators that compare equal: same view, same raw position and same logical
index (which is `k`); and for `k < n` both dereference to `v.at(k)`. -/
theorem increments_meet_decrements (m : Memory) (this : view_ptr) (hwf : this.target.wf m)
    (n : Nat) (hsize : this.target.size m = .ok n) (hpos : 1 ≤ n) (hfit : n ≤ INT_MAX)
    (k : Nat) (hk : k ≤ n) :
    ∃ b e i j, filtered_string_view.begin m this = .ok b ∧
      filtered_string_view.end m this = .ok e ∧
      iter.walk m (List.replicate k .inc) b = .ok i ∧
      iter.walk m (List.replicate (n - k) .dec) e = .ok j ∧
      iter.operator_eq i j = true ∧
      i.fsv_.addr = j.fsv_.addr ∧ i.iterator_ptr_ = j.iterator_ptr_ ∧ i.index_ = j.index_ ∧
      i.index_ = (k : Int) ∧
      (k < n → ∃ r, this.target.at m (k : Int) = .ok r ∧
        i.operator_deref m = .ok r ∧ j.operator_deref m = .ok r) := by
  rw [size_eq m this.target hwf] at hsize
  have hn : (this.target.visible m).length = n := by simpa using hsize
  have hp : 0 < (this.target.visible m).length := by omega
  have hf : (this.target.visible m).length ≤ INT_MAX := by omega
  have hi := walk_inc_iter_at m this hwf hf k 0 (by omega)
  have hj := walk_dec_iter_at m this hwf hf (n - k) (this.target.visible m).length (by omega)
    (le_refl _)
  rw [Nat.zero_add] at hi
  have e : (this.target.visible m).length - (n - k) = k := by omega
  rw [e] at hj
  refine ⟨_, _, _, _, begin_eq_iter_at m this hwf hp, end_eq_iter_at m this hwf hp hf, hi, hj,
    ?_, rfl, rfl, rfl, ?_, ?_⟩
  · simp [iter.operator_eq]
  · by_cases hlt : k < (this.target.visible m).length
    · rw [iter_at_of_lt m this k hlt]
    · rw [iter_at_of_ge m this k (by omega)]
      simp only [Nat.cast_inj]
      omega
  · intro hlt
    have hlt' : k < (this.target.visible m).length := by omega
    exact ⟨_, at_of_lt m this.target hwf k hlt', deref_iter_at m this hwf k hlt',
      deref_iter_at m this hwf k hlt'⟩

/-- Witness of C21: on the view of `"milo"` without `'i'` and `'o'`, one
increment of `begin()` and one decrement of `end()` meet at the character `'l'`. -/
theorem increments_meet_decrements_witness :
    milo_view.target.wf milo ∧ milo_view.target.size milo = .ok 2 ∧ 1 ≤ 2 ∧
      (2 : Nat) ≤ INT_MAX ∧ 1 ≤ 2 ∧
      ∃ b e i j, filtered_string_view.begin milo milo_view = .ok b ∧
        filtered_string_view.end milo milo_view = .ok e ∧
        iter.walk milo (List.replicate 1 .inc) b = .ok i ∧
        iter.walk milo (List.replicate (2 - 1) .dec) e = .ok j ∧
        iter.operator_eq i j = true ∧
        i.fsv_.addr = j.fsv_.addr ∧ i.iterator_ptr_ = j.iterator_ptr_ ∧ i.index_ = j.index_ ∧
        i.index_ = ((1 : Nat) : Int) ∧
        (1 < 2 → ∃ r, milo_view.target.at milo ((1 : Nat) : Int) = .ok r ∧
          i.operator_deref milo = .ok r ∧ j.operator_deref milo = .ok r) :=
  ⟨by decide, by decide, by decide, by decide, by decide,
    increments_meet_decrements milo milo_view (by decide) 2 (by decide) (by decide)
      (by decide) 1 (by decide)⟩

/-- C21, counterexample: on the view `two_pow_31_view` of size `2 ^ 31` one
increment of `begin()` does not give the iterator of the second character:
`size()` converted to `int` is `INT_MIN`, so the test `index_ >= size()`
succeeds at once and the iterator jumps to the end position with the logical
index `INT_MIN`; its dereference is the terminating null, not `v.at(1)`. -/
theorem inc_begin_jumps_to_end_on_two_pow_31_view :
    two_pow_31_view.target.wf two_pow_31_storage ∧
    two_pow_31_view.target.size two_pow_31_storage = .ok 2147483648 ∧
    ∃ b i, filtered_string_view.begin two_pow_31_storage two_pow_31_view = .ok b ∧
      iter.walk two_pow_31_storage (List.replicate 1 .inc) b = .ok i ∧
      i.index_ = -2147483648 ∧
      (∃ r, two_pow_31_view.target.at two_pow_31_storage 1 = .ok r ∧ r.val = 'a') ∧
      (∃ c, i.operator_deref two_pow_31_storage = .ok c ∧ c.val = NUL) := by
  obtain ⟨hw, hv, hl, hs⟩ := two_pow_31_view_spec
  obtain ⟨b, i, r, hb, hi, hr, hptr, hidx⟩ :=
    inc_begin_of_two_pow_31 two_pow_31_storage two_pow_31_view hw hl
  have h1 : 1 < (two_pow_31_view.target.visible two_pow_31_storage).length := by omega
  have hat1 := at_of_lt two_pow_31_storage two_pow_31_view.target hw 1 h1
  refine ⟨hw, hs, b, i, hb, ?_, hidx, ⟨_, hat1, ?_⟩, ⟨⟨2147483649, NUL⟩, ?_, rfl⟩⟩
  · simp only [List.replicate, iter.walk, hi]
  · have := run_view_get_val two_pow_31_storage 1 2147483648 hv 1 h1
    exact this
  · have hlt : 2147483647 < (two_pow_31_view.target.visible two_pow_31_storage).length := by
      omega
    have hat := at_of_lt two_pow_31_storage two_pow_31_view.target hw 2147483647 hlt
    have e : ((2147483647 : Nat) : Int) = 2147483647 := by norm_num
    rw [e, hr] at hat
    have hr' := Res.ok.inj hat
    have haddr : ((two_pow_31_view.target.visible two_pow_31_storage).get
        ⟨2147483647, hlt⟩).addr = 1 + ((2147483647 : Nat) : Int) :=
      run_view_get_addr two_pow_31_storage 1 2147483648 hw 2147483647 hlt
    have hread := holds_terminator two_pow_31_storage (List.replicate 2147483648 'a') 1
      two_pow_31_stored
    rw [List.length_replicate] at hread
    have e2 : (1 : Int) + ((2147483648 : Nat) : Int) = 2147483649 := by norm_num
    rw [e2] at hread
    have hp : i.iterator_ptr_ = 2147483649 := by
      rw [hptr, hr', haddr]
      norm_num
    simp only [iter.operator_deref, deref, hp, hread]

/-- C24, amended: for a well formed view with `n ≥ 1` visible characters,
`n < INT_MAX` (so that `index_ + 1` is an `int` in every state), `begin()`
returns an iterator in the state `valid 0` and `end()` one in the end state;
every walk of increments and decrements from
either of them returns an iterator that is in exactly one of the three states
before-begin, `valid i` and end. In the state `valid i` the index satisfies
`i < n`, the raw position is a buffer offset at which the predicate holds, and
the dereference gives `v.at(i)`; in the end state the logical index is `n` and
the raw position is one past `v.at(n - 1)`. An increment leads from `valid i`
to `valid (i + 1)` or, from the last one, to the end state, and from the end
state to itself; a decrement leads from `valid i` to `valid (i - 1)` or, from
`valid 0`, to before-begin, from the end state to `valid (n - 1)`, and from
before-begin to itself; and the increment of before-begin is `begin()`. -/
theorem iterator_state_invariant (m : Memory) (this : view_ptr) (hwf : this.target.wf m)
    (n : Nat) (hsize : this.target.size m = .ok n) (hpos : 1 ≤ n) (hfit : n < INT_MAX) :
    ∃ b e, filtered_string_view.begin m this = .ok b ∧
      filtered_string_view.end m this = .ok e ∧
      in_state m this b (.valid 0) ∧ in_state m this e .past_end ∧
      (∀ (steps : List iter.step) (start : iter), start = b ∨ start = e →
        ∃ it, iter.walk m steps start = .ok it ∧ ∃! s, in_state m this it s) ∧
      (∀ (it : iter) (i : Nat), in_state m this it (.valid i) →
        i < n ∧
        ∃ (r : char_ref) (j : Nat), j < this.target.length_ ∧
          it.iterator_ptr_ = this.target.ptr_ + (j : Int) ∧
          this.target.predicate_.call r = true ∧
          this.target.at m (i : Int) = .ok r ∧ it.operator_deref m = .ok r) ∧
      (∀ it : iter, in_state m this it .past_end →
        it.index_ = (n : Int) ∧
        ∃ r, this.target.at m ((n : Int) - 1) = .ok r ∧
          it.iterator_ptr_ = r.addr + 1) ∧
      (∀ (it : iter) (i : Nat), in_state m this it (.valid i) →
        ∃ up down, it.operator_inc m = .ok up ∧ it.operator_dec m = .ok down ∧
          in_state m this up (if i + 1 < n then .valid (i + 1) else .past_end) ∧
          in_state m this down (if i = 0 then .before_begin else .valid (i - 1))) ∧
      (∀ it : iter, in_state m this it .past_end →
        ∃ up down, it.operator_inc m = .ok up ∧ it.operator_dec m = .ok down ∧
          in_state m this up .past_end ∧
          in_state m this down (.valid (n - 1))) ∧
      (∀ it : iter, in_state m this it .before_begin →
        ∃ down, it.operator_inc m = .ok b ∧ it.operator_dec m = .ok down ∧
          in_state m this down .before_begin) := by
  rw [size_eq m this.target hwf] at hsize
  have hn : (this.target.visible m).length = n := by simpa using hsize
  subst hn
  have hp : 0 < (this.target.visible m).length := by omega
  have hend := (in_state_past_end_iff m this (iter_at m this (this.target.visible m).length)).mpr
    rfl
  have hbb := (in_state_before_begin_iff m this ⟨this.target.ptr_ - 1, this, -1⟩).mpr rfl
  have hval : ∀ k, k < (this.target.visible m).length →
      in_state m this (iter_at m this k) (.valid k) :=
    fun k hk => (in_state_valid_iff m this _ k).mpr ⟨hk, rfl⟩
  refine ⟨_, _, begin_eq_iter_at m this hwf hp, end_eq_iter_at m this hwf hp (by omega), hval 0 hp,
    hend, ?_, ?_, ?_, ?_, ?_, ?_⟩
  · intro steps start hstart
    have hs : ∃ s, in_state m this start s := by
      rcases hstart with h | h
      · exact ⟨_, h ▸ hval 0 hp⟩
      · exact ⟨_, h ▸ hend⟩
    obtain ⟨s, hs⟩ := hs
    obtain ⟨it, s', hw, hs'⟩ := walk_in_state m this hwf hp hfit steps start s hs
    exact ⟨it, hw, s', hs', fun y hy => in_state_unique m this it y s' hy hs'⟩
  · intro it i h
    obtain ⟨hi, he⟩ := (in_state_valid_iff m this it i).mp h
    obtain ⟨j, c, hj, _, hpred, hg, _⟩ := visible_position m this.target hwf i hi
    refine ⟨hi, (this.target.visible m).get ⟨i, hi⟩, j, hj, ?_, ?_,
      at_of_lt m this.target hwf i hi, ?_⟩
    · rw [he, iter_at_of_lt m this i hi, hg]
    · rw [hg]
      exact hpred
    · rw [he]
      exact deref_iter_at m this hwf i hi
  · intro it h
    have he := (in_state_past_end_iff m this it).mp h
    have hk : (this.target.visible m).length - 1 < (this.target.visible m).length := by omega
    have hat := at_of_lt m this.target hwf _ hk
    have hc : (((this.target.visible m).length - 1 : Nat) : Int)
        = ((this.target.visible m).length : Int) - 1 := by omega
    rw [hc] at hat
    refine ⟨h.2.1, _, hat, ?_⟩
    rw [he, iter_at_of_ge m this _ (le_refl _)]
    exact end_position_eq m this.target _ hk (by omega)
  · intro it i h
    obtain ⟨hi, he⟩ := (in_state_valid_iff m this it i).mp h
    rw [he]
    have hup : in_state m this (iter_at m this (min (i + 1) (this.target.visible m).length))
        (if i + 1 < (this.target.visible m).length then .valid (i + 1) else .past_end) := by
      by_cases h1 : i + 1 < (this.target.visible m).length
      · rw [if_pos h1, Nat.min_eq_left (by omega)]
        exact hval _ h1
      · rw [if_neg h1, Nat.min_eq_right (by omega)]
        exact hend
    cases i with
    | zero =>
      exact ⟨_, _, inc_iter_at m this hwf hp hfit 0, dec_iter_at_zero m this hp, hup,
        by simpa using hbb⟩
    | succ i =>
      exact ⟨_, _, inc_iter_at m this hwf hp hfit (i + 1),
        dec_iter_at m this hwf i (by omega) (by omega), hup, by simpa using hval i (by omega)⟩
  · intro it h
    rw [(in_state_past_end_iff m this it).mp h]
    have hdec : (iter_at m this (this.target.visible m).length).operator_dec m
        = .ok (iter_at m this ((this.target.visible m).length - 1)) := by
      have hd := dec_iter_at m this hwf ((this.target.visible m).length - 1) (by omega)
        (by omega)
      rwa [Nat.sub_add_cancel hp] at hd
    have hup : in_state m this
        (iter_at m this (min ((this.target.visible m).length + 1)
          (this.target.visible m).length)) .past_end := by
      rw [Nat.min_eq_right (by omega)]
      exact hend
    exact ⟨_, _, inc_iter_at m this hwf hp hfit _, hdec, hup, hval _ (by omega)⟩
  · intro it h
    rw [(in_state_before_begin_iff m this it).mp h]
    exact ⟨_, inc_before_begin m this hwf hp (by omega), dec_before_begin m this, hbb⟩

/-- Witness of C24: the view of `"milo"` without `'i'` and `'o'`, which has the
two visible characters `'m'` and `'l'`. -/
theorem iterator_state_invariant_witness :
    milo_view.target.wf milo ∧ milo_view.target.size milo = .ok 2 ∧ 1 ≤ 2 ∧
      (2 : Nat) < INT_MAX ∧
      ∃ b e, filtered_string_view.begin milo milo_view = .ok b ∧
        filtered_string_view.end milo milo_view = .ok e ∧
        in_state milo milo_view b (.valid 0) ∧ in_state milo milo_view e .past_end ∧
        (∀ (steps : List iter.step) (start : iter), start = b ∨ start = e →
          ∃ it, iter.walk milo steps start = .ok it ∧ ∃! s, in_state milo milo_view it s) ∧
        (∀ (it : iter) (i : Nat), in_state milo milo_view it (.valid i) →
          i < 2 ∧
          ∃ (r : char_ref) (j : Nat), j < milo_view.target.length_ ∧
            it.iterator_ptr_ = milo_view.target.ptr_ + (j : Int) ∧
            milo_view.target.predicate_.call r = true ∧
            milo_view.target.at milo (i : Int) = .ok r ∧ it.operator_deref milo = .ok r) ∧
        (∀ it : iter, in_state milo milo_view it .past_end →
          it.index_ = ((2 : Nat) : Int) ∧
          ∃ r, milo_view.target.at milo (((2 : Nat) : Int) - 1) = .ok r ∧
            it.iterator_ptr_ = r.addr + 1) ∧
        (∀ (it : iter) (i : Nat), in_state milo milo_view it (.valid i) →
          ∃ up down, it.operator_inc milo = .ok up ∧ it.operator_dec milo = .ok down ∧
            in_state milo milo_view up (if i + 1 < 2 then .valid (i + 1) else .past_end) ∧
            in_state milo milo_view down (if i = 0 then .before_begin else .valid (i - 1))) ∧
        (∀ it : iter, in_state milo milo_view it .past_end →
          ∃ up down, it.operator_inc milo = .ok up ∧ it.operator_dec milo = .ok down ∧
            in_state milo milo_view up .past_end ∧
            in_state milo milo_view down (.valid (2 - 1))) ∧
        (∀ it : iter, in_state milo milo_view it .before_begin →
          ∃ down, it.operator_inc milo = .ok b ∧ it.operator_dec milo = .ok down ∧
            in_state milo milo_view down .before_begin) :=
  ⟨by decide, by decide, by decide, by decide,
    iterator_state_invariant milo milo_view (by decide) 2 (by decide) (by decide) (by decide)⟩

/-- C24, counterexample: on the view `int_max_view` of size `INT_MAX` the member
`end()` returns an iterator in the end state, but incrementing it does not
stay at the end: `index_++` turns `INT_MAX` into `INT_MIN`, the test
`index_ >= size()` fails, and the scanning loop moves past the terminating
null and reads outside the storage of the string. No iterator in the end
state is produced. -/
theorem inc_end_leaves_end_on_int_max_view :
    int_max_view.target.wf int_max_storage ∧
    int_max_view.target.size int_max_storage = .ok 2147483647 ∧
    ∃ e, filtered_string_view.end int_max_storage int_max_view = .ok e ∧
      in_state int_max_storage int_max_view e .past_end ∧
      e.index_ = 2147483647 ∧ int_add e.index_ 1 = -2147483648 ∧
      e.operator_inc int_max_storage = .error .undefined ∧
      ¬ ∃ it, e.operator_inc int_max_storage = .ok it ∧
        in_state int_max_storage int_max_view it .past_end := by
  obtain ⟨hw, hv, hl, hs⟩ := int_max_view_spec
  have hend := end_eq_iter_at int_max_storage int_max_view hw (by omega) (by rw [hl]; decide)
  rw [hl] at hend
  have hinc : (iter_at int_max_storage int_max_view 2147483647).operator_inc int_max_storage
      = .error .undefined := inc_end_of_int_max_run 100 2147483647 rfl
  have hit : iter_at int_max_storage int_max_view 2147483647
      = ⟨int_max_view.target.end_position int_max_storage, int_max_view,
        (int_max_view.target.visible int_max_storage).length⟩ :=
    iter_at_of_ge int_max_storage int_max_view 2147483647 (le_of_eq hl)
  have hidx : (iter_at int_max_storage int_max_view 2147483647).index_ = 2147483647 := by
    rw [hit, hl]
    rfl
  have hadd : int_add (2147483647 : Int) 1 = -2147483648 := by
    unfold int_add
    rw [to_int_eq]
    split_ifs <;> omega
  refine ⟨hw, hs, _, hend, ?_, hidx, ?_, hinc, ?_⟩
  · exact (in_state_past_end_iff int_max_storage int_max_view _).mpr (by rw [hl])
  · rw [hidx]
    exact hadd
  · rintro ⟨it, h, _⟩
    rw [hinc] at h
    cases h

/-! ## The buffer of a composed view -/

/-- C22, at the failing inputs: whenever `compose(v, ps)` returns a view, its
`data()` is `v.data()` but its buffer length is `strlen(v.data())`, whatever
the buffer length of `v` is. For the view over the five characters `a`, NUL,
`b`, `x`, `c` the result has buffer length `1`, not `5`, for every list `ps`;
and on the default view `compose` returns no view at all, because
`strlen(nullptr)` is undefined. -/
theorem compose_takes_length_from_strlen :
    (∀ (m : Memory) (v w : filtered_string_view) (ps : List filter),
      compose m v ps = .ok w → w.data = v.data ∧ strlen m v.data = .ok w.length_) ∧
    (∀ ps : List filter, ∃ w, compose nul_storage nul_view ps = .ok w ∧
      w.data = nul_view.data ∧ w.length_ = 1 ∧ nul_view.length_ = 5) ∧
    (∀ (m : Memory) (ps : List filter) (w : filtered_string_view),
      compose m mk_default ps ≠ .ok w) := by
  refine ⟨?_, ?_, ?_⟩
  · intro m v w ps h
    unfold compose of_cstr_pred at h
    cases hs : strlen m v.data with
    | error e =>
      rw [hs] at h
      cases h
    | ok n =>
      rw [hs] at h
      cases h
      exact ⟨rfl, rfl⟩
  · intro ps
    exact ⟨⟨1, 1, compose_predicate ps⟩, rfl, rfl, rfl, rfl⟩
  · intro m ps w h
    rw [compose_null m mk_default rfl ps] at h
    cases h

/-! ## `split` and the greedy scan -/

end filtered_string_view
end fsv
